import Mathlib

/-!
The `smart_pointers` storage and ownership strategies

A shallow embedding of `smart_pointers.cc`.

* Raw pointers are `Option Nat`: `none` is `NULL`, `some p` is the base address of an allocation.
* The heap (`Mem`) holds the live resource allocations (`new T` / `new T[n]` blocks), the live
  `ReferenceCounter` objects and the live ring `Node` objects, together with the trace of
  deallocations performed so far (oldest first).
* Dereferencing a pointer that is `NULL` or not live is undefined behaviour in the source; the
  operations that do so return `none`.
* `size_t` is 64 bits wide; counter arithmetic is taken modulo `2 ^ 64`.
-/

namespace SmartPointers

/-- Deallocations observable in a run, in the order in which they happen. -/
inductive Event where
  /-- `delete ptr` on a non-null resource pointer (`SinglePtrStorageStrategy::deletePtr`) -/
  | delete (p : Nat)
  /-- `delete[] ptr` on a non-null resource pointer (`ArrayStorageStrategy::deletePtr`) -/
  | deleteArray (p : Nat)
  /-- `delete counter` in `~RefCounterOwnershipStrategy` -/
  | deleteCounter (c : Nat)
  /-- `delete node` in `~LinkedRefOwnershipStrategy` -/
  | deleteNode (n : Nat)
  deriving DecidableEq, Repr

/-- `struct Node { Node* next; Node* prev; }` -/
structure Node where
  next : Nat
  prev : Nat
  deriving DecidableEq, Repr

/-- The heap: resource blocks, reference counters, ring nodes, and the deallocation trace. -/
structure Mem (T : Type) where
  /-- live resource allocations: base address to contents (`new T` is a block of length 1) -/
  blocks : Nat → Option (List T)
  /-- live `ReferenceCounter` objects: address to the value of `count` -/
  counters : Nat → Option Nat
  /-- live `Node` objects -/
  nodes : Nat → Option Node
  /-- deallocations so far, oldest first -/
  trace : List Event

/-- The two storage strategies a handle can be instantiated with. -/
inductive StorageStrategy where
  | SinglePtrStorageStrategy
  | ArrayStorageStrategy
  deriving DecidableEq, Repr

/-- The deallocation a storage strategy performs on address `p`: `delete` or `delete[]`. -/
def StorageStrategy.deleteEvent : StorageStrategy → Nat → Event
  | .SinglePtrStorageStrategy, p => Event.delete p
  | .ArrayStorageStrategy, p => Event.deleteArray p

/-- `deletePtr()`: `delete ptr;` resp. `delete[] ptr;`. Deleting `NULL` does nothing. -/
def StorageStrategy.deletePtr {T : Type} (S : StorageStrategy) (m : Mem T) (ptr : Option Nat) :
    Mem T :=
  match ptr with
  | none => m
  | some p =>
    { m with blocks := Function.update m.blocks p none, trace := m.trace ++ [S.deleteEvent p] }

/-- `virtual ~StorageStrategy() { deletePtr(); }` -/
def StorageStrategy.dtor {T : Type} (S : StorageStrategy) (m : Mem T) (ptr : Option Nat) :
    Mem T :=
  S.deletePtr m ptr

namespace ArrayStorageStrategy

/-- `T operator [] (size_t pos) const { return *(ptr + pos); }` -/
def get {T : Type} (m : Mem T) (ptr : Option Nat) (pos : Nat) : Option T := do
  let p ← ptr
  let b ← m.blocks p
  b[pos]?

/-- A store through `T& operator [] (size_t pos) { return *(ptr + pos); }`, as in `h[pos] = v`. -/
def set {T : Type} (m : Mem T) (ptr : Option Nat) (pos : Nat) (v : T) : Option (Mem T) := do
  let p ← ptr
  let b ← m.blocks p
  if pos < b.length then
    pure { m with blocks := Function.update m.blocks p (some (b.set pos v)) }
  else
    none

/-- Stores `vs[0], vs[1], ...` to the indices `start, start + 1, ...`, in this order. -/
def setFrom {T : Type} (m : Mem T) (ptr : Option Nat) : Nat → List T → Option (Mem T)
  | _, [] => some m
  | start, v :: vs => do
    let m1 ← set m ptr start v
    setFrom m1 ptr (start + 1) vs

end ArrayStorageStrategy

namespace SmartPointer

/-- A load through `T& operator *() const { return *ptr; }` -/
def read {T : Type} (m : Mem T) (ptr : Option Nat) : Option T := do
  let p ← ptr
  let b ← m.blocks p
  b[0]?

/-- A store through `T& operator *() const { return *ptr; }`, as in `*h = v`. -/
def write {T : Type} (m : Mem T) (ptr : Option Nat) (v : T) : Option (Mem T) := do
  let p ← ptr
  let b ← m.blocks p
  if 0 < b.length then
    pure { m with blocks := Function.update m.blocks p (some (b.set 0 v)) }
  else
    none

end SmartPointer

/-! ## Delegate ownership -/

/-- The fields of a `DelegateOwnershipStrategy` object: the inherited `ptr`. -/
structure DelegateHandle where
  ptr : Option Nat
  deriving DecidableEq, Repr

/-- Delegate handles are passed by mutable reference, so the objects live in a store indexed by
their identity. -/
structure DelegateState (T : Type) where
  mem : Mem T
  obj : Nat → DelegateHandle

namespace DelegateOwnershipStrategy

/-- `T* free() { T* tmp = ptr; ptr = NULL; return tmp; }` -/
def free {T : Type} (st : DelegateState T) (this : Nat) : Option Nat × DelegateState T :=
  ((st.obj this).ptr, { st with obj := Function.update st.obj this ⟨none⟩ })

/-- `void reassign(T* newPtr) { if (newPtr != ptr) { deletePtr(); ptr = newPtr; } }` -/
def reassign {T : Type} (S : StorageStrategy) (st : DelegateState T) (this : Nat)
    (newPtr : Option Nat) : DelegateState T :=
  if newPtr ≠ (st.obj this).ptr then
    { mem := S.deletePtr st.mem (st.obj this).ptr
      obj := Function.update st.obj this ⟨newPtr⟩ }
  else
    st

/-- `operator =(DelegateOwnershipStrategy& other) { reassign(other.free()); return *this; }` -/
def assign {T : Type} (S : StorageStrategy) (st : DelegateState T) (this other : Nat) :
    DelegateState T :=
  let r := free st other
  reassign S r.2 this r.1

/-- `DelegateOwnershipStrategy(T* pointer): StorageStrategy<T>(pointer) {}` for a new object
`this`. -/
def ctor {T : Type} (st : DelegateState T) (this : Nat) (pointer : Option Nat) :
    DelegateState T :=
  { st with obj := Function.update st.obj this ⟨pointer⟩ }

/-- `DelegateOwnershipStrategy(DelegateOwnershipStrategy& other): StorageStrategy<T>(other.free())`
for a new object `this`. -/
def copyCtor {T : Type} (st : DelegateState T) (this other : Nat) : DelegateState T :=
  let r := free st other
  { r.2 with obj := Function.update r.2.obj this ⟨r.1⟩ }

/-- The implicit destructor: only the storage strategy's destructor runs. -/
def dtor {T : Type} (S : StorageStrategy) (st : DelegateState T) (this : Nat) :
    DelegateState T :=
  { st with mem := S.dtor st.mem (st.obj this).ptr }

end DelegateOwnershipStrategy

/-! ## Reference-counted ownership -/

namespace ReferenceCounter

/-- `void addReference() { ++count; }` on a `size_t`. -/
def addReference (count : Nat) : Nat := (count + 1) % 2 ^ 64

/-- `size_t release() { return --count; }` on a `size_t`: the new value, which is also the
value returned. Decrementing 0 wraps around to `2 ^ 64 - 1`; the result is
`(count + (2 ^ 64 - 1)) % 2 ^ 64` (`release_eq_mod`). -/
def release (count : Nat) : Nat :=
  if count % 2 ^ 64 = 0 then 2 ^ 64 - 1 else count % 2 ^ 64 - 1

end ReferenceCounter

/-- The fields of a `RefCounterOwnershipStrategy` object: the inherited `ptr` and `counter`. -/
structure RefCounterHandle where
  ptr : Option Nat
  counter : Option Nat
  deriving DecidableEq, Repr

namespace RefCounterOwnershipStrategy

/-- The constructor from a raw pointer:
`counter = new ReferenceCounter; counter->addReference();`.
`ReferenceCounter` has no constructor and `new ReferenceCounter` does not value-initialise, so
`count` starts from whatever the allocated memory holds: `c` is the address the allocator
returns and `garbage` the value found there. -/
def ctor {T : Type} (m : Mem T) (pointer : Option Nat) (c garbage : Nat) :
    Mem T × RefCounterHandle :=
  ({ m with counters := Function.update m.counters c
              (some (ReferenceCounter.addReference garbage)) },
   { ptr := pointer, counter := some c })

/-- The copy constructor:
`StorageStrategy<T>(other.ptr) { counter = other.counter; counter->addReference(); }` -/
def copyCtor {T : Type} (m : Mem T) (other : RefCounterHandle) :
    Option (Mem T × RefCounterHandle) := do
  let c ← other.counter
  let n ← m.counters c
  pure ({ m with counters := Function.update m.counters c
                   (some (ReferenceCounter.addReference n)) },
        { ptr := other.ptr, counter := some c })

/-- The body of `~RefCounterOwnershipStrategy()`:
`if (counter->release() != 0) { ptr = NULL; counter = NULL; } else { delete counter; }`.
Returns the heap and the fields of the object as the body leaves them. -/
def dtorBody {T : Type} (m : Mem T) (this : RefCounterHandle) :
    Option (Mem T × RefCounterHandle) := do
  let c ← this.counter
  let n ← m.counters c
  let n1 := ReferenceCounter.release n
  if n1 ≠ 0 then
    pure ({ m with counters := Function.update m.counters c (some n1) },
          { ptr := none, counter := none })
  else
    pure ({ m with counters := Function.update m.counters c none,
                   trace := m.trace ++ [Event.deleteCounter c] },
          this)

/-- Destruction of a handle: the body of the destructor, then the storage strategy's
destructor on the object's `ptr`. -/
def dtor {T : Type} (S : StorageStrategy) (m : Mem T) (this : RefCounterHandle) :
    Option (Mem T × RefCounterHandle) := do
  let r ← dtorBody m this
  pure (S.dtor r.1 r.2.ptr, r.2)

/-- `swap(lhs, rhs)`: `std::swap(lhs.counter, rhs.counter); std::swap(lhs.ptr, rhs.ptr);` -/
def swap (lhs rhs : RefCounterHandle) : RefCounterHandle × RefCounterHandle :=
  ({ ptr := rhs.ptr, counter := rhs.counter }, { ptr := lhs.ptr, counter := lhs.counter })

/-- `operator =(RefCounterOwnershipStrategy other) { swap(*this, other); return *this; }`:
the by-value parameter is copy-constructed from the right-hand side, swapped with `*this`, and
destroyed. Returns the heap and the new fields of `*this`. -/
def assign {T : Type} (S : StorageStrategy) (m : Mem T) (this rhs : RefCounterHandle) :
    Option (Mem T × RefCounterHandle) := do
  let r ← copyCtor m rhs
  let sw := swap this r.2
  let d ← dtor S r.1 sw.2
  pure (d.1, sw.1)

end RefCounterOwnershipStrategy

/-! ## Linked ownership -/

/-- The fields of a `LinkedRefOwnershipStrategy` object: the inherited `ptr` and `node`. -/
structure LinkedHandle where
  ptr : Option Nat
  node : Nat
  deriving DecidableEq, Repr

/-- The store `x->next = v`. -/
def Mem.setNext {T : Type} (m : Mem T) (x v : Nat) : Option (Mem T) := do
  let nd ← m.nodes x
  pure { m with nodes := Function.update m.nodes x (some { nd with next := v }) }

/-- The store `x->prev = v`. -/
def Mem.setPrev {T : Type} (m : Mem T) (x v : Nat) : Option (Mem T) := do
  let nd ← m.nodes x
  pure { m with nodes := Function.update m.nodes x (some { nd with prev := v }) }

namespace LinkedRefOwnershipStrategy

/-- The constructor from a raw pointer:
`node = new Node; node->next = node; node->prev = node;`, with `n` the address the allocator
returns. Both fields of the new node are stored before anything is loaded from it, so the node
appears in the heap with both fields set. -/
def ctor {T : Type} (m : Mem T) (pointer : Option Nat) (n : Nat) : Mem T × LinkedHandle :=
  ({ m with nodes := Function.update m.nodes n (some { next := n, prev := n }) },
   { ptr := pointer, node := n })

/-- The copy constructor, with `n` the address the allocator returns for `new Node`:
`node->next = other.node; node->prev = (other.node)->prev;`
`(other.node)->prev = node; (node->prev)->next = node;`.
The first two stores fill the new node (from a load of `(other.node)->prev`); the last two are
a store into the source's node and a store into the node found by loading `node->prev`. -/
def copyCtor {T : Type} (m : Mem T) (other : LinkedHandle) (n : Nat) :
    Option (Mem T × LinkedHandle) := do
  let o ← m.nodes other.node
  let m1 : Mem T :=
    { m with nodes := Function.update m.nodes n (some { next := other.node, prev := o.prev }) }
  let m2 ← m1.setPrev other.node n
  let nd ← m2.nodes n
  let m3 ← m2.setNext nd.prev n
  pure (m3, { ptr := other.ptr, node := n })

/-- The body of `~LinkedRefOwnershipStrategy()`:
`if (node->next != node) { (node->prev)->next = node->next; (node->next)->prev = node->prev;`
`ptr = NULL; } delete node;`.
Returns the heap and the fields of the object as the body leaves them. -/
def dtorBody {T : Type} (m : Mem T) (this : LinkedHandle) : Option (Mem T × LinkedHandle) := do
  let nd ← m.nodes this.node
  if nd.next ≠ this.node then
    let m1 ← m.setNext nd.prev nd.next
    let nd1 ← m1.nodes this.node
    let m2 ← m1.setPrev nd1.next nd1.prev
    pure ({ m2 with nodes := Function.update m2.nodes this.node none,
                    trace := m2.trace ++ [Event.deleteNode this.node] },
          { this with ptr := none })
  else
    pure ({ m with nodes := Function.update m.nodes this.node none,
                   trace := m.trace ++ [Event.deleteNode this.node] },
          this)

/-- Destruction of a handle: the body of the destructor, then the storage strategy's
destructor on the object's `ptr`. -/
def dtor {T : Type} (S : StorageStrategy) (m : Mem T) (this : LinkedHandle) :
    Option (Mem T × LinkedHandle) := do
  let r ← dtorBody m this
  pure (S.dtor r.1 r.2.ptr, r.2)

/-- `swap(lhs, rhs)`: `std::swap(lhs.node, rhs.node); std::swap(lhs.ptr, rhs.ptr);` -/
def swap (lhs rhs : LinkedHandle) : LinkedHandle × LinkedHandle :=
  ({ ptr := rhs.ptr, node := rhs.node }, { ptr := lhs.ptr, node := lhs.node })

/-- `operator =(LinkedRefOwnershipStrategy other) { swap(*this, other); return *this; }`:
the by-value parameter is copy-constructed from the right-hand side (with `n` the address of its
new node), swapped with `*this`, and destroyed. Returns the heap and the new fields of `*this`. -/
def assign {T : Type} (S : StorageStrategy) (m : Mem T) (this rhs : LinkedHandle) (n : Nat) :
    Option (Mem T × LinkedHandle) := do
  let r ← copyCtor m rhs n
  let sw := swap this r.2
  let d ← dtor S r.1 sw.2
  pure (d.1, sw.1)

end LinkedRefOwnershipStrategy

/-! ## Scenarios -/

/-- The heap at program start: nothing allocated, nothing deallocated yet. -/
def Mem.empty (T : Type) : Mem T :=
  { blocks := fun _ => none, counters := fun _ => none, nodes := fun _ => none, trace := [] }

/-- The heap right after `new T[n]` (or `new T` for a one-element list) returned address `p`
and the elements were given the values `b`. -/
def Mem.alloc {T : Type} (m : Mem T) (p : Nat) (b : List T) : Mem T :=
  { m with blocks := Function.update m.blocks p (some b) }

/-- Copy-constructs further co-owners one after the other: each entry of the last argument is
the position (oldest first) of the existing handle that is copied. Returns the heap and all
handles, oldest first. -/
def RefCounterOwnershipStrategy.copies {T : Type} :
    Mem T → List RefCounterHandle → List Nat → Option (Mem T × List RefCounterHandle)
  | m, hs, [] => some (m, hs)
  | m, hs, i :: rest => do
    let other ← hs[i]?
    let r ← copyCtor m other
    copies r.1 (hs ++ [r.2]) rest

/-- One handle constructed from `pointer` (the counter allocated at `c`, its memory holding
`garbage`), then `srcs.length` further co-owners made by copy construction. -/
def RefCounterOwnershipStrategy.coOwners {T : Type} (m : Mem T) (pointer : Option Nat)
    (c garbage : Nat) (srcs : List Nat) : Option (Mem T × List RefCounterHandle) :=
  copies (ctor m pointer c garbage).1 [(ctor m pointer c garbage).2] srcs

/-- Destroys the given handles in list order. Returns the heap and the fields each object was
left with. -/
def RefCounterOwnershipStrategy.dtorAll {T : Type} (S : StorageStrategy) :
    Mem T → List RefCounterHandle → Option (Mem T × List RefCounterHandle)
  | m, [] => some (m, [])
  | m, h :: hs => do
    let r ← dtor S m h
    let rs ← dtorAll S r.1 hs
    pure (rs.1, r.2 :: rs.2)

/-- Copy-constructs further co-owners one after the other: each entry of the last argument is
the position (oldest first) of the existing handle that is copied, and the address the allocator
returns for the new node. Returns the heap and all handles, oldest first. -/
def LinkedRefOwnershipStrategy.copies {T : Type} :
    Mem T → List LinkedHandle → List (Nat × Nat) → Option (Mem T × List LinkedHandle)
  | m, hs, [] => some (m, hs)
  | m, hs, (i, n) :: rest => do
    let other ← hs[i]?
    let r ← copyCtor m other n
    copies r.1 (hs ++ [r.2]) rest

/-- One handle constructed from `pointer` (its node allocated at `n`), then `cps.length`
further co-owners made by copy construction. -/
def LinkedRefOwnershipStrategy.coOwners {T : Type} (m : Mem T) (pointer : Option Nat)
    (n : Nat) (cps : List (Nat × Nat)) : Option (Mem T × List LinkedHandle) :=
  copies (ctor m pointer n).1 [(ctor m pointer n).2] cps

/-- Destroys the given handles in list order. Returns the heap and the fields each object was
left with. -/
def LinkedRefOwnershipStrategy.dtorAll {T : Type} (S : StorageStrategy) :
    Mem T → List LinkedHandle → Option (Mem T × List LinkedHandle)
  | m, [] => some (m, [])
  | m, h :: hs => do
    let r ← dtor S m h
    let rs ← dtorAll S r.1 hs
    pure (rs.1, r.2 :: rs.2)

/-- `SourcesExist k srcs`: with `k` handles existing at the start, every copy construction of
the run takes its source among the handles that exist when it is made (`srcs` lists the
positions of the sources, oldest handle first). -/
def SourcesExist : Nat → List Nat → Prop
  | _, [] => True
  | k, i :: rest => i < k ∧ SourcesExist (k + 1) rest

instance : (k : Nat) → (srcs : List Nat) → Decidable (SourcesExist k srcs)
  | _, [] => by
    unfold SourcesExist
    infer_instance
  | k, i :: rest => by
    unfold SourcesExist
    have := instDecidableSourcesExist (k + 1) rest
    infer_instance

/-- The load `x->next`. -/
def Mem.next? {T : Type} (m : Mem T) (x : Nat) : Option Nat := (m.nodes x).map Node.next

/-- The load `x->prev`. -/
def Mem.prev? {T : Type} (m : Mem T) (x : Nat) : Option Nat := (m.nodes x).map Node.prev

/-- Nodes `a` and `b` are live and adjacent: `a->next == b` and `b->prev == a`. -/
def IsLink {T : Type} (m : Mem T) (a b : Nat) : Prop :=
  m.next? a = some b ∧ m.prev? b = some a

instance {T : Type} (m : Mem T) (a b : Nat) : Decidable (IsLink m a b) := by
  unfold IsLink
  infer_instance

/-- `RingPath m first a l`: from node `a`, following `next` visits the nodes of `l` in order
and then arrives at `first`; each `next` link is mirrored by the `prev` link. -/
def RingPath {T : Type} (m : Mem T) (first : Nat) : Nat → List Nat → Prop
  | a, [] => IsLink m a first
  | a, b :: l => IsLink m a b ∧ RingPath m first b l

instance {T : Type} (m : Mem T) (first : Nat) :
    (a : Nat) → (l : List Nat) → Decidable (RingPath m first a l)
  | a, [] => by
    unfold RingPath
    infer_instance
  | a, b :: l => by
    unfold RingPath
    have := instDecidableRingPath m first b l
    infer_instance

/-- `Ring m l`: the distinct live nodes `l`, listed in `next` order from any starting node, form
a circular doubly-linked ring (following `next` from the last node arrives at the first). -/
def Ring {T : Type} (m : Mem T) : List Nat → Prop
  | [] => False
  | a :: l => (a :: l).Nodup ∧ RingPath m a a l

instance {T : Type} (m : Mem T) : (l : List Nat) → Decidable (Ring m l)
  | [] => by
    unfold Ring
    infer_instance
  | a :: l => by
    unfold Ring
    infer_instance

/-- `ResourceReleasedFirst ev rel free`: in the sequence of effects `ev`, the deallocation `rel`
is among the effects that precede the deallocation `free`. -/
def ResourceReleasedFirst (ev : List Event) (rel free : Event) : Prop :=
  rel ∈ ev.takeWhile fun e => e ≠ free

instance (ev : List Event) (rel free : Event) : Decidable (ResourceReleasedFirst ev rel free) := by
  unfold ResourceReleasedFirst
  infer_instance


/-! ## Programs over Linked handles -/

/-- The Linked handle objects that are alive at some point of a program (their fields), and
the heap. -/
structure LinkedState (T : Type) where
  mem : Mem T
  live : List LinkedHandle

/-- The operations of a program on Linked handles. `n` is the address the allocator returns
for the node the operation allocates; operand handles are given by their fields. -/
inductive LinkedOp where
  /-- a new handle is constructed from the raw pointer to a resource `p` -/
  | construct (p n : Nat)
  /-- a new handle is copy-constructed from the live handle `other` -/
  | copy (other : LinkedHandle) (n : Nat)
  /-- `this = rhs` for live handles `this` and `rhs` (possibly the same) -/
  | assign (this rhs : LinkedHandle) (n : Nat)
  /-- the live handle `this` is destroyed -/
  | destroy (this : LinkedHandle)

/-- What a well-formed program and the allocator guarantee before an operation: operands are
live handles, the allocator returns an address that is not allocated, and a constructor is
handed a resource that no live handle holds. -/
def LinkedOp.Admissible {T : Type} (st : LinkedState T) : LinkedOp → Prop
  | .construct p n => st.mem.nodes n = none ∧ ∀ h ∈ st.live, h.ptr ≠ some p
  | .copy other n => other ∈ st.live ∧ st.mem.nodes n = none
  | .assign this rhs n => this ∈ st.live ∧ rhs ∈ st.live ∧ st.mem.nodes n = none
  | .destroy this => this ∈ st.live

instance {T : Type} (st : LinkedState T) : (op : LinkedOp) → Decidable (op.Admissible st)
  | .construct _ _ => by
    unfold LinkedOp.Admissible
    infer_instance
  | .copy _ _ => by
    unfold LinkedOp.Admissible
    infer_instance
  | .assign _ _ _ => by
    unfold LinkedOp.Admissible
    infer_instance
  | .destroy _ => by
    unfold LinkedOp.Admissible
    infer_instance

/-- One operation of a program. The result is `none` when the operation is not admissible or
runs into undefined behaviour. -/
def LinkedState.step {T : Type} (S : StorageStrategy) (st : LinkedState T) (op : LinkedOp) :
    Option (LinkedState T) :=
  if op.Admissible st then
    match op with
    | .construct p n =>
      some { mem := (LinkedRefOwnershipStrategy.ctor st.mem (some p) n).1
             live := st.live ++ [(LinkedRefOwnershipStrategy.ctor st.mem (some p) n).2] }
    | .copy other n =>
      (LinkedRefOwnershipStrategy.copyCtor st.mem other n).map fun r =>
        { mem := r.1, live := st.live ++ [r.2] }
    | .assign this rhs n =>
      (LinkedRefOwnershipStrategy.assign S st.mem this rhs n).map fun r =>
        { mem := r.1, live := st.live.erase this ++ [r.2] }
    | .destroy this =>
      (LinkedRefOwnershipStrategy.dtor S st.mem this).map fun r =>
        { mem := r.1, live := st.live.erase this }
  else
    none

/-- A program: its operations one after the other. -/
def LinkedState.run {T : Type} (S : StorageStrategy) :
    LinkedState T → List LinkedOp → Option (LinkedState T)
  | st, [] => some st
  | st, op :: ops => (st.step S op).bind fun st1 => LinkedState.run S st1 ops

/-- The nodes of the live handles that hold the pointer `q`. -/
def coOwnerNodes (live : List LinkedHandle) (q : Option Nat) : List Nat :=
  (live.filter fun h => h.ptr = q).map LinkedHandle.node

/-- The ring invariant: the live handles own distinct nodes, and for every live handle the
nodes of the handles holding the same pointer are exactly the nodes of one ring. -/
def LinkedInv {T : Type} (st : LinkedState T) : Prop :=
  (st.live.map LinkedHandle.node).Nodup ∧
  ∀ h ∈ st.live, ∃ L, Ring st.mem L ∧ L.Perm (coOwnerNodes st.live h.ptr)


/-! ## Programs over Delegate handles -/

/-- A point of a program over Delegate handles: the handle objects and the heap, the
identities of the live objects, the resources handed to constructors so far, and the record of
the donations made by live handles (`(a, r)`: handle `a` was the source of a copy construction
or of an assignment while holding `r`). -/
structure DelegateMachine (T : Type) where
  st : DelegateState T
  live : List Nat
  used : List Nat
  donated : List (Nat × Nat)

/-- The operations of a program on Delegate handles; handles are named by their identity. -/
inductive DelegateOp where
  /-- a new handle `this` is constructed from the raw pointer to a resource `p` -/
  | construct (this p : Nat)
  /-- a new handle `this` is copy-constructed from the live handle `other` -/
  | copy (this other : Nat)
  /-- `this = other` for live handles `this` and `other` (possibly the same) -/
  | assign (this other : Nat)
  /-- the live handle `this` is destroyed -/
  | destroy (this : Nat)

/-- What a well-formed program guarantees before an operation: operands are live handles, a
new handle is not one of the live ones, and each constructor is handed a resource that no
constructor was handed before. -/
def DelegateOp.Admissible {T : Type} (M : DelegateMachine T) : DelegateOp → Prop
  | .construct this p => this ∉ M.live ∧ p ∉ M.used
  | .copy this other => this ∉ M.live ∧ other ∈ M.live
  | .assign this other => this ∈ M.live ∧ other ∈ M.live
  | .destroy this => this ∈ M.live

instance {T : Type} (M : DelegateMachine T) : (op : DelegateOp) → Decidable (op.Admissible M)
  | .construct _ _ => by
    unfold DelegateOp.Admissible
    infer_instance
  | .copy _ _ => by
    unfold DelegateOp.Admissible
    infer_instance
  | .assign _ _ => by
    unfold DelegateOp.Admissible
    infer_instance
  | .destroy _ => by
    unfold DelegateOp.Admissible
    infer_instance

/-- The donation recorded when `other` is the source of a copy construction or of an
assignment: the resource it holds, if it holds one. -/
def DelegateMachine.donation {T : Type} (M : DelegateMachine T) (other : Nat) :
    List (Nat × Nat) :=
  match (M.st.obj other).ptr with
  | some r => [(other, r)]
  | none => []

/-- One operation of a program; `none` when the operation is not admissible. -/
def DelegateMachine.step {T : Type} (S : StorageStrategy) (M : DelegateMachine T)
    (op : DelegateOp) : Option (DelegateMachine T) :=
  if op.Admissible M then
    match op with
    | .construct this p =>
      some { M with
             st := DelegateOwnershipStrategy.ctor M.st this (some p)
             live := this :: M.live
             used := p :: M.used }
    | .copy this other =>
      some { M with
             st := DelegateOwnershipStrategy.copyCtor M.st this other
             live := this :: M.live
             donated := M.donation other ++ M.donated }
    | .assign this other =>
      some { M with
             st := DelegateOwnershipStrategy.assign S M.st this other
             donated := (if this = other then [] else M.donation other) ++ M.donated }
    | .destroy this =>
      some { M with
             st := DelegateOwnershipStrategy.dtor S M.st this
             live := M.live.erase this
             donated := M.donated.filter fun d => d.1 ≠ this }
  else
    none

/-- A program: its operations one after the other. -/
def DelegateMachine.run {T : Type} (S : StorageStrategy) :
    DelegateMachine T → List DelegateOp → Option (DelegateMachine T)
  | M, [] => some M
  | M, op :: ops => (M.step S op).bind fun M1 => DelegateMachine.run S M1 ops

/-- The start of a program: no live handle, no resource handed out, nothing deallocated. -/
def DelegateMachine.init {T : Type} (blocks : Nat → Option (List T)) : DelegateMachine T :=
  { st := { mem := { Mem.empty T with blocks := blocks }, obj := fun _ => ⟨none⟩ }
    live := [], used := [], donated := [] }

/-- The single-holder property with the donor clause read as a property of states: no two live
handles hold the same resource, every live handle recorded as having donated a resource holds
`NULL`, and no resource has been deallocated more than once. -/
def DelegateDonorsNull {T : Type} (S : StorageStrategy) (M : DelegateMachine T) : Prop :=
  (∀ a ∈ M.live, ∀ b ∈ M.live, a ≠ b → (M.st.obj a).ptr = (M.st.obj b).ptr →
    (M.st.obj a).ptr = none) ∧
  (∀ d ∈ M.donated, (M.st.obj d.1).ptr = none) ∧
  (∀ p, M.st.mem.trace.count (S.deleteEvent p) ≤ 1)

/-- The invariant of programs over Delegate handles: live handles are distinct objects, they
hold only resources that were handed to a constructor and have not been deallocated, no two
of them hold the same resource, and every deallocation so far was of a resource handed to a
constructor, each at most once. -/
def DelegateInv {T : Type} (S : StorageStrategy) (M : DelegateMachine T) : Prop :=
  M.live.Nodup ∧
  (∀ a ∈ M.live, ∀ p, (M.st.obj a).ptr = some p →
    p ∈ M.used ∧ S.deleteEvent p ∉ M.st.mem.trace) ∧
  (∀ a ∈ M.live, ∀ b ∈ M.live, a ≠ b → (M.st.obj a).ptr = (M.st.obj b).ptr →
    (M.st.obj a).ptr = none) ∧
  (∀ e ∈ M.st.mem.trace, ∃ r ∈ M.used, e = S.deleteEvent r) ∧
  M.st.mem.trace.Nodup


/-- The handle an operation constructs or assigns to, if any. -/
def DelegateOp.target : DelegateOp → Option Nat
  | .construct this _ => some this
  | .copy this _ => some this
  | .assign this _ => some this
  | .destroy _ => none


/-! ## Programs over Ref-Counted handles -/

/-- A point of a program over Ref-Counted handles: the heap and the fields of the live handle
objects (one entry per object, so copies appear as repeated entries). -/
structure RefCounterState (T : Type) where
  mem : Mem T
  live : List RefCounterHandle

/-- The operations of a program on Ref-Counted handles. -/
inductive RefCounterOp where
  /-- a new handle is constructed from the raw pointer to a resource `p`; `new
  ReferenceCounter` returns address `c`, where the memory holds `garbage` -/
  | construct (p c garbage : Nat)
  /-- a new handle is copy-constructed from the live handle `other` -/
  | copy (other : RefCounterHandle)
  /-- `this = rhs` for live handles `this` and `rhs` (possibly the same) -/
  | assign (this rhs : RefCounterHandle)
  /-- the live handle `this` is destroyed -/
  | destroy (this : RefCounterHandle)

/-- What a well-formed program and the allocator guarantee before an operation: operands are
live handles and `new` returns an address that is not allocated. -/
def RefCounterOp.Admissible {T : Type} (st : RefCounterState T) : RefCounterOp → Prop
  | .construct _ c _ => st.mem.counters c = none
  | .copy other => other ∈ st.live
  | .assign this rhs => this ∈ st.live ∧ rhs ∈ st.live
  | .destroy this => this ∈ st.live

instance {T : Type} (st : RefCounterState T) : (op : RefCounterOp) → Decidable (op.Admissible st)
  | .construct _ _ _ => by
    unfold RefCounterOp.Admissible
    infer_instance
  | .copy _ => by
    unfold RefCounterOp.Admissible
    infer_instance
  | .assign _ _ => by
    unfold RefCounterOp.Admissible
    infer_instance
  | .destroy _ => by
    unfold RefCounterOp.Admissible
    infer_instance

/-- One operation of a program. The result is `none` when the operation is not admissible or
runs into undefined behaviour. An assignment removes the old fields of `this` from the live
handles (they are destroyed with the by-value parameter) and adds the new ones. -/
def RefCounterState.step {T : Type} (S : StorageStrategy) (st : RefCounterState T)
    (op : RefCounterOp) : Option (RefCounterState T) :=
  if op.Admissible st then
    match op with
    | .construct p c garbage =>
      some { mem := (RefCounterOwnershipStrategy.ctor st.mem (some p) c garbage).1
             live := st.live ++ [(RefCounterOwnershipStrategy.ctor st.mem (some p) c garbage).2] }
    | .copy other =>
      (RefCounterOwnershipStrategy.copyCtor st.mem other).map fun r =>
        { mem := r.1, live := st.live ++ [r.2] }
    | .assign this rhs =>
      (RefCounterOwnershipStrategy.assign S st.mem this rhs).map fun r =>
        { mem := r.1, live := st.live.erase this ++ [r.2] }
    | .destroy this =>
      (RefCounterOwnershipStrategy.dtor S st.mem this).map fun r =>
        { mem := r.1, live := st.live.erase this }
  else
    none

/-- A program: its operations one after the other. -/
def RefCounterState.run {T : Type} (S : StorageStrategy) :
    RefCounterState T → List RefCounterOp → Option (RefCounterState T)
  | st, [] => some st
  | st, op :: ops => (st.step S op).bind fun st1 => RefCounterState.run S st1 ops

/-- The number of live handles whose `counter` field points to the counter at `c`. -/
def sharers (live : List RefCounterHandle) (c : Nat) : Nat :=
  live.countP fun h => h.counter = some c

/-- The counter invariant: the value of every live counter is the number of live handles
whose `counter` field points to it, it is at least 1, and all those handles hold the same
resource pointer. -/
def RefCounterInv {T : Type} (st : RefCounterState T) : Prop :=
  ∀ c v, st.mem.counters c = some v →
    v = sharers st.live c ∧ 1 ≤ v ∧
    ∀ h1 ∈ st.live, ∀ h2 ∈ st.live, h1.counter = some c → h2.counter = some c →
      h1.ptr = h2.ptr

/-- The operation finds zeroed memory where it allocates a counter (as a constructor of
`ReferenceCounter` that initialises `count` to 0 would arrange). -/
def RefCounterOp.Zeroed : RefCounterOp → Prop
  | .construct _ _ garbage => garbage = 0
  | _ => True

/-- The counter invariant together with the fact that the `counter` field of every live
handle points to a live counter. -/
def RefCounterWF {T : Type} (st : RefCounterState T) : Prop :=
  RefCounterInv st ∧ ∀ h ∈ st.live, ∃ c v, h.counter = some c ∧ st.mem.counters c = some v


/-! # Theorems -/

section Basic

variable {T : Type}

@[simp] theorem deletePtr_none (S : StorageStrategy) (m : Mem T) : S.deletePtr m none = m := rfl

@[simp] theorem deletePtr_some_trace (S : StorageStrategy) (m : Mem T) (p : Nat) :
    (S.deletePtr m (some p)).trace = m.trace ++ [S.deleteEvent p] := rfl

@[simp] theorem deletePtr_some_blocks (S : StorageStrategy) (m : Mem T) (p : Nat) :
    (S.deletePtr m (some p)).blocks = Function.update m.blocks p none := rfl

@[simp] theorem deletePtr_counters (S : StorageStrategy) (m : Mem T) (ptr : Option Nat) :
    (S.deletePtr m ptr).counters = m.counters := by
  cases ptr <;> rfl

@[simp] theorem deletePtr_nodes (S : StorageStrategy) (m : Mem T) (ptr : Option Nat) :
    (S.deletePtr m ptr).nodes = m.nodes := by
  cases ptr <;> rfl

end Basic

/-! ## Delegate ownership: copy construction and assignment -/

section Delegate

variable {T : Type}

open DelegateOwnershipStrategy

/-- C5. Delegate: when `B` is copy-constructed from a handle `A` holding `p`, `A` ends up
holding `NULL` and `B` holding `p`, nothing is deallocated by the copy; destroying `A`
afterwards deallocates nothing, destroying `B` deallocates `p`, and destroying both (in either
order) deallocates `p` exactly once. -/
theorem delegate_copy_transfers (S : StorageStrategy) (st : DelegateState T) (A B p : Nat)
    (hAB : A ≠ B) (hA : (st.obj A).ptr = some p) :
    ((copyCtor st B A).obj A).ptr = none ∧
    ((copyCtor st B A).obj B).ptr = some p ∧
    (copyCtor st B A).mem = st.mem ∧
    (dtor S (copyCtor st B A) A).mem = st.mem ∧
    (dtor S (copyCtor st B A) B).mem.trace = st.mem.trace ++ [S.deleteEvent p] ∧
    (dtor S (dtor S (copyCtor st B A) A) B).mem.trace = st.mem.trace ++ [S.deleteEvent p] ∧
    (dtor S (dtor S (copyCtor st B A) B) A).mem.trace = st.mem.trace ++ [S.deleteEvent p] := by
  simp [copyCtor, free, dtor, StorageStrategy.dtor, Function.update_apply, hAB, hA]

/-- C5 at a concrete state: `A = 0` holds address 7, `B = 1` is copy-constructed from it. -/
theorem delegate_copy_transfers_witness :
    ((copyCtor (T := Int) ⟨Mem.empty Int, fun _ => ⟨some 7⟩⟩ 1 0).obj 0).ptr = none ∧
    ((copyCtor (T := Int) ⟨Mem.empty Int, fun _ => ⟨some 7⟩⟩ 1 0).obj 1).ptr = some 7 :=
  have h := delegate_copy_transfers (T := Int) StorageStrategy.SinglePtrStorageStrategy
    ⟨Mem.empty Int, fun _ => ⟨some 7⟩⟩ 0 1 7 (by decide) rfl
  ⟨h.1, h.2.1⟩

/-- C6. Delegate assignment `a = b` between two distinct handles holding different pointers
`p` and `q` (either may be `NULL`): afterwards `a` holds `q`, `b` holds `NULL`, the only
deallocation performed is that of `p` (none when `p` is `NULL`), and the block of `q` is
untouched. -/
theorem delegate_assign_distinct (S : StorageStrategy) (st : DelegateState T) (a b : Nat)
    (p q : Option Nat) (hab : a ≠ b) (ha : (st.obj a).ptr = p) (hb : (st.obj b).ptr = q)
    (hpq : p ≠ q) :
    ((assign S st a b).obj a).ptr = q ∧
    ((assign S st a b).obj b).ptr = none ∧
    (assign S st a b).mem.trace = st.mem.trace ++ (p.map S.deleteEvent).toList ∧
    (∀ y, q = some y → (assign S st a b).mem.blocks y = st.mem.blocks y) := by
  have key : assign S st a b =
      { mem := S.deletePtr st.mem p
        obj := Function.update (Function.update st.obj b ⟨none⟩) a ⟨q⟩ } := by
    simp [assign, free, reassign, Function.update_apply, hab, ha, hb, Ne.symm hpq]
  rw [key]
  refine ⟨by simp, by simp [Function.update_apply, hab.symm], ?_, ?_⟩
  · cases p <;> simp
  · intro y hy
    cases p with
    | none => simp
    | some x =>
      have hxy : y ≠ x := by
        rintro rfl
        exact hpq hy.symm
      simp [hxy]

/-- C6 at a concrete state: `a = 0` holds address 7, `b = 1` holds address 8. -/
theorem delegate_assign_distinct_witness :
    (assign (T := Int) StorageStrategy.SinglePtrStorageStrategy
      ⟨Mem.empty Int, fun i => ⟨some (7 + i)⟩⟩ 0 1).mem.trace = [Event.delete 7] :=
  (delegate_assign_distinct (T := Int) StorageStrategy.SinglePtrStorageStrategy
    ⟨Mem.empty Int, fun i => ⟨some (7 + i)⟩⟩ 0 1 (some 7) (some 8) (by decide) rfl rfl
    (by decide)).2.2.1

end Delegate

/-! ## Array storage -/

section ArrayStorage

variable {T : Type}

theorem set_eq_some (m : Mem T) (p : Nat) (b : List T) (hb : m.blocks p = some b) (i : Nat)
    (v : T) (hi : i < b.length) :
    ArrayStorageStrategy.set m (some p) i v =
      some { m with blocks := Function.update m.blocks p (some (b.set i v)) } := by
  simp [ArrayStorageStrategy.set, hb, hi]

theorem get_of_block (m : Mem T) (p : Nat) (b : List T) (hb : m.blocks p = some b) (j : Nat) :
    ArrayStorageStrategy.get m (some p) j = b[j]? := by
  simp [ArrayStorageStrategy.get, hb]

theorem setFrom_spec (p : Nat) (vs : List T) :
    ∀ (m : Mem T) (b : List T) (s : Nat), m.blocks p = some b → s + vs.length ≤ b.length →
      ∃ m2 b2, ArrayStorageStrategy.setFrom m (some p) s vs = some m2 ∧ m2.blocks p = some b2 ∧
        b2.length = b.length ∧
        ∀ j, b2[j]? = if s ≤ j ∧ j < s + vs.length then vs[j - s]? else b[j]? := by
  induction vs with
  | nil =>
    intro m b s hb _
    refine ⟨m, b, rfl, hb, rfl, fun j => ?_⟩
    have h0 : ¬ (s ≤ j ∧ j < s + ([] : List T).length) := by
      simp only [List.length_nil]
      omega
    rw [if_neg h0]
  | cons v vs ih =>
    intro m b s hb hlen
    simp only [List.length_cons] at hlen
    have hs : s < b.length := by omega
    obtain ⟨m2, b2, h1, h2, h3, h4⟩ :=
      ih { m with blocks := Function.update m.blocks p (some (b.set s v)) } (b.set s v) (s + 1)
        (by simp) (by simp; omega)
    refine ⟨m2, b2, ?_, h2, by simpa using h3, ?_⟩
    · simp [ArrayStorageStrategy.setFrom, set_eq_some m p b hb s v hs, h1]
    · intro j
      rw [h4 j, List.getElem?_set]
      by_cases hj : s = j
      · subst hj
        simp [hs]
      · by_cases hj2 : s + 1 ≤ j ∧ j < s + 1 + vs.length
        · have h5 : s ≤ j ∧ j < s + (vs.length + 1) := by omega
          have h6 : j - s = (j - (s + 1)) + 1 := by omega
          simp only [hj2, h5, and_self, if_true, List.length_cons, h6, List.getElem?_cons_succ]
        · have h5 : ¬ (s ≤ j ∧ j < s + (vs.length + 1)) := by omega
          simp only [hj2, h5, if_false, hj, List.length_cons]

/-- C9. Array storage round trip: in a live `n`-element block, storing `v` through `h[i]` for
`i < n` succeeds, a following load of `h[i]` gives `v`, and the load of every other index is
what it was before; and storing the values `vs` (one per element) to the indices `0 .. n-1`
in turn succeeds, after which the load of each index `j` gives `vs[j]`. -/
theorem array_store_load (m : Mem T) (p : Nat) (b : List T) (hb : m.blocks p = some b) :
    (∀ i v, i < b.length → ∃ m1, ArrayStorageStrategy.set m (some p) i v = some m1 ∧
      ArrayStorageStrategy.get m1 (some p) i = some v ∧ ∀ j, j ≠ i → ArrayStorageStrategy.get m1 (some p) j = ArrayStorageStrategy.get m (some p) j) ∧
    (∀ vs : List T, vs.length = b.length → ∃ m2, ArrayStorageStrategy.setFrom m (some p) 0 vs = some m2 ∧
      ∀ j, ArrayStorageStrategy.get m2 (some p) j = vs[j]?) := by
  constructor
  · intro i v hi
    refine ⟨_, set_eq_some m p b hb i v hi, ?_, ?_⟩
    · simp [ArrayStorageStrategy.get, hi]
    · intro j hj
      simp [ArrayStorageStrategy.get, hb, List.getElem?_set, Ne.symm hj]
  · intro vs hvs
    obtain ⟨m2, b2, h1, h2, h3, h4⟩ := setFrom_spec p vs m b 0 hb (by omega)
    refine ⟨m2, h1, fun j => ?_⟩
    rw [get_of_block m2 p b2 h2, h4 j]
    by_cases hj : j < vs.length
    · simp [hj]
    · have h5 : b.length ≤ j := by omega
      simp [hj, List.getElem?_eq_none h5, List.getElem?_eq_none (Nat.le_of_not_lt hj)]

/-- C9 on the three-element block of `main`: storing 3, 2, 1 and loading index 1 gives 2. -/
theorem array_store_load_witness :
    ∃ m2, ArrayStorageStrategy.setFrom (Mem.alloc (Mem.empty Int) 7 [0, 0, 0]) (some 7) 0 [3, 2, 1] = some m2 ∧
      ArrayStorageStrategy.get m2 (some 7) 0 = some 3 ∧ ArrayStorageStrategy.get m2 (some 7) 1 = some 2 ∧ ArrayStorageStrategy.get m2 (some 7) 2 = some 1 := by
  obtain ⟨m2, h1, h2⟩ :=
    (array_store_load (Mem.alloc (Mem.empty Int) 7 [0, 0, 0]) 7 [0, 0, 0]
      (by simp [Mem.alloc])).2 [3, 2, 1] rfl
  exact ⟨m2, h1, by simp [h2], by simp [h2], by simp [h2]⟩

end ArrayStorage

/-! ## Reference-counted ownership -/

section Counter

theorem addReference_of_lt (c : Nat) (h : c + 1 < 2 ^ 64) :
    ReferenceCounter.addReference c = c + 1 := by
  unfold ReferenceCounter.addReference
  omega

theorem addReference_max : ReferenceCounter.addReference (2 ^ 64 - 1) = 0 := by
  unfold ReferenceCounter.addReference
  norm_num

theorem addReference_lt (c : Nat) : ReferenceCounter.addReference c < 2 ^ 64 := by
  unfold ReferenceCounter.addReference
  omega

theorem release_eq_mod (c : Nat) :
    ReferenceCounter.release c = (c + (2 ^ 64 - 1)) % 2 ^ 64 := by
  unfold ReferenceCounter.release
  split <;> omega

theorem release_succ (c : Nat) (h : c < 2 ^ 64) : ReferenceCounter.release (c + 1) = c := by
  rw [release_eq_mod]
  omega

theorem release_zero : ReferenceCounter.release 0 = 2 ^ 64 - 1 := by
  simp [ReferenceCounter.release]

theorem release_addReference (c : Nat) (h : c < 2 ^ 64) :
    ReferenceCounter.release (ReferenceCounter.addReference c) = c := by
  rw [release_eq_mod]
  unfold ReferenceCounter.addReference
  omega

end Counter

section RefCounted

variable {T : Type}

theorem Mem.update_counters_self (m : Mem T) (c v : Nat) (h : m.counters c = some v) :
    ({ blocks := m.blocks, counters := Function.update m.counters c (some v),
       nodes := m.nodes, trace := m.trace } : Mem T) = m := by
  cases m
  simp only at h
  rw [← h, Function.update_eq_self]

/-- C7. Ref-counted self-assignment: for a handle `h` whose counter holds `c` with
`1 ≤ c < 2 ^ 64`, `h = h` succeeds and leaves both the heap (the counter's value, the live
blocks and counters, the deallocation trace) and the fields of `h` exactly as they were. -/
theorem refcounted_self_assign (S : StorageStrategy) (m : Mem T) (h : RefCounterHandle)
    (cref c : Nat) (hc : h.counter = some cref) (hm : m.counters cref = some c)
    (h1 : 1 ≤ c) (h2 : c < 2 ^ 64) :
    RefCounterOwnershipStrategy.assign S m h h = some (m, h) := by
  have hne : c ≠ 0 := by omega
  obtain ⟨hp, hcnt⟩ := h
  simp only at hc
  subst hc
  simp [RefCounterOwnershipStrategy.assign, RefCounterOwnershipStrategy.copyCtor,
    RefCounterOwnershipStrategy.swap, RefCounterOwnershipStrategy.dtor,
    RefCounterOwnershipStrategy.dtorBody, hm, release_addReference c h2, hne,
    StorageStrategy.dtor, Mem.update_counters_self m cref c hm]

/-- C7 at the largest counter value, where the temporary's increment wraps around to 0. -/
theorem refcounted_self_assign_witness :
    RefCounterOwnershipStrategy.assign (T := Int) StorageStrategy.SinglePtrStorageStrategy
      (RefCounterOwnershipStrategy.ctor (Mem.empty Int) (some 7) 100 (2 ^ 64 - 2)).1
      ⟨some 7, some 100⟩ ⟨some 7, some 100⟩
      = some ((RefCounterOwnershipStrategy.ctor (Mem.empty Int) (some 7) 100 (2 ^ 64 - 2)).1,
              ⟨some 7, some 100⟩) :=
  refcounted_self_assign StorageStrategy.SinglePtrStorageStrategy
    (RefCounterOwnershipStrategy.ctor (Mem.empty Int) (some 7) 100 (2 ^ 64 - 2)).1
    ⟨some 7, some 100⟩ 100 (2 ^ 64 - 1) rfl
    (by simp [RefCounterOwnershipStrategy.ctor, ReferenceCounter.addReference])
    (by norm_num) (by norm_num)

/-- C1 evaluated where the memory returned for the counter holds 1: the only handle is
constructed and destroyed, and nothing at all is deallocated; the counter (now 1) and the
resource stay allocated. -/
theorem refcounted_uninitialised_counter_leaks :
    (RefCounterOwnershipStrategy.coOwners (Mem.alloc (Mem.empty Int) 7 [5]) (some 7) 100 1 []).bind
      (fun r => (RefCounterOwnershipStrategy.dtorAll
          StorageStrategy.SinglePtrStorageStrategy r.1 r.2).map
        (fun d => (d.1.trace, d.1.counters 100, d.1.blocks 7, d.2)))
      = some ([], some 1, some [5], [⟨none, none⟩]) := by
  decide

/-- C3 evaluated where the memory returned for the counter holds `2 ^ 64 - 1`: of two
co-owners the copy is destroyed, which deallocates the counter and the resource although the
original handle is still alive; a load through the original is then undefined. -/
theorem refcounted_uninitialised_counter_early_release :
    (RefCounterOwnershipStrategy.coOwners (Mem.alloc (Mem.empty Int) 7 [5]) (some 7) 100
        (2 ^ 64 - 1) [0]).bind
      (fun r => (RefCounterOwnershipStrategy.dtorAll
          StorageStrategy.SinglePtrStorageStrategy r.1 (r.2.drop 1)).map
        (fun d => (r.2, d.1.trace, SmartPointer.read d.1 (some 7))))
      = some ([⟨some 7, some 100⟩, ⟨some 7, some 100⟩],
              [Event.deleteCounter 100, Event.delete 7], none) := by
  decide

end RefCounted

/-! ## Linked ownership: single steps -/

section LinkedSteps

variable {T : Type}

theorem setNext_eq (m : Mem T) (x v : Nat) (nd : Node) (h : m.nodes x = some nd) :
    m.setNext x v =
      some { m with nodes := Function.update m.nodes x (some { nd with next := v }) } := by
  simp [Mem.setNext, h]

theorem setPrev_eq (m : Mem T) (x v : Nat) (nd : Node) (h : m.nodes x = some nd) :
    m.setPrev x v =
      some { m with nodes := Function.update m.nodes x (some { nd with prev := v }) } := by
  simp [Mem.setPrev, h]

theorem next?_eq_some (m : Mem T) (x : Nat) (nd : Node) (h : m.nodes x = some nd) :
    m.next? x = some nd.next := by
  simp [Mem.next?, h]

theorem prev?_eq_some (m : Mem T) (x : Nat) (nd : Node) (h : m.nodes x = some nd) :
    m.prev? x = some nd.prev := by
  simp [Mem.prev?, h]

/-- The heap the copy constructor produces, written out. -/
theorem linked_copyCtor_eq (m : Mem T) (p : Option Nat) (o n z onx : Nat) (zn : Node)
    (ho : m.nodes o = some ⟨onx, z⟩) (hz : m.nodes z = some zn) (hn : m.nodes n = none) :
    LinkedRefOwnershipStrategy.copyCtor m ⟨p, o⟩ n =
      some ({ m with nodes :=
                Function.update (Function.update (Function.update m.nodes n (some ⟨o, z⟩))
                  o (some ⟨onx, n⟩)) z (some ⟨n, if z = o then n else zn.prev⟩) },
            ⟨p, n⟩) := by
  have hon : o ≠ n := by
    rintro rfl
    simp [hn] at ho
  have hzn : z ≠ n := by
    rintro rfl
    simp [hn] at hz
  by_cases hzo : z = o
  · subst hzo
    simp [LinkedRefOwnershipStrategy.copyCtor, ho, Mem.setPrev, Mem.setNext,
      Function.update_apply, hon, hon.symm]
  · have hoz : o ≠ z := fun h => hzo h.symm
    simp [LinkedRefOwnershipStrategy.copyCtor, ho, hz, Mem.setPrev, Mem.setNext,
      Function.update_apply, hon, hon.symm, hzn, hzn.symm, hzo, hoz]

/-- What the copy constructor does to the heap, link by link: the new node `n` is spliced in
between the source's node `o` and its old predecessor `z`; nothing else changes. -/
theorem linked_copyCtor_spec (m : Mem T) (p : Option Nat) (o n z onx : Nat) (zn : Node)
    (ho : m.nodes o = some ⟨onx, z⟩) (hz : m.nodes z = some zn) (hn : m.nodes n = none) :
    ∃ m1, LinkedRefOwnershipStrategy.copyCtor m ⟨p, o⟩ n = some (m1, ⟨p, n⟩) ∧
      m1.blocks = m.blocks ∧ m1.counters = m.counters ∧ m1.trace = m.trace ∧
      m1.next? n = some o ∧ m1.prev? n = some z ∧ m1.prev? o = some n ∧ m1.next? z = some n ∧
      (∀ u, u ≠ n → u ≠ z → m1.next? u = m.next? u) ∧
      (∀ u, u ≠ n → u ≠ o → m1.prev? u = m.prev? u) ∧
      (∀ u, u ≠ n → u ≠ o → u ≠ z → m1.nodes u = m.nodes u) := by
  have hon : o ≠ n := by
    rintro rfl
    simp [hn] at ho
  have hzn : z ≠ n := by
    rintro rfl
    simp [hn] at hz
  refine ⟨_, linked_copyCtor_eq m p o n z onx zn ho hz hn, rfl, rfl, rfl, ?_, ?_, ?_, ?_, ?_, ?_,
    ?_⟩
  · simp [Mem.next?, Function.update_apply, hon, hon.symm, hzn.symm]
  · simp [Mem.prev?, Function.update_apply, hon, hon.symm, hzn.symm]
  · by_cases hzo : z = o
    · simp [Mem.prev?, Function.update_apply, hzo]
    · simp [Mem.prev?, Function.update_apply, hzo, Ne.symm hzo]
  · simp [Mem.next?, Function.update_apply]
  · intro u hun huz
    by_cases huo : u = o
    · subst huo
      simp [Mem.next?, Function.update_apply, huz, ho]
    · simp [Mem.next?, Function.update_apply, huz, huo, hun]
  · intro u hun huo
    by_cases huz : u = z
    · subst huz
      simp [Mem.prev?, Function.update_apply, huo, hz, Ne.symm huo]
    · simp [Mem.prev?, Function.update_apply, huz, huo, hun]
  · intro u hun huo huz
    simp [Function.update_apply, huz, huo, hun]

/-- The heap the destructor body produces for a node `x` that is not self-linked, written out:
`y` is the successor of `x` and `z` its predecessor. -/
theorem linked_dtorBody_eq (m : Mem T) (p : Option Nat) (x y z : Nat) (yn zn : Node)
    (hx : m.nodes x = some ⟨y, z⟩) (hy : m.nodes y = some yn) (hz : m.nodes z = some zn)
    (hyx : y ≠ x) (hzx : z ≠ x) :
    LinkedRefOwnershipStrategy.dtorBody m ⟨p, x⟩ =
      some ({ m with
              nodes := Function.update (Function.update (Function.update m.nodes
                  z (some ⟨y, zn.prev⟩)) y (some ⟨if y = z then y else yn.next, z⟩)) x none
              trace := m.trace ++ [Event.deleteNode x] },
            ⟨none, x⟩) := by
  by_cases hyz : y = z
  · subst hyz
    simp [LinkedRefOwnershipStrategy.dtorBody, hx, hy, Mem.setPrev, Mem.setNext,
      Function.update_apply, hyx, hyx.symm]
  · have hzy : z ≠ y := fun h => hyz h.symm
    simp [LinkedRefOwnershipStrategy.dtorBody, hx, hy, hz, Mem.setPrev, Mem.setNext,
      Function.update_apply, hyx, hyx.symm, hzx, hzx.symm, hyz, hzy]

/-- What the destructor body does to the heap for a node `x` that is not self-linked: the
successor `y` and the predecessor `z` of `x` are linked to each other, `x` is deallocated, the
object's `ptr` is set to `NULL`; nothing else changes. -/
theorem linked_dtorBody_spec (m : Mem T) (p : Option Nat) (x y z : Nat) (yn zn : Node)
    (hx : m.nodes x = some ⟨y, z⟩) (hy : m.nodes y = some yn) (hz : m.nodes z = some zn)
    (hyx : y ≠ x) (hzx : z ≠ x) :
    ∃ m1, LinkedRefOwnershipStrategy.dtorBody m ⟨p, x⟩ = some (m1, ⟨none, x⟩) ∧
      m1.blocks = m.blocks ∧ m1.counters = m.counters ∧
      m1.trace = m.trace ++ [Event.deleteNode x] ∧
      m1.nodes x = none ∧ m1.next? z = some y ∧ m1.prev? y = some z ∧
      (∀ u, u ≠ x → u ≠ z → m1.next? u = m.next? u) ∧
      (∀ u, u ≠ x → u ≠ y → m1.prev? u = m.prev? u) ∧
      (∀ u, u ≠ x → u ≠ y → u ≠ z → m1.nodes u = m.nodes u) := by
  refine ⟨_, linked_dtorBody_eq m p x y z yn zn hx hy hz hyx hzx, rfl, rfl, rfl, ?_, ?_, ?_, ?_,
    ?_, ?_⟩
  · simp [Function.update_apply]
  · by_cases hyz : y = z
    · subst hyz
      simp [Mem.next?, Function.update_apply, hyx]
    · simp [Mem.next?, Function.update_apply, hzx, Ne.symm hyz]
  · simp [Mem.prev?, Function.update_apply, hyx]
  · intro u hux huz
    by_cases huy : u = y
    · subst huy
      simp [Mem.next?, Function.update_apply, hux, huz, hy]
    · simp [Mem.next?, Function.update_apply, hux, huz, huy]
  · intro u hux huy
    by_cases huz : u = z
    · subst huz
      simp [Mem.prev?, Function.update_apply, hux, huy, hz]
    · simp [Mem.prev?, Function.update_apply, hux, huz, huy]
  · intro u hux huy huz
    simp [Function.update_apply, hux, huz, huy]

/-- The destructor body for a self-linked node `x`: only `x` is deallocated, and the object
keeps its `ptr`. -/
theorem linked_dtorBody_single (m : Mem T) (p : Option Nat) (x z : Nat)
    (hx : m.nodes x = some ⟨x, z⟩) :
    LinkedRefOwnershipStrategy.dtorBody m ⟨p, x⟩ =
      some ({ m with nodes := Function.update m.nodes x none
                     trace := m.trace ++ [Event.deleteNode x] },
            ⟨p, x⟩) := by
  simp [LinkedRefOwnershipStrategy.dtorBody, hx]

end LinkedSteps

/-! ## Rings -/

section Rings

variable {T : Type}

theorem nodes_of_links (m : Mem T) (x a b : Nat) (h1 : m.next? x = some a)
    (h2 : m.prev? x = some b) : m.nodes x = some ⟨a, b⟩ := by
  unfold Mem.next? at h1
  unfold Mem.prev? at h2
  cases h : m.nodes x with
  | none => simp [h] at h1
  | some nd =>
    obtain ⟨nx, pv⟩ := nd
    simp [h] at h1 h2
    simp [h1, h2]

theorem live_of_next (m : Mem T) (x a : Nat) (h1 : m.next? x = some a) :
    ∃ nd, m.nodes x = some nd := by
  unfold Mem.next? at h1
  cases h : m.nodes x with
  | none => simp [h] at h1
  | some nd => exact ⟨nd, rfl⟩

theorem getLastD_mem (l : List Nat) : ∀ a, l.getLastD a ∈ a :: l := by
  induction l with
  | nil => intro a; simp
  | cons b l ih =>
    intro a
    simp only [List.getLastD_cons]
    exact List.mem_cons_of_mem _ (ih b)

/-- The last node of a ring path links back to the target of the path. -/
theorem ringPath_last_link (m : Mem T) (f : Nat) (l : List Nat) :
    ∀ a, RingPath m f a l → IsLink m (l.getLastD a) f := by
  induction l with
  | nil => intro a h; exact h
  | cons b l ih =>
    intro a h
    simp only [List.getLastD_cons]
    exact ih b h.2

/-- Every node on a ring path is live. -/
theorem ringPath_live (m : Mem T) (f : Nat) (l : List Nat) :
    ∀ a, RingPath m f a l → ∀ u ∈ a :: l, ∃ nd, m.nodes u = some nd := by
  induction l with
  | nil =>
    intro a h u hu
    simp only [List.mem_singleton] at hu
    subst hu
    exact live_of_next m u f h.1
  | cons b l ih =>
    intro a h u hu
    rcases List.mem_cons.1 hu with rfl | hu
    · exact live_of_next m u b h.1.1
    · exact ih b h.2 u hu

/-- Moving a ring path to another heap: if the `next` links of all nodes but the last and the
`prev` links of all nodes but the first are the same in `m1`, and the last node links to the new
target `g` in `m1`, the path is a ring path to `g` in `m1`. -/
theorem ringPath_retarget (m m1 : Mem T) (f g : Nat) (l : List Nat) :
    ∀ a, (a :: l).Nodup → RingPath m f a l →
      (∀ u ∈ a :: l, u ≠ l.getLastD a → m1.next? u = m.next? u) →
      (∀ u ∈ l, m1.prev? u = m.prev? u) →
      IsLink m1 (l.getLastD a) g → RingPath m1 g a l := by
  induction l with
  | nil =>
    intro a _ _ _ _ h3
    exact h3
  | cons b l ih =>
    intro a hnd h h1 h2 h3
    simp only [List.getLastD_cons] at h1 h3
    have hnd2 : (b :: l).Nodup := (List.nodup_cons.1 hnd).2
    have hane : a ≠ l.getLastD b := by
      intro hab
      exact (List.nodup_cons.1 hnd).1 (hab ▸ getLastD_mem l b)
    refine ⟨⟨?_, ?_⟩, ih b hnd2 h.2 ?_ ?_ h3⟩
    · rw [h1 a (List.mem_cons_self _ _) hane]
      exact h.1.1
    · rw [h2 b (List.mem_cons_self _ _)]
      exact h.1.2
    · intro u hu hne
      exact h1 u (List.mem_cons_of_mem _ hu) hne
    · intro u hu
      exact h2 u (List.mem_cons_of_mem _ hu)

/-- Extending a ring path by its target. -/
theorem ringPath_snoc (m : Mem T) (f g : Nat) (l : List Nat) :
    ∀ a, RingPath m f a l → IsLink m f g → RingPath m g a (l ++ [f]) := by
  induction l with
  | nil =>
    intro a h hfg
    exact ⟨h, hfg⟩
  | cons b l ih =>
    intro a h hfg
    exact ⟨h.1, ih b h.2 hfg⟩

theorem ring_rotate_one (m : Mem T) (a b : Nat) (l : List Nat) (h : Ring m (a :: b :: l)) :
    Ring m (b :: (l ++ [a])) := by
  obtain ⟨hnd, hab, hp⟩ := h
  refine ⟨?_, ringPath_snoc m a b l b hp hab⟩
  have hperm : (b :: (l ++ [a])).Perm (a :: b :: l) := by
    have h1 : (b :: (l ++ [a])).Perm ((b :: l) ++ [a]) := List.Perm.refl _
    exact h1.trans (List.perm_append_comm)
  exact hperm.nodup_iff.2 hnd

/-- A ring may be listed starting from any of its nodes. -/
theorem ring_rotate (m : Mem T) (a : Nat) (s : List Nat) :
    ∀ t, Ring m (s ++ a :: t) → Ring m (a :: t ++ s) := by
  induction s with
  | nil =>
    intro t h
    simpa using h
  | cons b s ih =>
    intro t h
    have h2 : Ring m ((s ++ a :: t) ++ [b]) := by
      cases hs : s ++ a :: t with
      | nil => simp at hs
      | cons c r =>
        rw [List.cons_append, hs] at h
        exact ring_rotate_one m b c r h
    rw [List.append_assoc, List.cons_append] at h2
    have h3 := ih (t ++ [b]) h2
    simpa [List.append_assoc] using h3

theorem ring_of_mem (m : Mem T) (l : List Nat) (x : Nat) (h : Ring m l) (hx : x ∈ l) :
    ∃ r, Ring m (x :: r) ∧ (x :: r).Perm l := by
  obtain ⟨s, t, rfl⟩ := List.append_of_mem hx
  refine ⟨t ++ s, ring_rotate m x s t h, ?_⟩
  have : (x :: t ++ s).Perm (s ++ x :: t) := List.perm_append_comm
  simpa using this

theorem live_of_prev (m : Mem T) (x a : Nat) (h1 : m.prev? x = some a) :
    ∃ nd, m.nodes x = some nd := by
  unfold Mem.prev? at h1
  cases h : m.nodes x with
  | none => simp [h] at h1
  | some nd => exact ⟨nd, rfl⟩

/-- The constructor from a raw pointer makes a ring of one node. -/
theorem ring_ctor (m : Mem T) (p : Option Nat) (n : Nat) :
    Ring (LinkedRefOwnershipStrategy.ctor m p n).1 [n] := by
  simp [Ring, RingPath, IsLink, Mem.next?, Mem.prev?, LinkedRefOwnershipStrategy.ctor]

/-- Copy construction from a handle whose node `o` is in a ring: it succeeds, the new node `n`
enters the ring immediately before `o`, and nothing outside the ring changes. -/
theorem ring_copyCtor (m : Mem T) (p : Option Nat) (o n : Nat) (xs : List Nat)
    (h : Ring m (o :: xs)) (hn : m.nodes n = none) :
    ∃ m1, LinkedRefOwnershipStrategy.copyCtor m ⟨p, o⟩ n = some (m1, ⟨p, n⟩) ∧
      Ring m1 (n :: o :: xs) ∧ m1.blocks = m.blocks ∧ m1.counters = m.counters ∧
      m1.trace = m.trace ∧ ∀ u, u ∉ n :: o :: xs → m1.nodes u = m.nodes u := by
  obtain ⟨hnd, hp⟩ := h
  have hlast := ringPath_last_link m o xs o hp
  have hlive := ringPath_live m o xs o hp
  obtain ⟨⟨nx, pv⟩, ho⟩ := hlive o (List.mem_cons_self _ _)
  have hpv : pv = xs.getLastD o := by
    have := hlast.2
    simpa [Mem.prev?, ho] using this
  subst hpv
  obtain ⟨zn, hz⟩ := live_of_next m _ _ hlast.1
  have hnot : n ∉ o :: xs := by
    intro hmem
    obtain ⟨nd, hnd2⟩ := hlive n hmem
    simp [hn] at hnd2
  obtain ⟨m1, h1, h2, h3, h4, h5, h6, h7, h8, h9, h10, h11⟩ :=
    linked_copyCtor_spec m p o n (xs.getLastD o) nx zn ho hz hn
  refine ⟨m1, h1, ⟨List.nodup_cons.2 ⟨hnot, hnd⟩, ⟨h5, h7⟩, ?_⟩, h2, h3, h4, ?_⟩
  · refine ringPath_retarget m m1 o n xs o hnd hp ?_ ?_ ⟨h8, h6⟩
    · intro u hu hne
      exact h9 u (fun hun => hnot (hun ▸ hu)) hne
    · intro u hu
      refine h10 u (fun hun => hnot (hun ▸ List.mem_cons_of_mem _ hu)) ?_
      rintro rfl
      exact (List.nodup_cons.1 hnd).1 hu
  · intro u hu
    simp only [List.mem_cons, not_or] at hu
    refine h11 u hu.1 hu.2.1 ?_
    intro huz
    have := getLastD_mem xs o
    rw [← huz] at this
    rcases List.mem_cons.1 this with h | h
    · exact hu.2.1 h
    · exact hu.2.2 h

/-- The destructor body on a node `x` of a ring with at least two nodes: it succeeds, `x`
leaves the ring and is deallocated, the object's `ptr` is set to `NULL`, and nothing outside
the ring changes. -/
theorem ring_dtorBody (m : Mem T) (p : Option Nat) (x y : Nat) (ys : List Nat)
    (h : Ring m (x :: y :: ys)) :
    ∃ m1, LinkedRefOwnershipStrategy.dtorBody m ⟨p, x⟩ = some (m1, ⟨none, x⟩) ∧
      Ring m1 (y :: ys) ∧ m1.blocks = m.blocks ∧ m1.counters = m.counters ∧
      m1.trace = m.trace ++ [Event.deleteNode x] ∧ m1.nodes x = none ∧
      ∀ u, u ∉ x :: y :: ys → m1.nodes u = m.nodes u := by
  obtain ⟨hnd, hxy, hp⟩ := h
  have hlast := ringPath_last_link m x ys y hp
  have hx : m.nodes x = some ⟨y, ys.getLastD y⟩ := nodes_of_links m x _ _ hxy.1 hlast.2
  obtain ⟨yn, hy⟩ := live_of_prev m _ _ hxy.2
  obtain ⟨zn, hz⟩ := live_of_next m _ _ hlast.1
  have hnd2 : (y :: ys).Nodup := (List.nodup_cons.1 hnd).2
  have hxnot : x ∉ y :: ys := (List.nodup_cons.1 hnd).1
  have hyx : y ≠ x := fun h => hxnot (h ▸ List.mem_cons_self _ _)
  have hzx : ys.getLastD y ≠ x := fun h => hxnot (h ▸ getLastD_mem ys y)
  obtain ⟨m1, h1, h2, h3, h4, h5, h6, h7, h8, h9, h10⟩ :=
    linked_dtorBody_spec m p x y (ys.getLastD y) yn zn hx hy hz hyx hzx
  refine ⟨m1, h1, ⟨hnd2, ?_⟩, h2, h3, h4, h5, ?_⟩
  · refine ringPath_retarget m m1 x y ys y hnd2 hp ?_ ?_ ⟨h6, h7⟩
    · intro u hu hne
      exact h8 u (fun hux => hxnot (hux ▸ hu)) hne
    · intro u hu
      refine h9 u (fun hux => hxnot (hux ▸ List.mem_cons_of_mem _ hu)) ?_
      rintro rfl
      exact (List.nodup_cons.1 hnd2).1 hu
  · intro u hu
    simp only [List.mem_cons, not_or] at hu
    refine h10 u hu.1 hu.2.1 ?_
    intro huz
    have := getLastD_mem ys y
    rw [← huz] at this
    rcases List.mem_cons.1 this with h | h
    · exact hu.2.1 h
    · exact hu.2.2 h

/-- The destructor body on the node of a ring of one: the node is deallocated and the object
keeps its `ptr`. -/
theorem ring_dtorBody_single (m : Mem T) (p : Option Nat) (x : Nat) (h : Ring m [x]) :
    LinkedRefOwnershipStrategy.dtorBody m ⟨p, x⟩ =
      some ({ m with nodes := Function.update m.nodes x none
                     trace := m.trace ++ [Event.deleteNode x] },
            ⟨p, x⟩) := by
  obtain ⟨_, h1, h2⟩ := h
  obtain ⟨⟨nx, pv⟩, hx⟩ := live_of_next m _ _ h1
  have : nx = x := by simpa [Mem.next?, hx] using h1
  subst this
  exact linked_dtorBody_single m p nx pv hx

end Rings

/-! ## Linked ownership: co-owners of one resource -/

section LinkedScenario

variable {T : Type}

theorem ring_mem_live (m : Mem T) (l : List Nat) (h : Ring m l) :
    ∀ u ∈ l, ∃ nd, m.nodes u = some nd := by
  cases l with
  | nil => exact h.elim
  | cons a l => exact ringPath_live m a l a h.2

/-- Copy construction from any existing co-owner succeeds and keeps the co-owners' nodes in
one ring. -/
theorem linked_copies_spec (p : Nat) :
    ∀ (cps : List (Nat × Nat)) (m : Mem T) (hs : List LinkedHandle) (L : List Nat),
      Ring m L → L.Perm (hs.map LinkedHandle.node) → (∀ h ∈ hs, h.ptr = some p) →
      (cps.map Prod.snd).Nodup → (∀ a ∈ cps.map Prod.snd, m.nodes a = none) →
      SourcesExist hs.length (cps.map Prod.fst) →
      ∃ m1 hs1 L1, LinkedRefOwnershipStrategy.copies m hs cps = some (m1, hs1) ∧
        Ring m1 L1 ∧ L1.Perm (hs1.map LinkedHandle.node) ∧ (∀ h ∈ hs1, h.ptr = some p) ∧
        hs1.map LinkedHandle.node = hs.map LinkedHandle.node ++ cps.map Prod.snd ∧
        m1.blocks = m.blocks ∧ m1.counters = m.counters ∧ m1.trace = m.trace := by
  intro cps
  induction cps with
  | nil =>
    intro m hs L hR hP hptr _ _ _
    exact ⟨m, hs, L, rfl, hR, hP, hptr, by simp, rfl, rfl, rfl⟩
  | cons c cps ih =>
    obtain ⟨i, n⟩ := c
    intro m hs L hR hP hptr hnd hfresh hsrc
    simp only [List.map_cons, List.nodup_cons, List.mem_cons, forall_eq_or_imp] at hnd hfresh
    simp only [List.map_cons, SourcesExist] at hsrc
    obtain ⟨other, hi⟩ : ∃ other, hs[i]? = some other :=
      ⟨_, List.getElem?_eq_getElem hsrc.1⟩
    obtain ⟨op, o⟩ := other
    have hmem : (⟨op, o⟩ : LinkedHandle) ∈ hs := List.getElem?_mem hi
    have hop : op = some p := hptr _ hmem
    subst hop
    have hoL : o ∈ L := hP.mem_iff.2 (List.mem_map_of_mem LinkedHandle.node hmem)
    obtain ⟨r, hRr, hPr⟩ := ring_of_mem m L o hR hoL
    obtain ⟨m2, h1, h2, h3, h4, h5, h6⟩ := ring_copyCtor m (some p) o n r hRr hfresh.1
    have hP2 : (n :: o :: r).Perm
        ((hs ++ [(⟨some p, n⟩ : LinkedHandle)]).map LinkedHandle.node) := by
      simp only [List.map_append, List.map_cons, List.map_nil]
      exact ((hPr.trans hP).cons n).trans
        (@List.perm_append_comm _ [n] (hs.map LinkedHandle.node))
    have hptr2 : ∀ h ∈ hs ++ [(⟨some p, n⟩ : LinkedHandle)], h.ptr = some p := by
      intro h hh
      rcases List.mem_append.1 hh with hh | hh
      · exact hptr h hh
      · simp only [List.mem_singleton] at hh
        subst hh
        rfl
    have hfresh2 : ∀ a ∈ cps.map Prod.snd, m2.nodes a = none := by
      intro a ha
      have hane : a ∉ n :: o :: r := by
        intro hmem2
        rcases List.mem_cons.1 hmem2 with h | h
        · exact hnd.1 (h ▸ ha)
        · obtain ⟨nd, hnd2⟩ := ring_mem_live m (o :: r) hRr a h
          rw [hfresh.2 a ha] at hnd2
          exact Option.noConfusion hnd2
      rw [h6 a hane]
      exact hfresh.2 a ha
    have hsrc2 : SourcesExist (hs ++ [(⟨some p, n⟩ : LinkedHandle)]).length
        (cps.map Prod.fst) := by
      simpa using hsrc.2
    obtain ⟨m1, hs1, L1, g0, g1, g2, g3, g4, g5, g6, g7⟩ :=
      ih m2 (hs ++ [(⟨some p, n⟩ : LinkedHandle)]) (n :: o :: r) h2 hP2 hptr2 hnd.2 hfresh2 hsrc2
    refine ⟨m1, hs1, L1, ?_, g1, g2, g3, ?_, g5.trans h3, g6.trans h4, g7.trans h5⟩
    · unfold LinkedRefOwnershipStrategy.copies
      simp only [hi, h1, Option.bind_eq_bind, Option.some_bind]
      exact g0
    · rw [g4]
      simp

theorem linked_dtorAll_append (S : StorageStrategy) (xs ys : List LinkedHandle) :
    ∀ m : Mem T, LinkedRefOwnershipStrategy.dtorAll S m (xs ++ ys) =
      (LinkedRefOwnershipStrategy.dtorAll S m xs).bind fun r =>
        (LinkedRefOwnershipStrategy.dtorAll S r.1 ys).bind fun r2 =>
          some (r2.1, r.2 ++ r2.2) := by
  induction xs with
  | nil =>
    intro m
    simp [LinkedRefOwnershipStrategy.dtorAll]
  | cons x xs ih =>
    intro m
    simp only [List.cons_append, LinkedRefOwnershipStrategy.dtorAll, Option.bind_eq_bind,
      Option.pure_def]
    cases hd : LinkedRefOwnershipStrategy.dtor S m x with
    | none => rfl
    | some r =>
      simp only [Option.some_bind]
      rw [show xs.append ys = xs ++ ys from rfl, ih r.1]
      cases h1 : LinkedRefOwnershipStrategy.dtorAll S r.1 xs with
      | none => rfl
      | some r1 =>
        simp only [Option.some_bind]
        cases h2 : LinkedRefOwnershipStrategy.dtorAll S r1.1 ys with
        | none => rfl
        | some r2 => simp

/-- Destroying a handle whose node is in a ring with at least two nodes. -/
theorem ring_dtor (S : StorageStrategy) (m : Mem T) (p : Option Nat) (x y : Nat) (ys : List Nat)
    (h : Ring m (x :: y :: ys)) :
    ∃ m1, LinkedRefOwnershipStrategy.dtor S m ⟨p, x⟩ = some (m1, ⟨none, x⟩) ∧
      Ring m1 (y :: ys) ∧ m1.blocks = m.blocks ∧ m1.counters = m.counters ∧
      m1.trace = m.trace ++ [Event.deleteNode x] ∧ m1.nodes x = none ∧
      ∀ u, u ∉ x :: y :: ys → m1.nodes u = m.nodes u := by
  obtain ⟨m1, h1, h2⟩ := ring_dtorBody m p x y ys h
  refine ⟨m1, ?_, h2⟩
  simp [LinkedRefOwnershipStrategy.dtor, h1, StorageStrategy.dtor]

/-- Destroying the handle whose node is the only one in its ring: the node is deallocated,
then the storage strategy deallocates the resource the handle holds. -/
theorem ring_dtor_single (S : StorageStrategy) (m : Mem T) (p : Option Nat) (x : Nat)
    (h : Ring m [x]) :
    LinkedRefOwnershipStrategy.dtor S m ⟨p, x⟩ =
      some (S.deletePtr { m with nodes := Function.update m.nodes x none
                                 trace := m.trace ++ [Event.deleteNode x] } p,
            ⟨p, x⟩) := by
  simp [LinkedRefOwnershipStrategy.dtor, ring_dtorBody_single m p x h, StorageStrategy.dtor]

/-- Destroying some of the co-owners, in any order, while at least one other remains: every
step succeeds, only the nodes of the destroyed handles are deallocated, each destroyed object
ends with `ptr == NULL`, and the remaining nodes still form one ring. -/
theorem linked_dtor_prefix (S : StorageStrategy) :
    ∀ (pre : List LinkedHandle) (m : Mem T) (L : List Nat) (rest : List LinkedHandle),
      rest ≠ [] → Ring m L → L.Perm ((pre ++ rest).map LinkedHandle.node) →
      ∃ m1 L1, LinkedRefOwnershipStrategy.dtorAll S m pre =
          some (m1, pre.map fun h => ⟨none, h.node⟩) ∧
        Ring m1 L1 ∧ L1.Perm (rest.map LinkedHandle.node) ∧
        m1.trace = m.trace ++ pre.map (fun h => Event.deleteNode h.node) ∧
        m1.blocks = m.blocks ∧ m1.counters = m.counters := by
  intro pre
  induction pre with
  | nil =>
    intro m L rest _ hR hP
    exact ⟨m, L, rfl, hR, by simpa using hP, by simp, rfl, rfl⟩
  | cons h pre ih =>
    obtain ⟨q, x⟩ := h
    intro m L rest hrest hR hP
    simp only [List.cons_append, List.map_cons] at hP
    have hxL : x ∈ L := hP.mem_iff.2 (List.mem_cons_self _ _)
    obtain ⟨r, hRr, hPr⟩ := ring_of_mem m L x hR hxL
    have hPr2 : r.Perm ((pre ++ rest).map LinkedHandle.node) := (hPr.trans hP).cons_inv
    cases r with
    | nil =>
      have := hPr2.length_eq
      simp only [List.length_nil, List.length_map, List.length_append] at this
      have h0 : rest.length = 0 := by omega
      exact absurd (List.length_eq_zero.1 h0) hrest
    | cons y ys =>
      obtain ⟨m1, g1, g2, g3, g4, g5, _, _⟩ := ring_dtor S m q x y ys hRr
      obtain ⟨m2, L2, k1, k2, k3, k4, k5, k6⟩ := ih m1 (y :: ys) rest hrest g2 hPr2
      refine ⟨m2, L2, ?_, k2, k3, ?_, k5.trans g3, k6.trans g4⟩
      · simp [LinkedRefOwnershipStrategy.dtorAll, g1, k1]
      · rw [k4, g5]
        simp

theorem ringPath_congr (m m1 : Mem T) (hn : m1.nodes = m.nodes) (f : Nat) (l : List Nat) :
    ∀ a, RingPath m f a l → RingPath m1 f a l := by
  have hl : ∀ a b, IsLink m a b → IsLink m1 a b := by
    intro a b h
    simpa [IsLink, Mem.next?, Mem.prev?, hn] using h
  induction l with
  | nil => intro a h; exact hl _ _ h
  | cons b l ih => intro a h; exact ⟨hl _ _ h.1, ih b h.2⟩

theorem ring_congr (m m1 : Mem T) (hn : m1.nodes = m.nodes) (l : List Nat) (h : Ring m l) :
    Ring m1 l := by
  cases l with
  | nil => exact h.elim
  | cons a l => exact ⟨h.1, ringPath_congr m m1 hn a l a h.2⟩

theorem ring_single_node (m : Mem T) (x : Nat) (h : Ring m [x]) :
    m.nodes x = some ⟨x, x⟩ :=
  nodes_of_links m x x x h.2.1 h.2.2

/-- The deallocations of a complete run, counted: each node once, the resource once. -/
theorem events_count (S : StorageStrategy) (p : Nat) (ns : List Nat) (hnd : ns.Nodup) :
    (∀ a ∈ ns, (ns.map Event.deleteNode ++ [S.deleteEvent p]).count (Event.deleteNode a) = 1) ∧
    (ns.map Event.deleteNode ++ [S.deleteEvent p]).count (S.deleteEvent p) = 1 := by
  have hinj : Function.Injective Event.deleteNode := fun a b h => by
    injection h
  have hne : ∀ a, S.deleteEvent p ≠ Event.deleteNode a := by
    intro a
    cases S <;> simp [StorageStrategy.deleteEvent]
  constructor
  · intro a ha
    rw [List.count_append, List.count_map_of_injective _ _ hinj,
      List.count_eq_one_of_mem hnd ha]
    have : [S.deleteEvent p].count (Event.deleteNode a) = 0 := by
      apply List.count_eq_zero_of_not_mem
      simp only [List.mem_singleton]
      exact fun h => hne a h.symm
    rw [this]
  · rw [List.count_append]
    have : (ns.map Event.deleteNode).count (S.deleteEvent p) = 0 := by
      apply List.count_eq_zero_of_not_mem
      intro h
      obtain ⟨a, _, ha⟩ := List.mem_map.1 h
      exact hne a ha.symm
    simp [this]

/-- Construction followed by copy constructions, each from any existing co-owner, succeeds:
the co-owners hold the resource, their nodes are the allocated ones in allocation order and
form one ring, and nothing has been deallocated. -/
theorem linked_coOwners_spec (m0 : Mem T) (p n0 : Nat) (cps : List (Nat × Nat))
    (hnd : (n0 :: cps.map Prod.snd).Nodup)
    (hfresh : ∀ a ∈ cps.map Prod.snd, m0.nodes a = none)
    (hsrc : SourcesExist 1 (cps.map Prod.fst)) :
    ∃ m hs L, LinkedRefOwnershipStrategy.coOwners m0 (some p) n0 cps = some (m, hs) ∧
      Ring m L ∧ L.Perm (hs.map LinkedHandle.node) ∧ (∀ h ∈ hs, h.ptr = some p) ∧
      hs.map LinkedHandle.node = n0 :: cps.map Prod.snd ∧
      m.blocks = m0.blocks ∧ m.counters = m0.counters ∧ m.trace = m0.trace := by
  have hfresh1 : ∀ a ∈ cps.map Prod.snd,
      (LinkedRefOwnershipStrategy.ctor m0 (some p) n0).1.nodes a = none := by
    intro a ha
    have hne : a ≠ n0 := by
      rintro rfl
      exact (List.nodup_cons.1 hnd).1 ha
    simp [LinkedRefOwnershipStrategy.ctor, Function.update_apply, hne, hfresh a ha]
  obtain ⟨m, hs, L, h0, h1, h2, h3, h4, h5, h6, h7⟩ :=
    linked_copies_spec p cps (LinkedRefOwnershipStrategy.ctor m0 (some p) n0).1
      [(LinkedRefOwnershipStrategy.ctor m0 (some p) n0).2] [n0] (ring_ctor m0 (some p) n0)
      (by simp [LinkedRefOwnershipStrategy.ctor])
      (by simp [LinkedRefOwnershipStrategy.ctor]) (List.nodup_cons.1 hnd).2 hfresh1
      (by simpa using hsrc)
  exact ⟨m, hs, L, h0, h1, h2, h3, by simpa [LinkedRefOwnershipStrategy.ctor] using h4, h5, h6,
    h7⟩

/-- Destroying all co-owners, in any order: every step succeeds, the nodes are deallocated
in destruction order, and the resource is deallocated last, by the last handle. -/
theorem linked_dtorAll_ring (S : StorageStrategy) (m : Mem T) (L : List Nat)
    (pre : List LinkedHandle) (s : LinkedHandle) (q : Nat) (hq : s.ptr = some q)
    (hR : Ring m L) (hP : L.Perm ((pre ++ [s]).map LinkedHandle.node)) :
    ∃ mf, LinkedRefOwnershipStrategy.dtorAll S m (pre ++ [s]) =
        some (mf, (pre.map fun h => ⟨none, h.node⟩) ++ [s]) ∧
      mf.trace = m.trace ++
        (((pre ++ [s]).map LinkedHandle.node).map Event.deleteNode ++ [S.deleteEvent q]) ∧
      mf.blocks = Function.update m.blocks q none := by
  obtain ⟨m1, L1, k1, k2, k3, k4, k5, _⟩ := linked_dtor_prefix S pre m L [s] (by simp) hR hP
  have hL1 : L1 = [s.node] := by
    simpa using List.perm_singleton.1 k3
  subst hL1
  obtain ⟨sp, sn⟩ := s
  simp only at hq
  subst hq
  refine ⟨S.deletePtr { m1 with nodes := Function.update m1.nodes sn none
                                trace := m1.trace ++ [Event.deleteNode sn] } (some q),
    ?_, ?_, ?_⟩
  · rw [linked_dtorAll_append, k1]
    simp only [Option.some_bind, LinkedRefOwnershipStrategy.dtorAll, Option.bind_eq_bind,
      Option.pure_def, ring_dtor_single S m1 (some q) sn k2]
  · simp [k4, List.map_append]
  · simp [k5]

end LinkedScenario

/-! ## Linked ownership: the claims -/

section LinkedClaims

variable {T : Type}

/-- C2. Linked: one handle is constructed from a resource `p`, further co-owners are made by
copy construction, each from any existing co-owner, and then all `n` handles are destroyed in
an arbitrary order. Every step succeeds; the deallocations performed are exactly: the node of
each handle, in destruction order, and then the resource. So each of the `n` nodes is
deallocated exactly once and the resource exactly once, and as long as a handle remains the
resource has not been deallocated. -/
theorem linked_release_once (S : StorageStrategy) (m0 : Mem T) (p n0 : Nat)
    (cps : List (Nat × Nat)) (hnd : (n0 :: cps.map Prod.snd).Nodup)
    (hfresh : ∀ a ∈ cps.map Prod.snd, m0.nodes a = none)
    (hsrc : SourcesExist 1 (cps.map Prod.fst)) :
    ∃ m hs, LinkedRefOwnershipStrategy.coOwners m0 (some p) n0 cps = some (m, hs) ∧
      hs.length = cps.length + 1 ∧
      hs.map LinkedHandle.node = n0 :: cps.map Prod.snd ∧
      m.trace = m0.trace ∧
      ∀ order : List LinkedHandle, order.Perm hs →
        (∃ mf objs ev, LinkedRefOwnershipStrategy.dtorAll S m order = some (mf, objs) ∧
          mf.trace = m0.trace ++ ev ∧
          ev = (order.map LinkedHandle.node).map Event.deleteNode ++ [S.deleteEvent p] ∧
          (∀ a ∈ n0 :: cps.map Prod.snd, ev.count (Event.deleteNode a) = 1) ∧
          ev.count (S.deleteEvent p) = 1) ∧
        (∀ pre rest, order = pre ++ rest → rest ≠ [] →
          ∃ m1 objs, LinkedRefOwnershipStrategy.dtorAll S m pre = some (m1, objs) ∧
            m1.trace = m0.trace ++ (pre.map LinkedHandle.node).map Event.deleteNode) := by
  obtain ⟨m, hs, L, hbuild, hR, hP, hptr, hmap, _, _, ht⟩ :=
    linked_coOwners_spec m0 p n0 cps hnd hfresh hsrc
  have hlen : hs.length = cps.length + 1 := by
    have := congrArg List.length hmap
    simpa using this
  refine ⟨m, hs, hbuild, hlen, hmap, ht, fun order hperm => ⟨?_, ?_⟩⟩
  · have hPo : L.Perm (order.map LinkedHandle.node) :=
      hP.trans (hperm.map LinkedHandle.node).symm
    have hne : order ≠ [] := by
      intro h0
      subst h0
      have := hperm.length_eq
      simp only [List.length_nil] at this
      omega
    obtain ⟨pre, s, rfl⟩ : ∃ pre s, order = pre ++ [s] :=
      ⟨order.dropLast, order.getLast hne, (List.dropLast_append_getLast hne).symm⟩
    have hq : s.ptr = some p := hptr s (hperm.mem_iff.1 (by simp))
    obtain ⟨mf, g1, g2, _⟩ := linked_dtorAll_ring S m L pre s p hq hR hPo
    have hndo : ((pre ++ [s]).map LinkedHandle.node).Nodup := by
      have hp2 : ((pre ++ [s]).map LinkedHandle.node).Perm (n0 :: cps.map Prod.snd) :=
        hmap ▸ hperm.map LinkedHandle.node
      exact hp2.nodup_iff.2 hnd
    have hcnt := events_count S p _ hndo
    refine ⟨mf, _, _, g1, by rw [g2, ht], rfl, ?_, hcnt.2⟩
    intro a ha
    apply hcnt.1
    rw [← hmap] at ha
    exact (hperm.map LinkedHandle.node).mem_iff.2 ha
  · intro pre rest hor hrest
    subst hor
    have hPo : L.Perm ((pre ++ rest).map LinkedHandle.node) :=
      hP.trans (hperm.map LinkedHandle.node).symm
    obtain ⟨m1, L1, k1, _, _, k4, _, _⟩ := linked_dtor_prefix S pre m L rest hrest hR hPo
    exact ⟨m1, _, k1, by rw [k4, ht]; simp⟩

/-- C2 on three co-owners (the second copied from the first, the third from the second),
destroyed youngest first. -/
theorem linked_release_once_witness :
    ∃ m hs mf objs,
      LinkedRefOwnershipStrategy.coOwners (Mem.empty Int) (some 7) 1 [(0, 2), (1, 3)]
        = some (m, hs) ∧
      LinkedRefOwnershipStrategy.dtorAll StorageStrategy.SinglePtrStorageStrategy m hs.reverse
        = some (mf, objs) ∧
      mf.trace = [Event.deleteNode 3, Event.deleteNode 2, Event.deleteNode 1, Event.delete 7] := by
  obtain ⟨m, hs, h1, _, h3, _, h5⟩ :=
    linked_release_once StorageStrategy.SinglePtrStorageStrategy (Mem.empty Int) 7 1
      [(0, 2), (1, 3)] (by decide) (by simp [Mem.empty]) (by decide)
  obtain ⟨⟨mf, objs, ev, g1, g2, g3, _⟩, _⟩ := h5 hs.reverse (List.reverse_perm hs)
  refine ⟨m, hs, mf, objs, h1, g1, ?_⟩
  rw [g2, g3, List.map_reverse, h3]
  rfl

/-- C4. Linked: of the co-owners of a resource `p` (one constructed, the others made by copy
construction from any existing co-owner), all but one are destroyed, in any order, whichever
handle is the one left (`s`). Every step succeeds, only the nodes of the destroyed handles are
deallocated (the resource is not), each destroyed object ends with `ptr == NULL`, the survivor
holds `p` and its node is linked to itself (a ring of one), and the resource's contents are
untouched: a value stored through any co-owner before the destructions is the value loaded
through the survivor afterwards. -/
theorem linked_survivor (S : StorageStrategy) (m0 : Mem T) (p n0 : Nat)
    (cps : List (Nat × Nat)) (hnd : (n0 :: cps.map Prod.snd).Nodup)
    (hfresh : ∀ a ∈ cps.map Prod.snd, m0.nodes a = none)
    (hsrc : SourcesExist 1 (cps.map Prod.fst)) :
    ∃ m hs, LinkedRefOwnershipStrategy.coOwners m0 (some p) n0 cps = some (m, hs) ∧
      hs.length = cps.length + 1 ∧
      ∀ (pre : List LinkedHandle) (s : LinkedHandle), (pre ++ [s]).Perm hs →
        (∃ m1, LinkedRefOwnershipStrategy.dtorAll S m pre =
            some (m1, pre.map fun h => ⟨none, h.node⟩) ∧
          m1.trace = m0.trace ++ (pre.map LinkedHandle.node).map Event.deleteNode ∧
          m1.blocks = m0.blocks ∧
          s.ptr = some p ∧ m1.nodes s.node = some ⟨s.node, s.node⟩ ∧ Ring m1 [s.node]) ∧
        (∀ (w : LinkedHandle) (v : T) (b : List T), w ∈ hs → m0.blocks p = some b →
          0 < b.length →
          ∃ mw m2, SmartPointer.write m w.ptr v = some mw ∧
            LinkedRefOwnershipStrategy.dtorAll S mw pre =
              some (m2, pre.map fun h => ⟨none, h.node⟩) ∧
            SmartPointer.read m2 s.ptr = some v) := by
  obtain ⟨m, hs, L, hbuild, hR, hP, hptr, hmap, hb, _, ht⟩ :=
    linked_coOwners_spec m0 p n0 cps hnd hfresh hsrc
  have hlen : hs.length = cps.length + 1 := by
    have := congrArg List.length hmap
    simpa using this
  refine ⟨m, hs, hbuild, hlen, fun pre s hperm => ?_⟩
  have hPo : L.Perm ((pre ++ [s]).map LinkedHandle.node) :=
    hP.trans (hperm.map LinkedHandle.node).symm
  have hq : s.ptr = some p := hptr s (hperm.mem_iff.1 (by simp))
  constructor
  · obtain ⟨m1, L1, k1, k2, k3, k4, k5, _⟩ := linked_dtor_prefix S pre m L [s] (by simp) hR hPo
    have hL1 : L1 = [s.node] := by
      simpa using List.perm_singleton.1 k3
    subst hL1
    exact ⟨m1, k1, by rw [k4, ht]; simp, k5.trans hb, hq, ring_single_node m1 s.node k2, k2⟩
  · intro w v b hw hblk hlen
    have hmb : m.blocks p = some b := by rw [hb]; exact hblk
    have hRw : Ring ({ m with blocks := Function.update m.blocks p (some (b.set 0 v)) } : Mem T)
        L :=
      ring_congr m { m with blocks := Function.update m.blocks p (some (b.set 0 v)) } rfl L hR
    refine ⟨{ m with blocks := Function.update m.blocks p (some (b.set 0 v)) }, ?_⟩
    obtain ⟨m2, L1, k1, _, _, _, k5, _⟩ := linked_dtor_prefix S pre _ L [s] (by simp) hRw hPo
    refine ⟨m2, ?_, k1, ?_⟩
    · simp [SmartPointer.write, hptr w hw, hmb, hlen]
    · simp [SmartPointer.read, hq, k5, hlen]

/-- C4 on the two co-owners of `main`: `B` (node 2) is copy-constructed from `A` (node 1),
then `A`, the original, is destroyed; `B` is left holding the resource, its node self-linked,
and nothing but the node of `A` has been deallocated. -/
theorem linked_survivor_witness :
    ∃ m hs m1,
      LinkedRefOwnershipStrategy.coOwners (Mem.alloc (Mem.empty Int) 7 [5]) (some 7) 1 [(0, 2)]
        = some (m, hs) ∧
      LinkedRefOwnershipStrategy.dtorAll StorageStrategy.SinglePtrStorageStrategy m
        [⟨some 7, 1⟩] = some (m1, [⟨none, 1⟩]) ∧
      m1.trace = [Event.deleteNode 1] ∧ m1.nodes 2 = some ⟨2, 2⟩ := by
  obtain ⟨m, hs, h1, _, h3⟩ :=
    linked_survivor StorageStrategy.SinglePtrStorageStrategy (Mem.alloc (Mem.empty Int) 7 [5])
      7 1 [(0, 2)] (by decide) (by simp [Mem.empty, Mem.alloc]) (by decide)
  have hhs : hs = [⟨some 7, 1⟩, ⟨some 7, 2⟩] := by
    have h2 : LinkedRefOwnershipStrategy.coOwners (Mem.alloc (Mem.empty Int) 7 [5]) (some 7) 1
        [(0, 2)] = some (_, [⟨some 7, 1⟩, ⟨some 7, 2⟩]) := rfl
    rw [h1] at h2
    injection h2 with h2
    injection h2 with _ h2
  subst hhs
  obtain ⟨⟨m1, g1, g2, _, _, g5, _⟩, _⟩ := h3 [⟨some 7, 1⟩] ⟨some 7, 2⟩ (List.Perm.refl _)
  exact ⟨m, _, m1, h1, g1, by rw [g2]; rfl, g5⟩

/-- C8. Linked self-assignment: for a handle `h` whose node is in a ring (listed here starting
from that node, `h.node :: r`), `h = h` succeeds; afterwards `h` holds the same resource
pointer and owns the newly allocated node `n`, which takes the place of the old node in the
ring (`n :: r`: same size, same other nodes); the only deallocation is that of the old node,
and no resource block is touched. -/
theorem linked_self_assign (S : StorageStrategy) (m : Mem T) (h : LinkedHandle)
    (r : List Nat) (n : Nat) (hR : Ring m (h.node :: r)) (hn : m.nodes n = none) :
    ∃ m1, LinkedRefOwnershipStrategy.assign S m h h n = some (m1, ⟨h.ptr, n⟩) ∧
      Ring m1 (n :: r) ∧ (n :: r).length = (h.node :: r).length ∧
      m1.trace = m.trace ++ [Event.deleteNode h.node] ∧
      m1.blocks = m.blocks ∧ m1.counters = m.counters ∧ m1.nodes h.node = none := by
  obtain ⟨p, o⟩ := h
  obtain ⟨m1, h1, h2, h3, h4, h5, _⟩ := ring_copyCtor m p o n r hR hn
  have h2r : Ring m1 (o :: (r ++ [n])) := ring_rotate_one m1 n o r h2
  cases hr : r ++ [n] with
  | nil => simp at hr
  | cons y ys =>
    rw [hr] at h2r
    obtain ⟨m2, g1, g2, g3, g4, g5, g6, _⟩ := ring_dtor S m1 p o y ys h2r
    rw [← hr] at g2
    have g2r : Ring m2 (n :: r) := by
      simpa using ring_rotate m2 n r [] g2
    refine ⟨m2, ?_, g2r, by simp, by rw [g5, h5], g3.trans h3, g4.trans h4, g6⟩
    simp [LinkedRefOwnershipStrategy.assign, h1, LinkedRefOwnershipStrategy.swap, g1]

/-- C8 on a sole owner: the handle constructed on node 1 is assigned to itself, the temporary's
node being allocated at 2. -/
theorem linked_self_assign_witness :
    ∃ m1, LinkedRefOwnershipStrategy.assign StorageStrategy.SinglePtrStorageStrategy
        (LinkedRefOwnershipStrategy.ctor (Mem.empty Int) (some 7) 1).1 ⟨some 7, 1⟩ ⟨some 7, 1⟩ 2
        = some (m1, ⟨some 7, 2⟩) ∧
      Ring m1 [2] ∧ m1.trace = [Event.deleteNode 1] := by
  obtain ⟨m1, h1, h2, _, h4, _⟩ :=
    linked_self_assign StorageStrategy.SinglePtrStorageStrategy
      (LinkedRefOwnershipStrategy.ctor (Mem.empty Int) (some 7) 1).1 ⟨some 7, 1⟩ [] 2
      (ring_ctor (Mem.empty Int) (some 7) 1) (by simp [LinkedRefOwnershipStrategy.ctor, Mem.empty])
  exact ⟨m1, h1, h2, h4⟩

end LinkedClaims

/-! ## Shared aliasing -/

section Aliasing

variable {T : Type}

theorem write_read (m : Mem T) (p : Nat) (b : List T) (v : T) (hb : m.blocks p = some b)
    (hlen : 0 < b.length) :
    ∃ m2, SmartPointer.write m (some p) v = some m2 ∧ SmartPointer.read m2 (some p) = some v := by
  refine ⟨{ m with blocks := Function.update m.blocks p (some (b.set 0 v)) }, ?_, ?_⟩
  · simp [SmartPointer.write, hb, hlen]
  · simp [SmartPointer.read, hlen]

theorem refcounted_copyCtor_eq (m : Mem T) (p : Option Nat) (c n : Nat)
    (hm : m.counters c = some n) :
    RefCounterOwnershipStrategy.copyCtor m ⟨p, some c⟩ =
      some ({ m with
              counters := Function.update m.counters c (some (ReferenceCounter.addReference n)) },
            ⟨p, some c⟩) := by
  simp [RefCounterOwnershipStrategy.copyCtor, hm]

/-- C10. Shared aliasing: when `h2` is copy-constructed from a Ref-Counted or a Linked handle
`h1` that holds a live resource `p`, the copy succeeds, `h2` holds the same pointer as `h1`, and
a value stored through `*h2` is the value loaded through `*h1`, and the other way round. -/
theorem copy_shares_resource (m : Mem T) (p : Nat) (b : List T) (hb : m.blocks p = some b)
    (hlen : 0 < b.length) :
    (∀ (h1 : RefCounterHandle) (c n : Nat), h1.ptr = some p → h1.counter = some c →
      m.counters c = some n →
      ∃ m1 h2, RefCounterOwnershipStrategy.copyCtor m h1 = some (m1, h2) ∧ h2.ptr = h1.ptr ∧
        ∀ v,
          (∃ m2, SmartPointer.write m1 h2.ptr v = some m2 ∧
            SmartPointer.read m2 h1.ptr = some v) ∧
          (∃ m2, SmartPointer.write m1 h1.ptr v = some m2 ∧
            SmartPointer.read m2 h2.ptr = some v)) ∧
    (∀ (h1 : LinkedHandle) (a : Nat) (o z : Node), h1.ptr = some p →
      m.nodes h1.node = some o → m.nodes o.prev = some z → m.nodes a = none →
      ∃ m1 h2, LinkedRefOwnershipStrategy.copyCtor m h1 a = some (m1, h2) ∧ h2.ptr = h1.ptr ∧
        ∀ v,
          (∃ m2, SmartPointer.write m1 h2.ptr v = some m2 ∧
            SmartPointer.read m2 h1.ptr = some v) ∧
          (∃ m2, SmartPointer.write m1 h1.ptr v = some m2 ∧
            SmartPointer.read m2 h2.ptr = some v)) := by
  constructor
  · intro h1 c n hp hc hm
    obtain ⟨q, cc⟩ := h1
    simp only at hp hc
    subst hp hc
    refine ⟨_, _, refcounted_copyCtor_eq m (some p) c n hm, rfl, fun v => ?_⟩
    exact ⟨write_read _ p b v hb hlen, write_read _ p b v hb hlen⟩
  · intro h1 a o z hp ho hz ha
    obtain ⟨q, x⟩ := h1
    obtain ⟨onx, opv⟩ := o
    simp only at hp ho hz
    subst hp
    refine ⟨_, _, linked_copyCtor_eq m (some p) x a opv onx z ho hz ha, rfl, fun v => ?_⟩
    exact ⟨write_read _ p b v hb hlen, write_read _ p b v hb hlen⟩

/-- C10 on the scenario of the specification: `h1` is constructed on a resource holding 5,
`h2` is copied from it, 9 is stored through `h2` and loaded through `h1`. -/
theorem copy_shares_resource_witness :
    ∃ m1 h2 m2,
      RefCounterOwnershipStrategy.copyCtor
        (RefCounterOwnershipStrategy.ctor (Mem.alloc (Mem.empty Int) 7 [5]) (some 7) 100 0).1
        ⟨some 7, some 100⟩ = some (m1, h2) ∧
      SmartPointer.write m1 h2.ptr 9 = some m2 ∧ SmartPointer.read m2 (some 7) = some 9 := by
  obtain ⟨m1, h2, g1, _, g3⟩ :=
    (copy_shares_resource
      (RefCounterOwnershipStrategy.ctor (Mem.alloc (Mem.empty Int) 7 [5]) (some 7) 100 0).1
      7 [5] (by simp [RefCounterOwnershipStrategy.ctor, Mem.alloc]) (by simp)).1
      ⟨some 7, some 100⟩ 100 1 rfl rfl
      (by simp [RefCounterOwnershipStrategy.ctor, ReferenceCounter.addReference])
  obtain ⟨m2, g4, g5⟩ := (g3 9).1
  exact ⟨m1, h2, m2, g1, g4, g5⟩

end Aliasing

/-! ## Reference-counted ownership when the counter's memory is zeroed

`RefCounterOwnershipStrategy.ctor` starts the count from the contents of the freshly allocated
memory. When that memory holds 0 the count is the number of co-owners, and the co-owners behave
as shared owners: the resource and the counter are deallocated once, by the last handle. -/

section RefCountedZeroed

variable {T : Type}

theorem refcounted_dtor_ne (S : StorageStrategy) (m : Mem T) (p : Option Nat) (c n : Nat)
    (hm : m.counters c = some n) (hn : ReferenceCounter.release n ≠ 0) :
    RefCounterOwnershipStrategy.dtor S m ⟨p, some c⟩ =
      some ({ m with
              counters := Function.update m.counters c (some (ReferenceCounter.release n)) },
            ⟨none, none⟩) := by
  simp [RefCounterOwnershipStrategy.dtor, RefCounterOwnershipStrategy.dtorBody, hm, hn,
    StorageStrategy.dtor]

theorem refcounted_dtor_zero (S : StorageStrategy) (m : Mem T) (p : Option Nat) (c n : Nat)
    (hm : m.counters c = some n) (hn : ReferenceCounter.release n = 0) :
    RefCounterOwnershipStrategy.dtor S m ⟨p, some c⟩ =
      some (S.deletePtr { m with counters := Function.update m.counters c none
                                 trace := m.trace ++ [Event.deleteCounter c] } p,
            ⟨p, some c⟩) := by
  simp [RefCounterOwnershipStrategy.dtor, RefCounterOwnershipStrategy.dtorBody, hm, hn,
    StorageStrategy.dtor]

/-- Each copy construction from an existing co-owner succeeds, adds one to the shared counter
and yields a handle with the same fields. -/
theorem refcounted_copies_spec (p : Option Nat) (c : Nat) :
    ∀ (srcs : List Nat) (m : Mem T) (hs : List RefCounterHandle) (v : Nat),
      (∀ h ∈ hs, h = ⟨p, some c⟩) → m.counters c = some v → v + srcs.length < 2 ^ 64 →
      SourcesExist hs.length srcs →
      ∃ m1 hs1, RefCounterOwnershipStrategy.copies m hs srcs = some (m1, hs1) ∧
        (∀ h ∈ hs1, h = ⟨p, some c⟩) ∧ hs1.length = hs.length + srcs.length ∧
        m1.counters c = some (v + srcs.length) ∧ m1.blocks = m.blocks ∧ m1.trace = m.trace := by
  intro srcs
  induction srcs with
  | nil =>
    intro m hs v hall hm _ _
    exact ⟨m, hs, rfl, hall, rfl, hm, rfl, rfl⟩
  | cons i srcs ih =>
    intro m hs v hall hm hlt hsrc
    simp only [List.length_cons] at hlt
    simp only [SourcesExist] at hsrc
    obtain ⟨other, hi⟩ : ∃ other, hs[i]? = some other :=
      ⟨_, List.getElem?_eq_getElem hsrc.1⟩
    have ho : other = ⟨p, some c⟩ := hall other (List.getElem?_mem hi)
    subst ho
    have hall2 : ∀ h ∈ hs ++ [(⟨p, some c⟩ : RefCounterHandle)], h = ⟨p, some c⟩ := by
      intro h hh
      rcases List.mem_append.1 hh with hh | hh
      · exact hall h hh
      · simpa using hh
    obtain ⟨m1, hs1, g0, g1, g2, g3, g4, g5⟩ :=
      ih { m with
           counters := Function.update m.counters c (some (ReferenceCounter.addReference v)) }
        (hs ++ [(⟨p, some c⟩ : RefCounterHandle)]) (v + 1) hall2
        (by simp [addReference_of_lt v (by omega)]) (by omega) (by simpa using hsrc.2)
    refine ⟨m1, hs1, ?_, g1, ?_, ?_, g4, g5⟩
    · unfold RefCounterOwnershipStrategy.copies
      simp only [hi, refcounted_copyCtor_eq m p c v hm, Option.bind_eq_bind, Option.some_bind]
      exact g0
    · rw [g2]
      simp only [List.length_append, List.length_cons, List.length_nil]
      omega
    · rw [g3]
      congr 1
      simp only [List.length_cons]
      omega

/-- Destroying `j` of the co-owners while the counter says more than `j`: the counter goes
down by `j`, each destroyed object ends with `ptr == NULL`, and nothing is deallocated. -/
theorem refcounted_dtor_prefix (S : StorageStrategy) (p : Option Nat) (c : Nat) :
    ∀ (j : Nat) (m : Mem T) (v : Nat), m.counters c = some v → j < v → v < 2 ^ 64 →
      ∃ m1, RefCounterOwnershipStrategy.dtorAll S m (List.replicate j ⟨p, some c⟩) =
          some (m1, List.replicate j ⟨none, none⟩) ∧
        m1.counters c = some (v - j) ∧ m1.blocks = m.blocks ∧ m1.trace = m.trace := by
  intro j
  induction j with
  | zero =>
    intro m v hm _ _
    exact ⟨m, rfl, by simpa using hm, rfl, rfl⟩
  | succ j ih =>
    intro m v hm hj hv
    have hrel : ReferenceCounter.release v = v - 1 := by
      have := release_succ (v - 1) (by omega)
      rwa [Nat.sub_add_cancel (by omega)] at this
    have hne : ReferenceCounter.release v ≠ 0 := by
      rw [hrel]
      omega
    obtain ⟨m1, g1, g2, g3, g4⟩ :=
      ih { m with
           counters := Function.update m.counters c (some (ReferenceCounter.release v)) }
        (v - 1) (by simp [hrel]) (by omega) (by omega)
    refine ⟨m1, ?_, ?_, g3, g4⟩
    · simp [List.replicate_succ, RefCounterOwnershipStrategy.dtorAll,
        refcounted_dtor_ne S m p c v hm hne, g1]
    · rw [g2]
      congr 1
      omega

theorem refcounted_dtorAll_cons (S : StorageStrategy) (m : Mem T) (h : RefCounterHandle)
    (hs : List RefCounterHandle) :
    RefCounterOwnershipStrategy.dtorAll S m (h :: hs) =
      (RefCounterOwnershipStrategy.dtor S m h).bind fun r =>
        (RefCounterOwnershipStrategy.dtorAll S r.1 hs).bind fun rs =>
          some (rs.1, r.2 :: rs.2) := rfl

/-- Destroying all `j + 1` co-owners when the counter says `j + 1`: the last destruction
deallocates the counter and then the resource; nothing is deallocated before. -/
theorem refcounted_dtorAll_all (S : StorageStrategy) (q c : Nat) :
    ∀ (j : Nat) (m : Mem T), m.counters c = some (j + 1) → j + 1 < 2 ^ 64 →
      ∃ mf, RefCounterOwnershipStrategy.dtorAll S m (List.replicate (j + 1) ⟨some q, some c⟩) =
          some (mf, List.replicate j ⟨none, none⟩ ++ [⟨some q, some c⟩]) ∧
        mf.trace = m.trace ++ [Event.deleteCounter c, S.deleteEvent q] ∧
        mf.counters c = none := by
  intro j
  induction j with
  | zero =>
    intro m hm _
    have hrel : ReferenceCounter.release (0 + 1) = 0 := release_succ 0 (by norm_num)
    refine ⟨S.deletePtr
      { m with
        counters := Function.update m.counters c none
        trace := m.trace ++ [Event.deleteCounter c] } (some q), ?_, ?_, ?_⟩
    · rw [List.replicate_succ, refcounted_dtorAll_cons,
        refcounted_dtor_zero S m (some q) c (0 + 1) hm hrel]
      rfl
    · simp
    · simp
  | succ j ih =>
    intro m hm hv
    have hrel : ReferenceCounter.release (j + 1 + 1) = j + 1 := release_succ (j + 1) (by omega)
    have hne : ReferenceCounter.release (j + 1 + 1) ≠ 0 := by
      rw [hrel]
      omega
    obtain ⟨mf, g1, g2, g3⟩ :=
      ih { m with
           counters := Function.update m.counters c
             (some (ReferenceCounter.release (j + 1 + 1))) }
        (by simp [hrel]) (by omega)
    refine ⟨mf, ?_, g2, g3⟩
    rw [List.replicate_succ, refcounted_dtorAll_cons,
      refcounted_dtor_ne S m (some q) c (j + 1 + 1) hm hne, Option.some_bind, g1]
    rfl

/-- With the counter's memory zeroed, the Ref-Counted co-owners of one resource (one
constructed, the others copied from any existing co-owner; fewer than `2 ^ 64` of them) can be
destroyed in any order: every step succeeds, the counter and then the resource are deallocated
exactly once, by the last handle, and as long as a handle remains nothing is deallocated, the
destroyed objects end with `ptr == NULL` and the remaining ones hold the resource. -/
theorem refcounted_zeroed_counter (S : StorageStrategy) (m0 : Mem T) (p c : Nat)
    (srcs : List Nat) (hsrc : SourcesExist 1 srcs) (hlt : srcs.length + 1 < 2 ^ 64) :
    ∃ m hs, RefCounterOwnershipStrategy.coOwners m0 (some p) c 0 srcs = some (m, hs) ∧
      hs.length = srcs.length + 1 ∧
      ∀ order : List RefCounterHandle, order.Perm hs →
        (∃ mf objs, RefCounterOwnershipStrategy.dtorAll S m order = some (mf, objs) ∧
          mf.trace = m0.trace ++ [Event.deleteCounter c, S.deleteEvent p]) ∧
        (∀ pre rest, order = pre ++ rest → rest ≠ [] →
          ∃ m1, RefCounterOwnershipStrategy.dtorAll S m pre =
              some (m1, List.replicate pre.length ⟨none, none⟩) ∧
            m1.trace = m0.trace ∧ m1.blocks = m0.blocks ∧ ∀ h ∈ rest, h.ptr = some p) := by
  obtain ⟨m, hs, hbuild, h1, h2, h3, h4, h5⟩ :=
    refcounted_copies_spec (some p) c srcs (RefCounterOwnershipStrategy.ctor m0 (some p) c 0).1
      [(RefCounterOwnershipStrategy.ctor m0 (some p) c 0).2] 1
      (by simp [RefCounterOwnershipStrategy.ctor])
      (by simp [RefCounterOwnershipStrategy.ctor, addReference_of_lt 0 (by norm_num)])
      (by omega) (by simpa using hsrc)
  have hlen : hs.length = srcs.length + 1 := by
    rw [h2]
    simp only [List.length_cons, List.length_nil]
    omega
  have hm : m.counters c = some (srcs.length + 1) := by
    rw [h3]
    congr 1
    omega
  refine ⟨m, hs, hbuild, hlen, fun order hperm => ⟨?_, ?_⟩⟩
  · have hall : ∀ h ∈ order, h = (⟨some p, some c⟩ : RefCounterHandle) :=
      fun h hh => h1 h (hperm.mem_iff.1 hh)
    have holen : order.length = srcs.length + 1 := hperm.length_eq.trans hlen
    have hrep : order = List.replicate (srcs.length + 1) ⟨some p, some c⟩ :=
      List.eq_replicate_iff.2 ⟨holen, hall⟩
    obtain ⟨mf, g1, g2, _⟩ := refcounted_dtorAll_all S p c srcs.length m hm hlt
    refine ⟨mf, _, hrep ▸ g1, ?_⟩
    rw [g2, h5]
    rfl
  · intro pre rest hor hrest
    subst hor
    have hall : ∀ h ∈ pre ++ rest, h = (⟨some p, some c⟩ : RefCounterHandle) :=
      fun h hh => h1 h (hperm.mem_iff.1 hh)
    have holen : (pre ++ rest).length = srcs.length + 1 := hperm.length_eq.trans hlen
    have hpre : pre = List.replicate pre.length ⟨some p, some c⟩ :=
      List.eq_replicate_iff.2 ⟨rfl, fun h hh => hall h (List.mem_append_left _ hh)⟩
    have hrl : 0 < rest.length := List.length_pos.2 hrest
    simp only [List.length_append] at holen
    obtain ⟨m1, g1, _, g3, g4⟩ :=
      refcounted_dtor_prefix S (some p) c pre.length m (srcs.length + 1) hm (by omega) hlt
    refine ⟨m1, ?_, g4.trans h5, g3.trans h4, ?_⟩
    · rw [← hpre] at g1
      exact g1
    · intro h hh
      rw [hall h (List.mem_append_right _ hh)]

end RefCountedZeroed

/-! ## Second group of claims: single operations -/

section SingleOperations

variable {T : Type}

/-- C20. Delegate self-assignment `a = a`: `free()` nulls `a` and returns its pointer, then
`reassign` compares that pointer with the now-null field, deletes `NULL` (nothing) and stores the
pointer back, or does nothing when the pointer was `NULL` already. The whole state, heap and
objects, is exactly as before: nothing is deallocated and `a` holds what it held. -/
theorem delegate_self_assign (S : StorageStrategy) (st : DelegateState T) (a : Nat) :
    DelegateOwnershipStrategy.assign S st a a = st ∧
    (DelegateOwnershipStrategy.assign S st a a).mem.trace = st.mem.trace ∧
    ((DelegateOwnershipStrategy.assign S st a a).obj a).ptr = (st.obj a).ptr := by
  have key : DelegateOwnershipStrategy.assign S st a a = st := by
    obtain ⟨mem, obj⟩ := st
    cases hp : (obj a).ptr with
    | none =>
      have hobj : Function.update obj a ⟨none⟩ = obj := by
        rw [← hp]
        exact Function.update_eq_self a obj
      simp [DelegateOwnershipStrategy.assign, DelegateOwnershipStrategy.free,
        DelegateOwnershipStrategy.reassign, hp, hobj]
    | some p =>
      have hobj : Function.update obj a ⟨some p⟩ = obj := by
        rw [← hp]
        exact Function.update_eq_self a obj
      simp [DelegateOwnershipStrategy.assign, DelegateOwnershipStrategy.free,
        DelegateOwnershipStrategy.reassign, hp, hobj]
  rw [key]
  exact ⟨rfl, rfl, rfl⟩

/-- C13 evaluated where the memory returned for the counter holds 5: when the constructor
returns, the counter's value is 6, not 1. -/
theorem refcounted_ctor_counter_not_one :
    (RefCounterOwnershipStrategy.ctor (Mem.empty Int) (some 7) 100 5).1.counters 100 = some 6 := by
  decide

/-- The counter's value when the constructor returns is one more (modulo `2 ^ 64`) than what
the allocated memory held; it is 1 exactly when that memory held 0. -/
theorem refcounted_ctor_counter (m : Mem T) (pointer : Option Nat) (c garbage : Nat)
    (hg : garbage < 2 ^ 64) :
    (RefCounterOwnershipStrategy.ctor m pointer c garbage).1.counters c =
      some ((garbage + 1) % 2 ^ 64) ∧
    ((RefCounterOwnershipStrategy.ctor m pointer c garbage).1.counters c = some 1 ↔
      garbage = 0) := by
  simp only [RefCounterOwnershipStrategy.ctor, Function.update_same, Option.some.injEq,
    ReferenceCounter.addReference, true_and]
  omega

end SingleOperations

section SingleOperationsLinked

variable {T : Type}

/-- C17. Linked copy construction splices the new node `n` immediately before the source's
node `o`: in a ring listed from `o`, with `z` the predecessor of `o` before the copy (`o`
itself in a ring of one), the copy succeeds and afterwards `n->next == o`, `o->prev == n`,
`n->prev == z`, `z->next == n`, every other `next` and `prev` link is what it was, and the
ring is the old one with `n` inserted before `o`. -/
theorem linked_copy_splices_before (m : Mem T) (p : Option Nat) (o n : Nat) (xs : List Nat)
    (hR : Ring m (o :: xs)) (hn : m.nodes n = none) :
    ∃ m1 z, m.prev? o = some z ∧ z = xs.getLastD o ∧
      LinkedRefOwnershipStrategy.copyCtor m ⟨p, o⟩ n = some (m1, ⟨p, n⟩) ∧
      m1.next? n = some o ∧ m1.prev? o = some n ∧ m1.prev? n = some z ∧ m1.next? z = some n ∧
      (∀ u, u ≠ n → u ≠ z → m1.next? u = m.next? u) ∧
      (∀ u, u ≠ n → u ≠ o → m1.prev? u = m.prev? u) ∧
      Ring m1 (n :: o :: xs) := by
  have hlast := ringPath_last_link m o xs o hR.2
  obtain ⟨⟨nx, pv⟩, ho⟩ := ringPath_live m o xs o hR.2 o (List.mem_cons_self _ _)
  have hpv : pv = xs.getLastD o := by
    have := hlast.2
    simpa [Mem.prev?, ho] using this
  subst hpv
  obtain ⟨zn, hz⟩ := live_of_next m _ _ hlast.1
  obtain ⟨m1, h1, _, _, _, h5, h6, h7, h8, h9, h10, _⟩ :=
    linked_copyCtor_spec m p o n (xs.getLastD o) nx zn ho hz hn
  obtain ⟨m2, g1, g2, _⟩ := ring_copyCtor m p o n xs hR hn
  have hm : m2 = m1 := by
    rw [h1] at g1
    injection g1 with g1
    injection g1 with g1
    exact g1.symm
  subst hm
  exact ⟨m2, xs.getLastD o, hlast.2, rfl, h1, h5, h7, h6, h8, h9, h10, g2⟩

/-- C17 on a ring of one: the source's node 1 is its own predecessor, the new node 2 ends up
between node 1 and node 1. -/
theorem linked_copy_splices_before_witness :
    ∃ m1, LinkedRefOwnershipStrategy.copyCtor
        (LinkedRefOwnershipStrategy.ctor (Mem.empty Int) (some 7) 1).1 ⟨some 7, 1⟩ 2
        = some (m1, ⟨some 7, 2⟩) ∧
      m1.nodes 2 = some ⟨1, 1⟩ ∧ m1.nodes 1 = some ⟨2, 2⟩ := by
  obtain ⟨m1, z, _, hz, h1, h2, h3, h4, h5, _⟩ :=
    linked_copy_splices_before (LinkedRefOwnershipStrategy.ctor (Mem.empty Int) (some 7) 1).1
      (some 7) 1 2 [] (ring_ctor (Mem.empty Int) (some 7) 1)
      (by simp [LinkedRefOwnershipStrategy.ctor, Mem.empty])
  simp only [List.getLastD_nil] at hz
  subst hz
  exact ⟨m1, h1, nodes_of_links m1 2 1 1 h2 h4, nodes_of_links m1 1 2 2 h5 h3⟩

/-- C19 as stated, evaluated on a sole owner (node 1, resource 7): the destructor frees the
node first and the resource is deallocated only afterwards, so the resource has not been
released when the node is freed. -/
theorem linked_sole_owner_node_freed_first :
    (LinkedRefOwnershipStrategy.dtor StorageStrategy.SinglePtrStorageStrategy
        (LinkedRefOwnershipStrategy.ctor (Mem.empty Int) (some 7) 1).1 ⟨some 7, 1⟩).map
      (fun r => r.1.trace) = some [Event.deleteNode 1, Event.delete 7] ∧
    ¬ ResourceReleasedFirst [Event.deleteNode 1, Event.delete 7] (Event.delete 7)
        (Event.deleteNode 1) := by
  decide

/-- C19 as amended. Destroying a Linked handle whose node `x` is self-linked succeeds and has
exactly two effects, in this order: the destructor body frees the node, then the storage
strategy's destructor deallocates the resource `p`. Both happen within the one destruction, and
afterwards neither the node nor the resource is allocated. -/
theorem linked_sole_owner_dtor_order (S : StorageStrategy) (m : Mem T) (p x : Nat)
    (hself : m.next? x = some x) :
    ∃ m1, LinkedRefOwnershipStrategy.dtor S m ⟨some p, x⟩ = some (m1, ⟨some p, x⟩) ∧
      m1.trace = m.trace ++ [Event.deleteNode x, S.deleteEvent p] ∧
      m1.nodes x = none ∧ m1.blocks p = none := by
  obtain ⟨⟨nx, pv⟩, hx⟩ := live_of_next m _ _ hself
  have : nx = x := by simpa [Mem.next?, hx] using hself
  subst this
  refine ⟨S.deletePtr
    { m with
      nodes := Function.update m.nodes nx none
      trace := m.trace ++ [Event.deleteNode nx] } (some p), ?_, ?_, ?_, ?_⟩
  · simp only [LinkedRefOwnershipStrategy.dtor, linked_dtorBody_single m (some p) nx pv hx,
      Option.bind_eq_bind, Option.some_bind, Option.pure_def, StorageStrategy.dtor]
  · simp
  · simp
  · simp

/-- C19 as amended, on the sole owner constructed on node 1 for resource 7. -/
theorem linked_sole_owner_dtor_order_witness :
    ∃ m1, LinkedRefOwnershipStrategy.dtor StorageStrategy.SinglePtrStorageStrategy
        (LinkedRefOwnershipStrategy.ctor (Mem.empty Int) (some 7) 1).1 ⟨some 7, 1⟩
        = some (m1, ⟨some 7, 1⟩) ∧
      m1.trace = [Event.deleteNode 1, Event.delete 7] := by
  obtain ⟨m1, h1, h2, _⟩ :=
    linked_sole_owner_dtor_order StorageStrategy.SinglePtrStorageStrategy
      (LinkedRefOwnershipStrategy.ctor (Mem.empty Int) (some 7) 1).1 7 1
      (by simp [LinkedRefOwnershipStrategy.ctor, Mem.next?])
  exact ⟨m1, h1, h2⟩

end SingleOperationsLinked

section Assignment

variable {T : Type}

theorem isLink_frame (m m1 : Mem T) (a b : Nat) (ha : m1.nodes a = m.nodes a)
    (hb : m1.nodes b = m.nodes b) (h : IsLink m a b) : IsLink m1 a b := by
  simpa [IsLink, Mem.next?, Mem.prev?, ha, hb] using h

theorem ringPath_frame (m m1 : Mem T) (f : Nat) (hf : m1.nodes f = m.nodes f) (l : List Nat) :
    ∀ a, (∀ u ∈ a :: l, m1.nodes u = m.nodes u) → RingPath m f a l → RingPath m1 f a l := by
  induction l with
  | nil =>
    intro a hu h
    exact isLink_frame m m1 a f (hu a (List.mem_cons_self _ _)) hf h
  | cons b l ih =>
    intro a hu h
    exact ⟨isLink_frame m m1 a b (hu a (List.mem_cons_self _ _))
        (hu b (List.mem_cons_of_mem _ (List.mem_cons_self _ _))) h.1,
      ih b (fun u hu2 => hu u (List.mem_cons_of_mem _ hu2)) h.2⟩

/-- A ring is still a ring in any heap that agrees on its nodes. -/
theorem ring_frame (m m1 : Mem T) (l : List Nat) (hu : ∀ u ∈ l, m1.nodes u = m.nodes u)
    (h : Ring m l) : Ring m1 l := by
  cases l with
  | nil => exact h.elim
  | cons a l => exact ⟨h.1, ringPath_frame m m1 a (hu a (List.mem_cons_self _ _)) l a hu h.2⟩

/-- C11. Ref-Counted assignment `a = b` between handles of different resources: `a` holds
`p` with counter `c1` of value `ca` (`1 ≤ ca`), `b` holds `q` with another counter `c2` of value
`cb`. The assignment succeeds; afterwards `a` has the fields of `b` (pointer `q`, counter
`c2`), the counter of `q` holds `cb + 1` (modulo `2 ^ 64`), and `q` is not deallocated. If `ca`
was 1, the counter of `p` and then `p` itself are deallocated, once each; otherwise the counter
of `p` holds `ca - 1` and nothing is deallocated. -/
theorem refcounted_assign_distinct (S : StorageStrategy) (m : Mem T) (p q c1 c2 ca cb : Nat)
    (hc : c1 ≠ c2) (hpq : p ≠ q) (hma : m.counters c1 = some ca)
    (hmb : m.counters c2 = some cb) (h1 : 1 ≤ ca) (h2 : ca < 2 ^ 64) :
    ∃ m1, RefCounterOwnershipStrategy.assign S m ⟨some p, some c1⟩ ⟨some q, some c2⟩ =
        some (m1, ⟨some q, some c2⟩) ∧
      m1.counters c2 = some ((cb + 1) % 2 ^ 64) ∧
      (cb + 1 < 2 ^ 64 → m1.counters c2 = some (cb + 1)) ∧
      m1.blocks q = m.blocks q ∧
      (ca = 1 → m1.counters c1 = none ∧
        m1.trace = m.trace ++ [Event.deleteCounter c1, S.deleteEvent p]) ∧
      (ca ≠ 1 → m1.counters c1 = some (ca - 1) ∧ m1.trace = m.trace ∧
        m1.blocks = m.blocks) := by
  have hrel : ReferenceCounter.release ca = ca - 1 := by
    have := release_succ (ca - 1) (by omega)
    rwa [Nat.sub_add_cancel h1] at this
  obtain ⟨m0, hcopy, hm1, hm2, hmb0, hmt0⟩ : ∃ m0 : Mem T,
      RefCounterOwnershipStrategy.copyCtor m ⟨some q, some c2⟩ = some (m0, ⟨some q, some c2⟩) ∧
      m0.counters c1 = some ca ∧ m0.counters c2 = some (ReferenceCounter.addReference cb) ∧
      m0.blocks = m.blocks ∧ m0.trace = m.trace :=
    ⟨_, refcounted_copyCtor_eq m (some q) c2 cb hmb, by simp [Function.update_apply, hc, hma],
      by simp, rfl, rfl⟩
  have hadd : ReferenceCounter.addReference cb = (cb + 1) % 2 ^ 64 := rfl
  by_cases hca : ca = 1
  · have hz : ReferenceCounter.release ca = 0 := by
      rw [hrel]
      omega
    refine ⟨S.deletePtr
      { m0 with
        counters := Function.update m0.counters c1 none
        trace := m0.trace ++ [Event.deleteCounter c1] } (some p), ?_, ?_, ?_, ?_, ?_, ?_⟩
    · simp only [RefCounterOwnershipStrategy.assign, hcopy,
        RefCounterOwnershipStrategy.swap, Option.bind_eq_bind, Option.some_bind,
        refcounted_dtor_zero S m0 (some p) c1 ca hm1 hz, Option.pure_def]
    · simp [Function.update_apply, hc, Ne.symm hc, hadd, hm2]
    · intro hlt
      simp [Function.update_apply, hc, Ne.symm hc, addReference_of_lt cb hlt, hm2]
    · simp [Function.update_apply, Ne.symm hpq, hmb0]
    · intro _
      simp [hmt0]
    · intro h
      exact absurd hca h
  · have hnz : ReferenceCounter.release ca ≠ 0 := by
      rw [hrel]
      omega
    refine ⟨{ m0 with
        counters := Function.update m0.counters c1 (some (ReferenceCounter.release ca)) },
      ?_, ?_, ?_, ?_, ?_, ?_⟩
    · simp only [RefCounterOwnershipStrategy.assign, hcopy,
        RefCounterOwnershipStrategy.swap, Option.bind_eq_bind, Option.some_bind,
        refcounted_dtor_ne S m0 (some p) c1 ca hm1 hnz, Option.pure_def]
    · simp [Function.update_apply, hc, Ne.symm hc, hadd, hm2]
    · intro hlt
      simp [Function.update_apply, hc, Ne.symm hc, addReference_of_lt cb hlt, hm2]
    · simp [hmb0]
    · intro h
      exact absurd h hca
    · intro _
      simp [hrel, hmt0, hmb0]

/-- C11 on the assignment of `main`: both handles are sole owners (counters 100 and 101,
each of value 1); `a = b` deallocates the counter and the resource of `a`, and the counter of
`b` goes to 2. -/
theorem refcounted_assign_distinct_witness :
    ∃ m1, RefCounterOwnershipStrategy.assign (T := Int) StorageStrategy.SinglePtrStorageStrategy
        (RefCounterOwnershipStrategy.ctor
          (RefCounterOwnershipStrategy.ctor (Mem.empty Int) (some 7) 100 0).1 (some 8) 101 0).1
        ⟨some 7, some 100⟩ ⟨some 8, some 101⟩ = some (m1, ⟨some 8, some 101⟩) ∧
      m1.counters 101 = some 2 ∧
      m1.trace = [Event.deleteCounter 100, Event.delete 7] := by
  obtain ⟨m1, g1, _, g3, _, g5, _⟩ :=
    refcounted_assign_distinct StorageStrategy.SinglePtrStorageStrategy
      (RefCounterOwnershipStrategy.ctor
        (RefCounterOwnershipStrategy.ctor (Mem.empty Int) (some 7) 100 0).1 (some 8) 101 0).1
      7 8 100 101 1 1 (by decide) (by decide) (by decide) (by decide) (by decide) (by norm_num)
  exact ⟨m1, g1, g3 (by norm_num), (g5 rfl).2⟩

/-- C12. Linked assignment `a = b` between handles of different resources: the node `x` of
`a` (resource `p`) is in a ring `x :: ra`, the node `o` of `b` (resource `q`) in another ring
`o :: rb`. The assignment succeeds; afterwards `a` holds `q` and owns the new node `n`, which
sits in the ring of `b` immediately before `o` (that ring has one node more), `q` is not
deallocated, and the old node of `a` is freed. If `a` was the sole owner of `p`, then `p` is
deallocated, once; otherwise the rest of the old ring of `a` is a ring (one node fewer) and
no resource is deallocated. -/
theorem linked_assign_distinct (S : StorageStrategy) (m : Mem T) (p q x o n : Nat)
    (ra rb : List Nat) (hRa : Ring m (x :: ra)) (hRb : Ring m (o :: rb))
    (hdisj : ∀ u ∈ x :: ra, u ∉ o :: rb) (hpq : p ≠ q) (hn : m.nodes n = none) :
    ∃ m1, LinkedRefOwnershipStrategy.assign S m ⟨some p, x⟩ ⟨some q, o⟩ n =
        some (m1, ⟨some q, n⟩) ∧
      Ring m1 (n :: o :: rb) ∧ (n :: o :: rb).length = (o :: rb).length + 1 ∧
      m1.blocks q = m.blocks q ∧ m1.nodes x = none ∧
      (ra = [] → m1.trace = m.trace ++ [Event.deleteNode x, S.deleteEvent p]) ∧
      (ra ≠ [] → Ring m1 ra ∧ ra.length + 1 = (x :: ra).length ∧
        m1.trace = m.trace ++ [Event.deleteNode x] ∧ m1.blocks = m.blocks) := by
  obtain ⟨m0, h1, h2, h3, _, h5, h6⟩ := ring_copyCtor m (some q) o n rb hRb hn
  have hna : n ∉ x :: ra := by
    intro hmem
    obtain ⟨nd, hnd⟩ := ring_mem_live m (x :: ra) hRa n hmem
    simp [hn] at hnd
  have hout : ∀ u ∈ x :: ra, u ∉ n :: o :: rb := by
    intro u hu hmem
    rcases List.mem_cons.1 hmem with h | h
    · exact hna (h ▸ hu)
    · exact hdisj u hu h
  have hRa0 : Ring m0 (x :: ra) := ring_frame m m0 _ (fun u hu => h6 u (hout u hu)) hRa
  have hxb : x ∉ n :: o :: rb := hout x (List.mem_cons_self _ _)
  cases ra with
  | nil =>
    refine ⟨S.deletePtr
      { m0 with
        nodes := Function.update m0.nodes x none
        trace := m0.trace ++ [Event.deleteNode x] } (some p), ?_, ?_, rfl, ?_, ?_, ?_, ?_⟩
    · simp only [LinkedRefOwnershipStrategy.assign, h1, LinkedRefOwnershipStrategy.swap,
        Option.bind_eq_bind, Option.some_bind, ring_dtor_single S m0 (some p) x hRa0,
        Option.pure_def]
    · refine ring_frame m0 _ _ (fun u hu => ?_) h2
      have hux : u ≠ x := fun h => hxb (h ▸ hu)
      simp [Function.update_apply, hux]
    · simp [Function.update_apply, Ne.symm hpq, h3]
    · simp
    · intro _
      simp [h5]
    · intro h
      exact absurd rfl h
  | cons y ys =>
    obtain ⟨m2, g1, g2, g3, _, g5, g6, g7⟩ := ring_dtor S m0 (some p) x y ys hRa0
    refine ⟨m2, ?_, ?_, rfl, ?_, g6, ?_, ?_⟩
    · simp only [LinkedRefOwnershipStrategy.assign, h1, LinkedRefOwnershipStrategy.swap,
        Option.bind_eq_bind, Option.some_bind, g1, Option.pure_def]
    · refine ring_frame m0 m2 _ (fun u hu => g7 u (fun hmem => hout u hmem hu)) h2
    · rw [g3, h3]
    · intro h
      exact absurd h (List.cons_ne_nil _ _)
    · intro _
      exact ⟨g2, rfl, by rw [g5, h5], g3.trans h3⟩

/-- C12 on the assignment of `main`: both handles are sole owners (nodes 1 and 2); `a = b`
with the temporary's node at 3 frees node 1 and the resource of `a`, and leaves nodes 3 and 2
in one ring. -/
theorem linked_assign_distinct_witness :
    ∃ m1, LinkedRefOwnershipStrategy.assign (T := Int) StorageStrategy.SinglePtrStorageStrategy
        (LinkedRefOwnershipStrategy.ctor
          (LinkedRefOwnershipStrategy.ctor (Mem.empty Int) (some 7) 1).1 (some 8) 2).1
        ⟨some 7, 1⟩ ⟨some 8, 2⟩ 3 = some (m1, ⟨some 8, 3⟩) ∧
      Ring m1 [3, 2] ∧ m1.trace = [Event.deleteNode 1, Event.delete 7] := by
  obtain ⟨m1, g1, g2, _, _, _, g6, _⟩ :=
    linked_assign_distinct StorageStrategy.SinglePtrStorageStrategy
      (LinkedRefOwnershipStrategy.ctor
        (LinkedRefOwnershipStrategy.ctor (Mem.empty Int) (some 7) 1).1 (some 8) 2).1
      7 8 1 2 3 [] [] (by decide) (by decide) (by decide) (by decide)
      (by simp [LinkedRefOwnershipStrategy.ctor, Mem.empty, Function.update_apply])
  exact ⟨m1, g1, g2, g6 rfl⟩

end Assignment

/-! ## Programs over Linked handles: the ring invariant -/

section LinkedPrograms

variable {T : Type}

theorem mem_coOwnerNodes (live : List LinkedHandle) (q : Option Nat) (x : Nat) :
    x ∈ coOwnerNodes live q ↔ ∃ h ∈ live, h.ptr = q ∧ h.node = x := by
  simp [coOwnerNodes, and_assoc]

theorem coOwnerNodes_append (l1 l2 : List LinkedHandle) (q : Option Nat) :
    coOwnerNodes (l1 ++ l2) q = coOwnerNodes l1 q ++ coOwnerNodes l2 q := by
  simp [coOwnerNodes]

theorem coOwnerNodes_cons (h : LinkedHandle) (l : List LinkedHandle) (q : Option Nat) :
    coOwnerNodes (h :: l) q = (if h.ptr = q then [h.node] else []) ++ coOwnerNodes l q := by
  by_cases hq : h.ptr = q <;> simp [coOwnerNodes, List.filter_cons, hq]

theorem coOwnerNodes_perm (l1 l2 : List LinkedHandle) (q : Option Nat) (h : l1.Perm l2) :
    (coOwnerNodes l1 q).Perm (coOwnerNodes l2 q) :=
  (h.filter _).map _

theorem handle_eq_of_node (live : List LinkedHandle) (hnd : (live.map LinkedHandle.node).Nodup)
    (h1 h2 : LinkedHandle) (hm1 : h1 ∈ live) (hm2 : h2 ∈ live) (he : h1.node = h2.node) :
    h1 = h2 :=
  List.inj_on_of_nodup_map hnd hm1 hm2 he

theorem coOwnerNodes_disjoint (live : List LinkedHandle)
    (hnd : (live.map LinkedHandle.node).Nodup) (q1 q2 : Option Nat) (hq : q1 ≠ q2) (u : Nat)
    (h1 : u ∈ coOwnerNodes live q1) : u ∉ coOwnerNodes live q2 := by
  intro h2
  obtain ⟨a, ha, hap, han⟩ := (mem_coOwnerNodes live q1 u).1 h1
  obtain ⟨b, hb, hbp, hbn⟩ := (mem_coOwnerNodes live q2 u).1 h2
  have : a = b := handle_eq_of_node live hnd a b ha hb (han.trans hbn.symm)
  subst this
  exact hq (hap.symm.trans hbp)

/-- Under the ring invariant the node of every live handle is allocated. -/
theorem linkedInv_node_live (st : LinkedState T) (hI : LinkedInv st) (h : LinkedHandle)
    (hm : h ∈ st.live) : ∃ nd, st.mem.nodes h.node = some nd := by
  obtain ⟨L, hR, hP⟩ := hI.2 h hm
  have : h.node ∈ L := hP.mem_iff.2 ((mem_coOwnerNodes _ _ _).2 ⟨h, hm, rfl, rfl⟩)
  exact ring_mem_live st.mem L hR _ this

theorem linkedInv_fresh (st : LinkedState T) (hI : LinkedInv st) (n : Nat)
    (hn : st.mem.nodes n = none) : n ∉ st.live.map LinkedHandle.node := by
  intro hmem
  obtain ⟨h, hm, rfl⟩ := List.mem_map.1 hmem
  obtain ⟨nd, hnd⟩ := linkedInv_node_live st hI h hm
  simp [hn] at hnd

/-- The constructor keeps the ring invariant. -/
theorem linkedInv_construct (st : LinkedState T) (hI : LinkedInv st) (p n : Nat)
    (hn : st.mem.nodes n = none) (hp : ∀ h ∈ st.live, h.ptr ≠ some p) :
    LinkedInv
      { mem := (LinkedRefOwnershipStrategy.ctor st.mem (some p) n).1
        live := st.live ++ [(LinkedRefOwnershipStrategy.ctor st.mem (some p) n).2] } := by
  have hfresh := linkedInv_fresh st hI n hn
  refine ⟨?_, ?_⟩
  · simp only [LinkedRefOwnershipStrategy.ctor, List.map_append, List.map_cons, List.map_nil]
    exact List.Nodup.append hI.1 (List.nodup_singleton _)
      (by simpa [List.Disjoint] using hfresh)
  · intro h hh
    simp only [LinkedRefOwnershipStrategy.ctor] at hh ⊢
    rcases List.mem_append.1 hh with hh | hh
    · obtain ⟨L, hR, hP⟩ := hI.2 h hh
      refine ⟨L, ?_, ?_⟩
      · refine ring_frame st.mem _ L (fun u hu => ?_) hR
        have hun : u ≠ n := by
          rintro rfl
          obtain ⟨nd, hnd⟩ := ring_mem_live st.mem L hR u hu
          simp [hn] at hnd
        simp [Function.update_apply, hun]
      · rw [coOwnerNodes_append, coOwnerNodes_cons]
        have hne : ¬ (some p = h.ptr) := fun e => hp h hh e.symm
        simpa [hne, coOwnerNodes] using hP
    · simp only [List.mem_singleton] at hh
      subst hh
      refine ⟨[n], ring_ctor st.mem (some p) n, ?_⟩
      rw [coOwnerNodes_append, coOwnerNodes_cons]
      have hnone : coOwnerNodes st.live (some p) = [] := by
        apply List.eq_nil_iff_forall_not_mem.2
        intro x hx
        obtain ⟨a, ha, hap, _⟩ := (mem_coOwnerNodes _ _ _).1 hx
        exact hp a ha hap
      rw [hnone]
      simp [coOwnerNodes]

/-- Under the ring invariant, a ring of co-owners stays a ring when the heap changes only on
the nodes of the holders of another pointer `q0` and on nodes that were not allocated. -/
theorem linkedInv_other_ring (st : LinkedState T) (hI : LinkedInv st) (m1 : Mem T)
    (q0 : Option Nat) (K : List Nat) (hK : ∀ u ∈ K, u ∈ coOwnerNodes st.live q0 ∨
      st.mem.nodes u = none)
    (hframe : ∀ u, u ∉ K → m1.nodes u = st.mem.nodes u)
    (h : LinkedHandle) (hq : h.ptr ≠ q0) (L : List Nat)
    (hR : Ring st.mem L) (hP : L.Perm (coOwnerNodes st.live h.ptr)) : Ring m1 L := by
  refine ring_frame st.mem m1 L (fun u hu => hframe u ?_) hR
  intro huK
  rcases hK u huK with h1 | h1
  · exact coOwnerNodes_disjoint st.live hI.1 h.ptr q0 hq u (hP.mem_iff.1 hu) h1
  · obtain ⟨nd, hnd⟩ := ring_mem_live st.mem L hR u hu
    simp [h1] at hnd

/-- Copy construction from a live handle succeeds and keeps the ring invariant. -/
theorem linkedInv_copy (st : LinkedState T) (hI : LinkedInv st) (other : LinkedHandle) (n : Nat)
    (hm : other ∈ st.live) (hn : st.mem.nodes n = none) :
    ∃ m1, LinkedRefOwnershipStrategy.copyCtor st.mem other n = some (m1, ⟨other.ptr, n⟩) ∧
      LinkedInv { mem := m1, live := st.live ++ [⟨other.ptr, n⟩] } := by
  obtain ⟨q0, o⟩ := other
  obtain ⟨L0, hR0, hP0⟩ := hI.2 _ hm
  have ho : o ∈ L0 := hP0.mem_iff.2 ((mem_coOwnerNodes _ _ _).2 ⟨_, hm, rfl, rfl⟩)
  obtain ⟨r, hRr, hPr⟩ := ring_of_mem st.mem L0 o hR0 ho
  obtain ⟨m1, h1, h2, _, _, _, h6⟩ := ring_copyCtor st.mem q0 o n r hRr hn
  have hfresh := linkedInv_fresh st hI n hn
  refine ⟨m1, h1, ?_, ?_⟩
  · simp only [List.map_append, List.map_cons, List.map_nil]
    exact List.Nodup.append hI.1 (List.nodup_singleton _)
      (by simpa [List.Disjoint] using hfresh)
  · intro h hh
    simp only at hh ⊢
    by_cases hq : h.ptr = q0
    · refine ⟨n :: o :: r, h2, ?_⟩
      rw [hq, coOwnerNodes_append, coOwnerNodes_cons, if_pos rfl]
      have hs : coOwnerNodes [] q0 = [] := rfl
      rw [hs, List.append_nil]
      exact ((hPr.trans hP0).cons n).trans
        (@List.perm_append_comm _ [n] (coOwnerNodes st.live q0))
    · have hh2 : h ∈ st.live := by
        rcases List.mem_append.1 hh with hh | hh
        · exact hh
        · simp only [List.mem_singleton] at hh
          subst hh
          exact absurd rfl hq
      obtain ⟨L, hR, hP⟩ := hI.2 h hh2
      refine ⟨L, ?_, ?_⟩
      · refine linkedInv_other_ring st hI m1 q0 (n :: o :: r) ?_ h6 h hq L hR hP
        intro u hu
        rcases List.mem_cons.1 hu with rfl | hu
        · exact Or.inr hn
        · exact Or.inl ((hPr.trans hP0).mem_iff.1 hu)
      · rw [coOwnerNodes_append, coOwnerNodes_cons]
        have hne : ¬ (q0 = h.ptr) := fun e => hq e.symm
        simpa [hne, coOwnerNodes] using hP

/-- Destroying a live handle succeeds and keeps the ring invariant. -/
theorem linkedInv_destroy (S : StorageStrategy) (st : LinkedState T) (hI : LinkedInv st)
    (this : LinkedHandle) (hm : this ∈ st.live) :
    ∃ r, LinkedRefOwnershipStrategy.dtor S st.mem this = some r ∧
      LinkedInv { mem := r.1, live := st.live.erase this } := by
  obtain ⟨q0, x⟩ := this
  obtain ⟨L0, hR0, hP0⟩ := hI.2 _ hm
  have hx : x ∈ L0 := hP0.mem_iff.2 ((mem_coOwnerNodes _ _ _).2 ⟨_, hm, rfl, rfl⟩)
  obtain ⟨r, hRr, hPr⟩ := ring_of_mem st.mem L0 x hR0 hx
  have hnd2 : ((st.live.erase ⟨q0, x⟩).map LinkedHandle.node).Nodup :=
    hI.1.sublist ((List.erase_sublist _ _).map _)
  have hlnd : st.live.Nodup := List.Nodup.of_map _ hI.1
  have hperm : st.live.Perm (⟨q0, x⟩ :: st.live.erase ⟨q0, x⟩) := List.perm_cons_erase hm
  have hco : ∀ q, (coOwnerNodes st.live q).Perm
      ((if q0 = q then [x] else []) ++ coOwnerNodes (st.live.erase ⟨q0, x⟩) q) := by
    intro q
    have := coOwnerNodes_perm _ _ q hperm
    rwa [coOwnerNodes_cons] at this
  have hrest : ∀ h ∈ st.live.erase ⟨q0, x⟩, h ∈ st.live ∧ h ≠ ⟨q0, x⟩ := by
    intro h hh
    exact ⟨List.mem_of_mem_erase hh, fun e => (List.Nodup.mem_erase_iff hlnd).1 hh |>.1 e⟩
  have hxr : ∀ u ∈ x :: r, u ∈ coOwnerNodes st.live q0 ∨ st.mem.nodes u = none :=
    fun u hu => Or.inl ((hPr.trans hP0).mem_iff.1 hu)
  have hother : ∀ (m1 : Mem T), (∀ u, u ∉ x :: r → m1.nodes u = st.mem.nodes u) →
      ∀ h ∈ st.live.erase ⟨q0, x⟩, h.ptr ≠ q0 →
        ∃ L, Ring m1 L ∧ L.Perm (coOwnerNodes (st.live.erase ⟨q0, x⟩) h.ptr) := by
    intro m1 hframe h hh hq
    obtain ⟨L, hR, hP⟩ := hI.2 h (hrest h hh).1
    refine ⟨L, linkedInv_other_ring st hI m1 q0 (x :: r) hxr hframe h hq L hR hP,
      ?_⟩
    have := hco h.ptr
    have hne : ¬ (q0 = h.ptr) := fun e => hq e.symm
    simp only [hne, if_false, List.nil_append] at this
    exact hP.trans this
  cases r with
  | nil =>
    refine ⟨_, ring_dtor_single S st.mem q0 x hRr, hnd2, ?_⟩
    intro h hh
    have hq : h.ptr ≠ q0 := by
      intro e
      have hmem : h.node ∈ coOwnerNodes st.live q0 :=
        (mem_coOwnerNodes _ _ _).2 ⟨h, (hrest h hh).1, e, rfl⟩
      have hx2 : h.node = x := by
        simpa using (hPr.trans hP0).mem_iff.2 hmem
      exact (hrest h hh).2
        (handle_eq_of_node st.live hI.1 h ⟨q0, x⟩ (hrest h hh).1 hm hx2)
    refine hother _ (fun u hu => ?_) h hh hq
    have hux : u ≠ x := by simpa using hu
    cases q0 <;> simp [StorageStrategy.deletePtr, Function.update_apply, hux]
  | cons y ys =>
    obtain ⟨m1, g1, g2, _, _, _, _, g7⟩ := ring_dtor S st.mem q0 x y ys hRr
    refine ⟨_, g1, hnd2, ?_⟩
    intro h hh
    by_cases hq : h.ptr = q0
    · refine ⟨y :: ys, g2, ?_⟩
      have := (hPr.trans hP0).trans (hco q0)
      simp only [if_true, List.singleton_append] at this
      rw [hq]
      exact this.cons_inv
    · exact hother m1 g7 h hh hq

/-- Assignment between live handles (possibly the same one) succeeds and keeps the ring
invariant: it is a copy construction of the temporary followed by the destruction of the old
fields of `this`. -/
theorem linkedInv_assign (S : StorageStrategy) (st : LinkedState T) (hI : LinkedInv st)
    (this rhs : LinkedHandle) (n : Nat) (hm : this ∈ st.live) (hm2 : rhs ∈ st.live)
    (hn : st.mem.nodes n = none) :
    ∃ r, LinkedRefOwnershipStrategy.assign S st.mem this rhs n = some r ∧
      LinkedInv { mem := r.1, live := st.live.erase this ++ [r.2] } := by
  obtain ⟨m1, h1, hI1⟩ := linkedInv_copy st hI rhs n hm2 hn
  obtain ⟨d, g1, hI2⟩ := linkedInv_destroy S _ hI1 this (List.mem_append_left _ hm)
  refine ⟨(d.1, ⟨rhs.ptr, n⟩), ?_, ?_⟩
  · obtain ⟨tp, tn⟩ := this
    simp only [LinkedRefOwnershipStrategy.assign, h1, LinkedRefOwnershipStrategy.swap,
      Option.bind_eq_bind, Option.some_bind, Option.pure_def]
    simp only at g1
    rw [g1]
    rfl
  · simp only at hI2 ⊢
    rwa [List.erase_append_left _ hm] at hI2

/-- From a state with the ring invariant every admissible operation succeeds and leads to a
state with the ring invariant. -/
theorem linked_step_inv (S : StorageStrategy) (st : LinkedState T) (hI : LinkedInv st)
    (op : LinkedOp) (hadm : op.Admissible st) :
    ∃ st1, st.step S op = some st1 ∧ LinkedInv st1 := by
  unfold LinkedState.step
  rw [if_pos hadm]
  cases op with
  | construct p n => exact ⟨_, rfl, linkedInv_construct st hI p n hadm.1 hadm.2⟩
  | copy other n =>
    obtain ⟨m1, h1, h2⟩ := linkedInv_copy st hI other n hadm.1 hadm.2
    exact ⟨_, by simp only [h1, Option.map_some'], h2⟩
  | assign this rhs n =>
    obtain ⟨r, h1, h2⟩ := linkedInv_assign S st hI this rhs n hadm.1 hadm.2.1 hadm.2.2
    exact ⟨_, by simp only [h1, Option.map_some'], h2⟩
  | destroy this =>
    obtain ⟨r, h1, h2⟩ := linkedInv_destroy S st hI this hadm
    exact ⟨_, by simp only [h1, Option.map_some'], h2⟩

theorem linked_step_admissible (S : StorageStrategy) (st st1 : LinkedState T) (op : LinkedOp)
    (h : st.step S op = some st1) : op.Admissible st := by
  by_contra hadm
  unfold LinkedState.step at h
  rw [if_neg hadm] at h
  exact Option.noConfusion h

/-- The ring invariant holds after every program that starts from a state where it holds. -/
theorem linked_run_inv (S : StorageStrategy) (ops : List LinkedOp) :
    ∀ st st1 : LinkedState T, LinkedInv st → LinkedState.run S st ops = some st1 →
      LinkedInv st1 := by
  induction ops with
  | nil =>
    intro st st1 hI h
    simp only [LinkedState.run, Option.some.injEq] at h
    exact h ▸ hI
  | cons op ops ih =>
    intro st st1 hI h
    simp only [LinkedState.run] at h
    cases hs : st.step S op with
    | none => simp [hs] at h
    | some st2 =>
      rw [hs] at h
      obtain ⟨st3, h3, hI3⟩ := linked_step_inv S st hI op (linked_step_admissible S st st2 op hs)
      rw [hs] at h3
      injection h3 with h3
      subst h3
      exact ih st2 st1 hI3 h

/-- In a ring every node has a successor and a predecessor on the ring, and the links mirror
each other: `x->next->prev == x` and `x->prev->next == x`. -/
theorem ring_links (m : Mem T) (L : List Nat) (h : Ring m L) (x : Nat) (hx : x ∈ L) :
    ∃ nx pv, m.nodes x = some ⟨nx, pv⟩ ∧ nx ∈ L ∧ pv ∈ L ∧
      m.prev? nx = some x ∧ m.next? pv = some x := by
  obtain ⟨r, hR, hP⟩ := ring_of_mem m L x h hx
  cases r with
  | nil =>
    exact ⟨x, x, nodes_of_links m x x x hR.2.1 hR.2.2, hx, hx, hR.2.2, hR.2.1⟩
  | cons y ys =>
    obtain ⟨_, hxy, hp⟩ := hR
    have hlast := ringPath_last_link m x ys y hp
    refine ⟨y, ys.getLastD y, nodes_of_links m x _ _ hxy.1 hlast.2, ?_, ?_, hxy.2, hlast.1⟩
    · exact hP.mem_iff.1 (List.mem_cons_of_mem _ (List.mem_cons_self _ _))
    · exact hP.mem_iff.1 (List.mem_cons_of_mem _ (getLastD_mem ys y))

/-- A node of a ring is linked to itself exactly when it is the only node of the ring. -/
theorem ring_self_linked_iff (m : Mem T) (x : Nat) (r : List Nat) (h : Ring m (x :: r)) :
    m.next? x = some x ↔ r = [] := by
  cases r with
  | nil => exact ⟨fun _ => rfl, fun _ => h.2.1⟩
  | cons y ys =>
    refine ⟨fun hs => ?_, fun e => absurd e (List.cons_ne_nil _ _)⟩
    have hy : m.next? x = some y := h.2.1.1
    rw [hs] at hy
    injection hy with hy
    exact absurd (hy ▸ List.mem_cons_self _ _) (List.nodup_cons.1 h.1).1

/-- C16. Linked ring invariant. Take any program of construct (from a resource that no live
handle holds), copy-construct, assign and destroy operations on Linked handles, started with no
live handle. In the state it reaches, the live handles own distinct nodes, and for every live
handle `h` there is a ring `L` which contains the node of `h`, consists exactly of the nodes of
the live handles holding the same resource pointer as `h`, has as many nodes as there are such
handles, and is doubly linked (`x->next->prev == x` and `x->prev->next == x` for each of its
nodes, with `next` and `prev` staying on the ring); the node of `h` is linked to itself exactly
when `h` is the only live handle holding its pointer. Moreover every further admissible
operation succeeds. -/
theorem linked_ring_invariant (S : StorageStrategy) (m0 : Mem T) (ops : List LinkedOp)
    (st : LinkedState T) (hrun : LinkedState.run S ⟨m0, []⟩ ops = some st) :
    (st.live.map LinkedHandle.node).Nodup ∧
    (∀ h ∈ st.live, ∃ L, Ring st.mem L ∧ h.node ∈ L ∧
      (∀ x, x ∈ L ↔ ∃ h' ∈ st.live, h'.ptr = h.ptr ∧ h'.node = x) ∧
      L.length = (st.live.filter fun h' => h'.ptr = h.ptr).length ∧
      (∀ x ∈ L, ∃ nx pv, st.mem.nodes x = some ⟨nx, pv⟩ ∧ nx ∈ L ∧ pv ∈ L ∧
        st.mem.prev? nx = some x ∧ st.mem.next? pv = some x) ∧
      (st.mem.next? h.node = some h.node ↔ ∀ h' ∈ st.live, h'.ptr = h.ptr → h' = h)) ∧
    (∀ op : LinkedOp, op.Admissible st → ∃ st1, st.step S op = some st1) := by
  have hI : LinkedInv st :=
    linked_run_inv S ops ⟨m0, []⟩ st ⟨List.nodup_nil, fun h hh => by simp at hh⟩ hrun
  refine ⟨hI.1, fun h hh => ?_, fun op hadm => ?_⟩
  · obtain ⟨L, hR, hP⟩ := hI.2 h hh
    have hmemiff : ∀ x, x ∈ L ↔ ∃ h' ∈ st.live, h'.ptr = h.ptr ∧ h'.node = x :=
      fun x => hP.mem_iff.trans (mem_coOwnerNodes _ _ _)
    have hhL : h.node ∈ L := (hmemiff _).2 ⟨h, hh, rfl, rfl⟩
    refine ⟨L, hR, hhL, hmemiff, ?_, fun x hx => ring_links st.mem L hR x hx, ?_⟩
    · rw [hP.length_eq]
      simp [coOwnerNodes]
    · obtain ⟨r, hRr, hPr⟩ := ring_of_mem st.mem L h.node hR hhL
      rw [ring_self_linked_iff st.mem h.node r hRr]
      constructor
      · intro hr h' hh' hp
        subst hr
        have hn : h'.node ∈ L := (hmemiff _).2 ⟨h', hh', hp, rfl⟩
        have hn2 : h'.node = h.node := by
          simpa using hPr.mem_iff.2 hn
        exact handle_eq_of_node st.live hI.1 h' h hh' hh hn2
      · intro hall
        cases r with
        | nil => rfl
        | cons y ys =>
          exfalso
          have hy : y ∈ L := hPr.mem_iff.1 (List.mem_cons_of_mem _ (List.mem_cons_self _ _))
          obtain ⟨h', hh', hp, hn⟩ := (hmemiff y).1 hy
          have := hall h' hh' hp
          subst this
          exact (List.nodup_cons.1 hRr.1).1 (hn ▸ List.mem_cons_self _ _)
  · obtain ⟨st1, h1, _⟩ := linked_step_inv S st hI op hadm
    exact ⟨st1, h1⟩

/-- C16 on a program in the manner of `main`: two resources, a copy, an assignment across the
two rings, a destruction. -/
theorem linked_ring_invariant_witness :
    ∃ st : LinkedState Int,
      LinkedState.run StorageStrategy.SinglePtrStorageStrategy ⟨Mem.empty Int, []⟩
        [LinkedOp.construct 7 1, LinkedOp.copy ⟨some 7, 1⟩ 2, LinkedOp.construct 8 3,
          LinkedOp.assign ⟨some 7, 1⟩ ⟨some 8, 3⟩ 4, LinkedOp.destroy ⟨some 7, 2⟩] = some st ∧
      (st.live.map LinkedHandle.node).Nodup := by
  have h : ∃ st : LinkedState Int,
      LinkedState.run StorageStrategy.SinglePtrStorageStrategy ⟨Mem.empty Int, []⟩
        [LinkedOp.construct 7 1, LinkedOp.copy ⟨some 7, 1⟩ 2, LinkedOp.construct 8 3,
          LinkedOp.assign ⟨some 7, 1⟩ ⟨some 8, 3⟩ 4, LinkedOp.destroy ⟨some 7, 2⟩] = some st :=
    ⟨_, rfl⟩
  obtain ⟨st, hst⟩ := h
  exact ⟨st, hst, (linked_ring_invariant _ _ _ st hst).1⟩

end LinkedPrograms


/-! ## Programs over Delegate handles -/

section DelegatePrograms

variable {T : Type}

theorem deleteEvent_inj (S : StorageStrategy) {p q : Nat}
    (h : S.deleteEvent p = S.deleteEvent q) : p = q := by
  cases S <;> simpa [StorageStrategy.deleteEvent] using h

theorem deletePtr_trace (S : StorageStrategy) (m : Mem T) (ptr : Option Nat) :
    (S.deletePtr m ptr).trace = m.trace ++ (ptr.map S.deleteEvent).toList := by
  cases ptr <;> simp [StorageStrategy.deletePtr]

/-- Releasing what a live handle holds keeps the record of deallocations free of repetitions
and of the resources the other live handles hold. -/
theorem delegateInv_release (S : StorageStrategy) (M : DelegateMachine T)
    (hI : DelegateInv S M) (a : Nat) (ha : a ∈ M.live) :
    (∀ e ∈ (S.deletePtr M.st.mem (M.st.obj a).ptr).trace, ∃ r ∈ M.used, e = S.deleteEvent r) ∧
    (S.deletePtr M.st.mem (M.st.obj a).ptr).trace.Nodup ∧
    (∀ b ∈ M.live, b ≠ a → ∀ r, (M.st.obj b).ptr = some r →
      S.deleteEvent r ∉ (S.deletePtr M.st.mem (M.st.obj a).ptr).trace) := by
  obtain ⟨-, hheld, huniq, hused, hnodup⟩ := hI
  rw [deletePtr_trace]
  cases hp : (M.st.obj a).ptr with
  | none =>
    simp only [Option.map_none', Option.toList_none, List.append_nil]
    exact ⟨hused, hnodup, fun b hb _ r hr => (hheld b hb r hr).2⟩
  | some p =>
    simp only [Option.map_some', Option.toList_some]
    refine ⟨?_, ?_, ?_⟩
    · intro e he
      rcases List.mem_append.mp he with he | he
      · exact hused e he
      · exact ⟨p, (hheld a ha p hp).1, by simpa using he⟩
    · rw [List.nodup_append]
      refine ⟨hnodup, List.nodup_singleton _, ?_⟩
      intro e he he2
      rw [List.mem_singleton] at he2
      subst he2
      exact (hheld a ha p hp).2 he
    · intro b hb hba r hr hmem
      rcases List.mem_append.mp hmem with hmem | hmem
      · exact (hheld b hb r hr).2 hmem
      · rw [List.mem_singleton] at hmem
        have hrp : r = p := deleteEvent_inj S hmem
        have := huniq b hb a ha hba (by rw [hr, hp, hrp])
        rw [hr] at this
        exact Option.noConfusion this

/-- Moving the pointer of a live handle `other` to a handle `this` keeps the pointers held by
`this` and by the live handles distinct. -/
theorem delegate_move_unique (obj : Nat → DelegateHandle) (live : List Nat) (this other : Nat)
    (ho : other ∈ live)
    (huniq : ∀ a ∈ live, ∀ b ∈ live, a ≠ b → (obj a).ptr = (obj b).ptr → (obj a).ptr = none)
    (a b : Nat) (ha : a = this ∨ a ∈ live) (hb : b = this ∨ b ∈ live) (hab : a ≠ b)
    (heq : (Function.update (Function.update obj other ⟨none⟩) this ⟨(obj other).ptr⟩ a).ptr =
      (Function.update (Function.update obj other ⟨none⟩) this ⟨(obj other).ptr⟩ b).ptr) :
    (Function.update (Function.update obj other ⟨none⟩) this ⟨(obj other).ptr⟩ a).ptr = none := by
  simp only [Function.update_apply] at heq ⊢
  by_cases hat : a = this
  · have hbt : b ≠ this := fun h => hab (hat.trans h.symm)
    have hbl : b ∈ live := hb.resolve_left hbt
    rw [if_pos hat]
    rw [if_pos hat, if_neg hbt] at heq
    by_cases hbo : b = other
    · rw [if_pos hbo] at heq
      exact heq
    · rw [if_neg hbo] at heq
      exact huniq other ho b hbl (fun h => hbo h.symm) heq
  · have hal : a ∈ live := ha.resolve_left hat
    rw [if_neg hat]
    rw [if_neg hat] at heq
    by_cases hao : a = other
    · rw [if_pos hao]
    · rw [if_neg hao]
      rw [if_neg hao] at heq
      by_cases hbt : b = this
      · rw [if_pos hbt] at heq
        exact huniq a hal other ho hao heq
      · have hbl : b ∈ live := hb.resolve_left hbt
        rw [if_neg hbt] at heq
        by_cases hbo : b = other
        · rw [if_pos hbo] at heq
          exact heq
        · rw [if_neg hbo] at heq
          exact huniq a hal b hbl hab heq

/-- Assignment of an object to itself leaves the whole state as it was. -/
theorem delegate_assign_self (S : StorageStrategy) (st : DelegateState T) (a : Nat) :
    DelegateOwnershipStrategy.assign S st a a = st := by
  obtain ⟨mem, obj⟩ := st
  cases hp : (obj a).ptr with
  | none =>
    have hobj : Function.update obj a ⟨none⟩ = obj := by
      rw [← hp]
      exact Function.update_eq_self a obj
    simp [DelegateOwnershipStrategy.assign, DelegateOwnershipStrategy.free,
      DelegateOwnershipStrategy.reassign, hp, hobj]
  | some p =>
    have hobj : Function.update obj a ⟨some p⟩ = obj := by
      rw [← hp]
      exact Function.update_eq_self a obj
    simp [DelegateOwnershipStrategy.assign, DelegateOwnershipStrategy.free,
      DelegateOwnershipStrategy.reassign, hp, hobj]

/-- Assignment between two different objects, spelled out: when the pointers differ the old
resource of `this` is released and the pointer of `other` moves to `this`. -/
theorem delegate_assign_ne (S : StorageStrategy) (st : DelegateState T) (this other : Nat)
    (hne : this ≠ other) (hpq : (st.obj other).ptr ≠ (st.obj this).ptr) :
    DelegateOwnershipStrategy.assign S st this other =
      { mem := S.deletePtr st.mem (st.obj this).ptr
        obj := Function.update (Function.update st.obj other ⟨none⟩) this
          ⟨(st.obj other).ptr⟩ } := by
  simp [DelegateOwnershipStrategy.assign, DelegateOwnershipStrategy.free,
    DelegateOwnershipStrategy.reassign, Function.update_noteq hne, hpq]

/-- Assignment between two different objects that hold the same pointer: only `other` is set
to `NULL`. -/
theorem delegate_assign_same (S : StorageStrategy) (st : DelegateState T) (this other : Nat)
    (hne : this ≠ other) (hpq : (st.obj other).ptr = (st.obj this).ptr) :
    DelegateOwnershipStrategy.assign S st this other =
      { st with obj := Function.update st.obj other ⟨none⟩ } := by
  simp [DelegateOwnershipStrategy.assign, DelegateOwnershipStrategy.free,
    DelegateOwnershipStrategy.reassign, Function.update_noteq hne, hpq]

end DelegatePrograms


section DelegateInvariant

variable {T : Type}

theorem delegateInv_init (S : StorageStrategy) (blocks : Nat → Option (List T)) :
    DelegateInv S (DelegateMachine.init blocks) := by
  simp [DelegateInv, DelegateMachine.init, Mem.empty]

theorem delegateInv_construct (S : StorageStrategy) (M : DelegateMachine T)
    (hI : DelegateInv S M) (this p : Nat) (hthis : this ∉ M.live) (hp : p ∉ M.used) :
    DelegateInv S { M with
                    st := DelegateOwnershipStrategy.ctor M.st this (some p)
                    live := this :: M.live
                    used := p :: M.used } := by
  obtain ⟨hlive, hheld, huniq, hused, hnodup⟩ := hI
  have hfresh : ∀ a ∈ M.live, (M.st.obj a).ptr ≠ some p :=
    fun a ha h => hp (hheld a ha p h).1
  have hobj : ∀ a ∈ M.live, Function.update M.st.obj this ⟨some p⟩ a = M.st.obj a :=
    fun a ha => Function.update_noteq (by rintro rfl; exact hthis ha) _ _
  refine ⟨List.nodup_cons.mpr ⟨hthis, hlive⟩, ?_, ?_, ?_, hnodup⟩
  · intro a ha r hr
    simp only [DelegateOwnershipStrategy.ctor] at hr ⊢
    rcases List.mem_cons.mp ha with rfl | ha
    · rw [Function.update_same] at hr
      have hrp : p = r := Option.some.inj hr
      subst hrp
      refine ⟨List.mem_cons_self _ _, fun hmem => ?_⟩
      obtain ⟨r, hr, he⟩ := hused _ hmem
      exact hp (deleteEvent_inj S he ▸ hr)
    · rw [hobj a ha] at hr
      exact ⟨List.mem_cons_of_mem _ (hheld a ha r hr).1, (hheld a ha r hr).2⟩
  · intro a ha b hb hab heq
    simp only [DelegateOwnershipStrategy.ctor] at heq ⊢
    rcases List.mem_cons.mp ha with hat | ha1
    · rcases List.mem_cons.mp hb with hbt | hb1
      · exact absurd (hat.trans hbt.symm) hab
      · rw [hat, Function.update_same, hobj b hb1] at heq
        exact absurd heq.symm (hfresh b hb1)
    · rcases List.mem_cons.mp hb with hbt | hb1
      · rw [hbt, Function.update_same, hobj a ha1] at heq
        exact absurd heq (hfresh a ha1)
      · rw [hobj a ha1] at heq ⊢
        rw [hobj b hb1] at heq
        exact huniq a ha1 b hb1 hab heq
  · intro e he
    obtain ⟨r, hr, h⟩ := hused e he
    exact ⟨r, List.mem_cons_of_mem _ hr, h⟩

theorem delegateInv_copy (S : StorageStrategy) (M : DelegateMachine T)
    (hI : DelegateInv S M) (this other : Nat) (hthis : this ∉ M.live) (ho : other ∈ M.live)
    (d : List (Nat × Nat)) :
    DelegateInv S { M with
                    st := DelegateOwnershipStrategy.copyCtor M.st this other
                    live := this :: M.live
                    donated := d } := by
  obtain ⟨hlive, hheld, huniq, hused, hnodup⟩ := hI
  refine ⟨List.nodup_cons.mpr ⟨hthis, hlive⟩, ?_, ?_, hused, hnodup⟩
  · intro a ha r hr
    simp only [DelegateOwnershipStrategy.copyCtor, DelegateOwnershipStrategy.free,
      Function.update_apply] at hr ⊢
    by_cases hat : a = this
    · rw [if_pos hat] at hr
      exact hheld other ho r hr
    · rw [if_neg hat] at hr
      have hal : a ∈ M.live := (List.mem_cons.mp ha).resolve_left hat
      by_cases hao : a = other
      · rw [if_pos hao] at hr
        exact Option.noConfusion hr
      · rw [if_neg hao] at hr
        exact hheld a hal r hr
  · intro a ha b hb hab heq
    exact delegate_move_unique M.st.obj M.live this other ho huniq a b
      (List.mem_cons.mp ha) (List.mem_cons.mp hb) hab heq

theorem delegateInv_destroy (S : StorageStrategy) (M : DelegateMachine T)
    (hI : DelegateInv S M) (this : Nat) (hthis : this ∈ M.live) (d : List (Nat × Nat)) :
    DelegateInv S { M with
                    st := DelegateOwnershipStrategy.dtor S M.st this
                    live := M.live.erase this
                    donated := d } := by
  obtain ⟨hused1, hnodup1, hheld1⟩ := delegateInv_release S M hI this hthis
  obtain ⟨hlive, hheld, huniq, -, -⟩ := hI
  have hmem : ∀ a ∈ M.live.erase this, a ∈ M.live ∧ a ≠ this :=
    fun a ha => ⟨List.mem_of_mem_erase ha, fun h => (List.Nodup.mem_erase_iff hlive).mp ha |>.1 h⟩
  refine ⟨hlive.erase _, ?_, ?_, hused1, hnodup1⟩
  · intro a ha r hr
    exact ⟨(hheld a (hmem a ha).1 r hr).1, hheld1 a (hmem a ha).1 (hmem a ha).2 r hr⟩
  · intro a ha b hb hab heq
    exact huniq a (hmem a ha).1 b (hmem b hb).1 hab heq

theorem delegateInv_assign (S : StorageStrategy) (M : DelegateMachine T)
    (hI : DelegateInv S M) (this other : Nat) (hthis : this ∈ M.live) (ho : other ∈ M.live)
    (d : List (Nat × Nat)) :
    DelegateInv S { M with
                    st := DelegateOwnershipStrategy.assign S M.st this other
                    donated := d } := by
  obtain ⟨hused1, hnodup1, hheld1⟩ := delegateInv_release S M hI this hthis
  obtain ⟨hlive, hheld, huniq, hused, hnodup⟩ := hI
  by_cases hne : this = other
  · subst hne
    rw [delegate_assign_self S M.st this]
    exact ⟨hlive, hheld, huniq, hused, hnodup⟩
  by_cases hpq : (M.st.obj other).ptr = (M.st.obj this).ptr
  · rw [delegate_assign_same S M.st this other hne hpq]
    have hnull : (M.st.obj other).ptr = none :=
      huniq other ho this hthis (fun h => hne h.symm) hpq
    have hsame : Function.update M.st.obj other ⟨none⟩ = M.st.obj := by
      rw [← hnull]
      exact Function.update_eq_self _ _
    simp only [hsame]
    exact ⟨hlive, hheld, huniq, hused, hnodup⟩
  · rw [delegate_assign_ne S M.st this other hne hpq]
    refine ⟨hlive, ?_, ?_, hused1, hnodup1⟩
    · intro a ha r hr
      simp only [Function.update_apply] at hr
      by_cases hat : a = this
      · rw [if_pos hat] at hr
        exact ⟨(hheld other ho r hr).1, hheld1 other ho (fun h => hne h.symm) r hr⟩
      · rw [if_neg hat] at hr
        by_cases hao : a = other
        · rw [if_pos hao] at hr
          exact Option.noConfusion hr
        · rw [if_neg hao] at hr
          exact ⟨(hheld a ha r hr).1, hheld1 a ha hat r hr⟩
    · intro a ha b hb hab heq
      exact delegate_move_unique M.st.obj M.live this other ho huniq a b
        (Or.inr ha) (Or.inr hb) hab heq

end DelegateInvariant


section DelegateReachable

variable {T : Type}

theorem delegate_step_inv (S : StorageStrategy) (M M1 : DelegateMachine T) (op : DelegateOp)
    (hI : DelegateInv S M) (hstep : M.step S op = some M1) : DelegateInv S M1 := by
  unfold DelegateMachine.step at hstep
  split_ifs at hstep with hadm
  cases op with
  | construct this p =>
    simp only [Option.some.injEq] at hstep
    subst hstep
    exact delegateInv_construct S M hI this p hadm.1 hadm.2
  | copy this other =>
    simp only [Option.some.injEq] at hstep
    subst hstep
    exact delegateInv_copy S M hI this other hadm.1 hadm.2 _
  | assign this other =>
    simp only [Option.some.injEq] at hstep
    subst hstep
    exact delegateInv_assign S M hI this other hadm.1 hadm.2 _
  | destroy this =>
    simp only [Option.some.injEq] at hstep
    subst hstep
    exact delegateInv_destroy S M hI this hadm _

theorem delegate_run_inv (S : StorageStrategy) (ops : List DelegateOp) :
    ∀ (M M1 : DelegateMachine T), DelegateInv S M → DelegateMachine.run S M ops = some M1 →
      DelegateInv S M1 := by
  induction ops with
  | nil =>
    intro M M1 hI hrun
    simp only [DelegateMachine.run, Option.some.injEq] at hrun
    exact hrun ▸ hI
  | cons op ops ih =>
    intro M M1 hI hrun
    simp only [DelegateMachine.run] at hrun
    cases hstep : M.step S op with
    | none =>
      rw [hstep] at hrun
      exact Option.noConfusion hrun
    | some M2 =>
      rw [hstep] at hrun
      exact ih M2 M1 (delegate_step_inv S M M2 op hI hstep) hrun

/-- What a copy construction or an assignment does to the pointers, in any state: the receiver
ends with what the donor held, and a donor that is another object ends with `NULL`. -/
theorem delegate_transfer (S : StorageStrategy) (st : DelegateState T) (this other : Nat)
    (hne : this ≠ other) :
    ((DelegateOwnershipStrategy.copyCtor st this other).obj other).ptr = none ∧
    ((DelegateOwnershipStrategy.copyCtor st this other).obj this).ptr = (st.obj other).ptr ∧
    ((DelegateOwnershipStrategy.assign S st this other).obj other).ptr = none ∧
    ((DelegateOwnershipStrategy.assign S st this other).obj this).ptr = (st.obj other).ptr := by
  have hne2 : other ≠ this := fun h => hne h.symm
  refine ⟨?_, ?_, ?_, ?_⟩
  · simp [DelegateOwnershipStrategy.copyCtor, DelegateOwnershipStrategy.free,
      Function.update_noteq hne2]
  · simp [DelegateOwnershipStrategy.copyCtor, DelegateOwnershipStrategy.free]
  · by_cases hpq : (st.obj other).ptr = (st.obj this).ptr
    · rw [delegate_assign_same S st this other hne hpq]
      simp
    · rw [delegate_assign_ne S st this other hne hpq]
      simp [Function.update_noteq hne2]
  · by_cases hpq : (st.obj other).ptr = (st.obj this).ptr
    · rw [delegate_assign_same S st this other hne hpq]
      simp [Function.update_noteq hne, hpq]
    · rw [delegate_assign_ne S st this other hne hpq]
      simp

/-- A handle that holds `NULL` keeps holding `NULL` through every operation that does not
construct it or assign to it. -/
theorem delegate_null_stays (S : StorageStrategy) (M M1 : DelegateMachine T) (op : DelegateOp)
    (hstep : M.step S op = some M1) (c : Nat) (hc : (M.st.obj c).ptr = none)
    (ht : op.target ≠ some c) : (M1.st.obj c).ptr = none := by
  unfold DelegateMachine.step at hstep
  split_ifs at hstep with hadm
  cases op with
  | construct this p =>
    simp only [Option.some.injEq] at hstep
    subst hstep
    have hne : c ≠ this := fun h => ht (by rw [h]; rfl)
    simp [DelegateOwnershipStrategy.ctor, Function.update_noteq hne, hc]
  | copy this other =>
    simp only [Option.some.injEq] at hstep
    subst hstep
    have hne : c ≠ this := fun h => ht (by rw [h]; rfl)
    simp only [DelegateOwnershipStrategy.copyCtor, DelegateOwnershipStrategy.free,
      Function.update_noteq hne, Function.update_apply]
    split_ifs
    · rfl
    · exact hc
  | assign this other =>
    simp only [Option.some.injEq] at hstep
    subst hstep
    have hne : c ≠ this := fun h => ht (by rw [h]; rfl)
    by_cases hto : this = other
    · subst hto
      rw [delegate_assign_self S M.st this]
      exact hc
    by_cases hpq : (M.st.obj other).ptr = (M.st.obj this).ptr
    · rw [delegate_assign_same S M.st this other hto hpq]
      simp only [Function.update_apply]
      split_ifs
      · rfl
      · exact hc
    · rw [delegate_assign_ne S M.st this other hto hpq]
      simp only [Function.update_noteq hne, Function.update_apply]
      split_ifs
      · rfl
      · exact hc
  | destroy this =>
    simp only [Option.some.injEq] at hstep
    subst hstep
    exact hc

/-- C18, as stated, fails. The program of `main`: `sm_ptr_1` (object 0) is constructed on
resource 7, donates it to the copy `sm_ptr_1_1` (object 1), which is destroyed; then
`sm_ptr_1_2` (object 2) is constructed on resource 8 and `sm_ptr_1 = sm_ptr_1_2` is executed.
In the state reached, object 0 is a live handle that donated resource 7, and it holds the
non-null pointer 8. -/
theorem delegate_donor_reassigned :
    ∃ M : DelegateMachine Int,
      DelegateMachine.run StorageStrategy.SinglePtrStorageStrategy
        (DelegateMachine.init fun _ => none)
        [.construct 0 7, .copy 1 0, .destroy 1, .construct 2 8, .assign 0 2] = some M ∧
      M.live = [2, 0] ∧ (0, 7) ∈ M.donated ∧ (M.st.obj 0).ptr = some 8 ∧
      M.st.mem.trace = [Event.delete 7] ∧
      ¬ DelegateDonorsNull StorageStrategy.SinglePtrStorageStrategy M := by
  refine ⟨_, rfl, by decide, by decide, by decide, by decide, fun h => ?_⟩
  exact absurd (h.2.1 (0, 7) (by decide)) (by decide)

/-- C18, amended. In every state reached from the start of a program by admissible construct
(each on a resource no constructor was handed before), copy-construct, assign and destroy
operations on Delegate handles: no two live handles hold the same resource; no resource has
been deallocated more than once; and every admissible operation succeeds, a copy construction
or an assignment from another handle leaving the donor with `NULL` and the receiver with what
the donor held, and every handle that holds `NULL` keeping `NULL` unless the operation
constructs it or assigns to it. -/
theorem delegate_single_holder (S : StorageStrategy) (blocks : Nat → Option (List T))
    (ops : List DelegateOp) (M : DelegateMachine T)
    (hrun : DelegateMachine.run S (DelegateMachine.init blocks) ops = some M) :
    (∀ a ∈ M.live, ∀ b ∈ M.live, a ≠ b → (M.st.obj a).ptr = (M.st.obj b).ptr →
      (M.st.obj a).ptr = none) ∧
    (∀ p, M.st.mem.trace.count (S.deleteEvent p) ≤ 1) ∧
    (∀ op : DelegateOp, op.Admissible M → ∃ M1, M.step S op = some M1 ∧
      (∀ this other, this ≠ other → op = .copy this other ∨ op = .assign this other →
        (M1.st.obj other).ptr = none ∧ (M1.st.obj this).ptr = (M.st.obj other).ptr) ∧
      (∀ c, (M.st.obj c).ptr = none → op.target ≠ some c → (M1.st.obj c).ptr = none)) := by
  have hI := delegate_run_inv S ops _ M (delegateInv_init S blocks) hrun
  refine ⟨hI.2.2.1, fun p => List.nodup_iff_count_le_one.mp hI.2.2.2.2 _, ?_⟩
  intro op hadm
  have hstep : ∃ M1, M.step S op = some M1 := by
    unfold DelegateMachine.step
    rw [if_pos hadm]
    cases op <;> exact ⟨_, rfl⟩
  obtain ⟨M1, hstep⟩ := hstep
  refine ⟨M1, hstep, ?_, fun c hc ht => delegate_null_stays S M M1 op hstep c hc ht⟩
  intro this other hne hop
  have htr := delegate_transfer S M.st this other hne
  unfold DelegateMachine.step at hstep
  rw [if_pos hadm] at hstep
  rcases hop with rfl | rfl
  · simp only [Option.some.injEq] at hstep
    subst hstep
    exact ⟨htr.1, htr.2.1⟩
  · simp only [Option.some.injEq] at hstep
    subst hstep
    exact ⟨htr.2.2.1, htr.2.2.2⟩

/-- The program of `main` on Delegate handles runs to a state in which no two live handles
hold the same resource and nothing was deallocated twice. -/
theorem delegate_single_holder_witness :
    ∃ M : DelegateMachine Int,
      DelegateMachine.run StorageStrategy.SinglePtrStorageStrategy
        (DelegateMachine.init fun _ => none)
        [.construct 0 7, .copy 1 0, .destroy 1, .construct 2 8, .assign 0 2] = some M ∧
      (∀ a ∈ M.live, ∀ b ∈ M.live, a ≠ b → (M.st.obj a).ptr = (M.st.obj b).ptr →
        (M.st.obj a).ptr = none) ∧
      (∀ p, M.st.mem.trace.count (StorageStrategy.SinglePtrStorageStrategy.deleteEvent p) ≤ 1) := by
  have h : ∃ M : DelegateMachine Int,
      DelegateMachine.run StorageStrategy.SinglePtrStorageStrategy
        (DelegateMachine.init fun _ => none)
        [.construct 0 7, .copy 1 0, .destroy 1, .construct 2 8, .assign 0 2] = some M :=
    ⟨_, rfl⟩
  obtain ⟨M, hM⟩ := h
  have hth := delegate_single_holder _ _ _ M hM
  exact ⟨M, hM, hth.1, hth.2.1⟩

end DelegateReachable


/-! ## Programs over Ref-Counted handles -/

section RefCounterPrograms

variable {T : Type}

/-- C15. The counter invariant does not hold in every reachable state, because the constructor
increments a `count` that was never initialised. When `new ReferenceCounter` returns memory
that holds 1, the program that constructs one handle reaches a state with one live handle whose
counter has the value 2. The same defect (no initialisation of `ReferenceCounter::count`)
underlies C1, C3 and C13. -/
theorem refcounted_counter_invariant_broken :
    ∃ st : RefCounterState Int,
      RefCounterState.run StorageStrategy.SinglePtrStorageStrategy ⟨Mem.empty Int, []⟩
        [.construct 7 100 1] = some st ∧
      st.live = [⟨some 7, some 100⟩] ∧ st.mem.counters 100 = some 2 ∧
      sharers st.live 100 = 1 ∧ ¬ RefCounterInv st := by
  refine ⟨_, rfl, by decide, by decide, by decide, fun h => ?_⟩
  exact absurd (h 100 2 (by decide)).1 (by decide)

end RefCounterPrograms


/-! ### The counter invariant over zeroed memory

The invariant of C15 is what the code maintains once `count` starts from 0: it holds in every
reachable state of a program whose constructors all find zeroed memory. -/

section RefCounterZeroedPrograms

variable {T : Type}

theorem sharers_append (l1 l2 : List RefCounterHandle) (c : Nat) :
    sharers (l1 ++ l2) c = sharers l1 c + sharers l2 c := by
  simp [sharers, List.countP_append]

theorem sharers_singleton (h : RefCounterHandle) (c : Nat) :
    sharers [h] c = if h.counter = some c then 1 else 0 := by
  by_cases hc : h.counter = some c <;> simp [sharers, List.countP_cons, hc]

theorem sharers_erase (live : List RefCounterHandle) (h : RefCounterHandle) (hmem : h ∈ live)
    (c : Nat) :
    sharers live c = (if h.counter = some c then 1 else 0) + sharers (live.erase h) c := by
  have hperm := List.perm_cons_erase hmem
  unfold sharers
  rw [hperm.countP_eq, List.countP_cons]
  by_cases hc : h.counter = some c <;> simp [hc, Nat.add_comm]

theorem sharers_le_length (live : List RefCounterHandle) (c : Nat) :
    sharers live c ≤ live.length :=
  List.countP_le_length _

theorem sharers_pos (live : List RefCounterHandle) (h : RefCounterHandle) (hmem : h ∈ live)
    (c : Nat) (hc : h.counter = some c) : 1 ≤ sharers live c := by
  rw [sharers_erase live h hmem c, if_pos hc]
  omega

theorem sharers_eq_zero (st : RefCounterState T) (hWF : RefCounterWF st) (c : Nat)
    (hc : st.mem.counters c = none) : sharers st.live c = 0 := by
  unfold sharers
  rw [List.countP_eq_zero]
  intro h hh
  obtain ⟨c1, v1, hc1, hv1⟩ := hWF.2 h hh
  simp only [decide_eq_true_eq]
  intro hcc
  rw [hc1, Option.some.injEq] at hcc
  rw [hcc, hc] at hv1
  exact Option.noConfusion hv1

/-- Adding a handle on the counter at `c` and adding one to that counter keeps the invariant,
both when the counter is new (value 0 before) and when the handle copies a live one. -/
theorem rcWF_add (st st1 : RefCounterState T) (hWF : RefCounterWF st) (p : Option Nat)
    (c v : Nat)
    (hc : st1.mem.counters = Function.update st.mem.counters c (some (v + 1)))
    (hl : st1.live = st.live ++ [⟨p, some c⟩])
    (hv : (st.mem.counters c = none ∧ v = 0) ∨
      (st.mem.counters c = some v ∧ (⟨p, some c⟩ : RefCounterHandle) ∈ st.live)) :
    RefCounterWF st1 := by
  have hsh : sharers st.live c = v := by
    rcases hv with ⟨hnone, hv0⟩ | ⟨hsome, -⟩
    · rw [hv0]
      exact sharers_eq_zero st hWF c hnone
    · exact ((hWF.1 c v hsome).1).symm
  have hold : ∀ h ∈ st.live, h.counter = some c → h.ptr = p := by
    intro h hh hhc
    rcases hv with ⟨hnone, -⟩ | ⟨hsome, hmem⟩
    · obtain ⟨c1, v1, hc1, hv1⟩ := hWF.2 h hh
      rw [hc1, Option.some.injEq] at hhc
      rw [hhc, hnone] at hv1
      exact Option.noConfusion hv1
    · exact (hWF.1 c v hsome).2.2 h hh _ hmem hhc rfl
  refine ⟨?_, ?_⟩
  · intro c1 v1 hv1
    rw [hc] at hv1
    rw [hl]
    by_cases hcc : c1 = c
    · subst hcc
      rw [Function.update_same, Option.some.injEq] at hv1
      subst hv1
      refine ⟨?_, by omega, ?_⟩
      · rw [sharers_append, sharers_singleton, if_pos rfl, hsh]
      · intro h1 hh1 h2 hh2 hc1 hc2
        have key : ∀ h ∈ st.live ++ [(⟨p, some c1⟩ : RefCounterHandle)],
            h.counter = some c1 → h.ptr = p := by
          intro h hh hhc
          rcases List.mem_append.mp hh with hh | hh
          · exact hold h hh hhc
          · rw [List.mem_singleton.mp hh]
        rw [key h1 hh1 hc1, key h2 hh2 hc2]
    · rw [Function.update_noteq hcc] at hv1
      obtain ⟨he, hone, hsame⟩ := hWF.1 c1 v1 hv1
      have hcc2 : ¬ (some c = some c1) := fun h => hcc (Option.some.inj h).symm
      refine ⟨?_, hone, ?_⟩
      · rw [sharers_append, sharers_singleton, if_neg hcc2, Nat.add_zero]
        exact he
      · intro h1 hh1 h2 hh2 hc1 hc2
        have key : ∀ h ∈ st.live ++ [(⟨p, some c⟩ : RefCounterHandle)],
            h.counter = some c1 → h ∈ st.live := by
          intro h hh hhc
          rcases List.mem_append.mp hh with hh | hh
          · exact hh
          · rw [List.mem_singleton.mp hh] at hhc
            exact absurd hhc hcc2
        exact hsame h1 (key h1 hh1 hc1) h2 (key h2 hh2 hc2) hc1 hc2
  · intro h hh
    rw [hl] at hh
    rw [hc]
    rcases List.mem_append.mp hh with hh | hh
    · obtain ⟨c1, v1, hc1, hv1⟩ := hWF.2 h hh
      by_cases hcc : c1 = c
      · exact ⟨c1, v + 1, hc1, by rw [hcc, Function.update_same]⟩
      · exact ⟨c1, v1, hc1, by rw [Function.update_noteq hcc]; exact hv1⟩
    · rw [List.mem_singleton.mp hh]
      exact ⟨c, v + 1, rfl, by rw [Function.update_same]⟩

/-- Removing a live handle on the counter at `c` and taking one from that counter, or
deallocating the counter when its value was 1, keeps the invariant. -/
theorem rcWF_remove (st st1 : RefCounterState T) (hWF : RefCounterWF st) (p : Option Nat)
    (c v : Nat) (hm : st.mem.counters c = some v)
    (hmem : (⟨p, some c⟩ : RefCounterHandle) ∈ st.live)
    (hc : st1.mem.counters =
      Function.update st.mem.counters c (if v = 1 then none else some (v - 1)))
    (hl : st1.live = st.live.erase ⟨p, some c⟩) :
    RefCounterWF st1 := by
  obtain ⟨hv, hone, hsame⟩ := hWF.1 c v hm
  have hsh : v = 1 + sharers (st.live.erase ⟨p, some c⟩) c := by
    rw [hv]
    have := sharers_erase st.live ⟨p, some c⟩ hmem c
    rw [if_pos rfl] at this
    exact this
  refine ⟨?_, ?_⟩
  · intro c1 v1 hv1
    rw [hc] at hv1
    rw [hl]
    by_cases hcc : c1 = c
    · subst hcc
      rw [Function.update_same] at hv1
      by_cases h1 : v = 1
      · rw [if_pos h1] at hv1
        exact Option.noConfusion hv1
      · rw [if_neg h1, Option.some.injEq] at hv1
        refine ⟨by omega, by omega, ?_⟩
        intro h1 hh1 h2 hh2 hc1 hc2
        exact hsame h1 (List.mem_of_mem_erase hh1) h2 (List.mem_of_mem_erase hh2) hc1 hc2
    · rw [Function.update_noteq hcc] at hv1
      obtain ⟨he, hone1, hsame1⟩ := hWF.1 c1 v1 hv1
      have hcc2 : ¬ (some c = some c1) := fun h => hcc (Option.some.inj h).symm
      refine ⟨?_, hone1, ?_⟩
      · have := sharers_erase st.live ⟨p, some c⟩ hmem c1
        rw [if_neg hcc2, Nat.zero_add] at this
        rw [← this]
        exact he
      · intro h1 hh1 h2 hh2 hc1 hc2
        exact hsame1 h1 (List.mem_of_mem_erase hh1) h2 (List.mem_of_mem_erase hh2) hc1 hc2
  · intro h hh
    rw [hl] at hh
    rw [hc]
    obtain ⟨c1, v1, hc1, hv1⟩ := hWF.2 h (List.mem_of_mem_erase hh)
    by_cases hcc : c1 = c
    · have hpos := sharers_pos _ h hh c (by rw [hc1, hcc])
      have h1 : v ≠ 1 := by omega
      exact ⟨c1, v - 1, hc1, by rw [hcc, Function.update_same, if_neg h1]⟩
    · exact ⟨c1, v1, hc1, by rw [Function.update_noteq hcc]; exact hv1⟩

end RefCounterZeroedPrograms


section RefCounterZeroedRun

variable {T : Type}

theorem handle_eta (h : RefCounterHandle) (c : Nat) (hc : h.counter = some c) :
    h = ⟨h.ptr, some c⟩ := by
  cases h
  simp only at hc
  rw [hc]

/-- Assignment is the copy construction of the parameter from the right-hand side followed
by the destruction of the old fields of `this`; the new fields are those of the copy. -/
theorem refcounted_assign_eq (S : StorageStrategy) (m : Mem T) (this rhs : RefCounterHandle) :
    RefCounterOwnershipStrategy.assign S m this rhs =
      (RefCounterOwnershipStrategy.copyCtor m rhs).bind fun r =>
        (RefCounterOwnershipStrategy.dtor S r.1 this).map fun d => (d.1, r.2) := by
  unfold RefCounterOwnershipStrategy.assign
  cases RefCounterOwnershipStrategy.copyCtor m rhs with
  | none => rfl
  | some r =>
    simp only [Option.bind_eq_bind, Option.some_bind, RefCounterOwnershipStrategy.swap]
    cases RefCounterOwnershipStrategy.dtor S r.1 ⟨this.ptr, this.counter⟩ <;> rfl

theorem rcWF_construct (st : RefCounterState T) (hWF : RefCounterWF st) (p c : Nat)
    (hc : st.mem.counters c = none) :
    RefCounterWF
      { mem := (RefCounterOwnershipStrategy.ctor st.mem (some p) c 0).1
        live := st.live ++ [(RefCounterOwnershipStrategy.ctor st.mem (some p) c 0).2] } :=
  rcWF_add st _ hWF (some p) c 0 rfl rfl (Or.inl ⟨hc, rfl⟩)

theorem rcWF_copy (st : RefCounterState T) (hWF : RefCounterWF st) (other : RefCounterHandle)
    (ho : other ∈ st.live) (hlen : st.live.length + 1 < 2 ^ 64) :
    ∃ r, RefCounterOwnershipStrategy.copyCtor st.mem other = some r ∧ r.2 = other ∧
      RefCounterWF { mem := r.1, live := st.live ++ [r.2] } := by
  obtain ⟨c, v, hc, hv⟩ := hWF.2 other ho
  have heta := handle_eta other c hc
  have hle := sharers_le_length st.live c
  have hvs := (hWF.1 c v hv).1
  have hadd : ReferenceCounter.addReference v = v + 1 := addReference_of_lt v (by omega)
  refine ⟨_, by rw [heta]; exact refcounted_copyCtor_eq st.mem other.ptr c v hv, heta.symm, ?_⟩
  refine rcWF_add st _ hWF other.ptr c v ?_ rfl (Or.inr ⟨hv, heta ▸ ho⟩)
  simp only [hadd]

theorem rcWF_destroy (S : StorageStrategy) (st : RefCounterState T) (hWF : RefCounterWF st)
    (this : RefCounterHandle) (ht : this ∈ st.live) (hlen : st.live.length < 2 ^ 64) :
    ∃ r, RefCounterOwnershipStrategy.dtor S st.mem this = some r ∧
      RefCounterWF { mem := r.1, live := st.live.erase this } := by
  obtain ⟨c, v, hc, hv⟩ := hWF.2 this ht
  have heta := handle_eta this c hc
  have hle := sharers_le_length st.live c
  obtain ⟨hvs, hone, -⟩ := hWF.1 c v hv
  have hrel : ReferenceCounter.release v = v - 1 := by
    have := release_succ (v - 1) (by omega)
    rwa [Nat.sub_add_cancel hone] at this
  have hmem : (⟨this.ptr, some c⟩ : RefCounterHandle) ∈ st.live := heta ▸ ht
  by_cases h1 : v = 1
  · have hz : ReferenceCounter.release v = 0 := by rw [hrel, h1]
    refine ⟨_, by rw [heta]; exact refcounted_dtor_zero S st.mem this.ptr c v hv hz, ?_⟩
    refine rcWF_remove st _ hWF this.ptr c v hv hmem ?_ (by rw [← heta])
    simp only [deletePtr_counters, if_pos h1]
  · have hz : ReferenceCounter.release v ≠ 0 := by rw [hrel]; omega
    refine ⟨_, by rw [heta]; exact refcounted_dtor_ne S st.mem this.ptr c v hv hz, ?_⟩
    refine rcWF_remove st _ hWF this.ptr c v hv hmem ?_ (by rw [← heta])
    simp only [if_neg h1, hrel]

theorem rcWF_assign (S : StorageStrategy) (st : RefCounterState T) (hWF : RefCounterWF st)
    (this rhs : RefCounterHandle) (ht : this ∈ st.live) (hr : rhs ∈ st.live)
    (hlen : st.live.length + 1 < 2 ^ 64) :
    ∃ r, RefCounterOwnershipStrategy.assign S st.mem this rhs = some r ∧ r.2 = rhs ∧
      RefCounterWF { mem := r.1, live := st.live.erase this ++ [r.2] } := by
  obtain ⟨r, hcopy, hr2, hWF1⟩ := rcWF_copy st hWF rhs hr hlen
  obtain ⟨d, hd, hWF2⟩ := rcWF_destroy S _ hWF1 this (List.mem_append_left _ ht)
    (by simp only [List.length_append, List.length_singleton]; omega)
  refine ⟨(d.1, r.2), ?_, hr2, ?_⟩
  · rw [refcounted_assign_eq, hcopy, Option.some_bind, hd, Option.map_some']
  · have herase : (st.live ++ [r.2]).erase this = st.live.erase this ++ [r.2] :=
      List.erase_append_left _ ht
    rw [← herase]
    exact hWF2

/-- One admissible operation over zeroed memory succeeds, keeps the invariant and adds at most
one live handle. -/
theorem rc_step_wf (S : StorageStrategy) (st : RefCounterState T) (hWF : RefCounterWF st)
    (op : RefCounterOp) (hadm : op.Admissible st) (hz : op.Zeroed)
    (hlen : st.live.length + 1 < 2 ^ 64) :
    ∃ st1, st.step S op = some st1 ∧ RefCounterWF st1 ∧
      st1.live.length ≤ st.live.length + 1 := by
  unfold RefCounterState.step
  rw [if_pos hadm]
  cases op with
  | construct p c garbage =>
    have hg : garbage = 0 := hz
    subst hg
    exact ⟨_, rfl, rcWF_construct st hWF p c hadm, by simp⟩
  | copy other =>
    obtain ⟨r, hcopy, -, hWF1⟩ := rcWF_copy st hWF other hadm hlen
    exact ⟨_, by simp only [hcopy, Option.map_some'], hWF1, by simp⟩
  | assign this rhs =>
    obtain ⟨r, hass, -, hWF1⟩ := rcWF_assign S st hWF this rhs hadm.1 hadm.2 hlen
    refine ⟨_, by simp only [hass, Option.map_some'], hWF1, ?_⟩
    simp only [List.length_append, List.length_singleton, List.length_erase_of_mem hadm.1]
    omega
  | destroy this =>
    obtain ⟨r, hd, hWF1⟩ := rcWF_destroy S st hWF this hadm (by omega)
    refine ⟨_, by simp only [hd, Option.map_some'], hWF1, ?_⟩
    simp only [List.length_erase_of_mem hadm]
    omega

theorem rc_run_wf (S : StorageStrategy) (ops : List RefCounterOp) :
    ∀ (st st1 : RefCounterState T), RefCounterWF st → (∀ op ∈ ops, op.Zeroed) →
      st.live.length + ops.length + 1 < 2 ^ 64 → RefCounterState.run S st ops = some st1 →
      RefCounterWF st1 ∧ st1.live.length ≤ st.live.length + ops.length := by
  induction ops with
  | nil =>
    intro st st1 hWF _ _ hrun
    simp only [RefCounterState.run, Option.some.injEq] at hrun
    subst hrun
    exact ⟨hWF, by simp⟩
  | cons op ops ih =>
    intro st st1 hWF hz hlen hrun
    simp only [RefCounterState.run] at hrun
    simp only [List.length_cons] at hlen ⊢
    cases hstep : st.step S op with
    | none =>
      rw [hstep] at hrun
      exact Option.noConfusion hrun
    | some st2 =>
      rw [hstep] at hrun
      have hadm : op.Admissible st := by
        by_contra hna
        unfold RefCounterState.step at hstep
        rw [if_neg hna] at hstep
        exact Option.noConfusion hstep
      obtain ⟨st3, hstep3, hWF3, hlen3⟩ :=
        rc_step_wf S st hWF op hadm (hz op (List.mem_cons_self _ _)) (by omega)
      rw [hstep, Option.some.injEq] at hstep3
      subst hstep3
      obtain ⟨hWF1, hlen1⟩ := ih st2 st1 hWF3
        (fun o ho => hz o (List.mem_cons_of_mem _ ho)) (by omega) hrun
      exact ⟨hWF1, by omega⟩

/-- Over zeroed memory the counter invariant of C15 holds: in every state a program of fewer
than `2 ^ 64 - 1` admissible operations reaches from the empty heap when each constructor finds
0 in the memory of its new counter, the value of every live counter is the number of live
handles pointing to it, it is at least 1, and those handles hold the same resource pointer;
and every further admissible operation succeeds. -/
theorem refcounted_counter_invariant_zeroed (S : StorageStrategy) (m0 : Mem T)
    (ops : List RefCounterOp) (st : RefCounterState T)
    (hm0 : ∀ c, m0.counters c = none) (hz : ∀ op ∈ ops, op.Zeroed)
    (hlen : ops.length + 1 < 2 ^ 64)
    (hrun : RefCounterState.run S ⟨m0, []⟩ ops = some st) :
    RefCounterInv st ∧
    ∀ op : RefCounterOp, op.Admissible st → ∃ st1, st.step S op = some st1 := by
  have hWF0 : RefCounterWF (⟨m0, []⟩ : RefCounterState T) := by
    refine ⟨fun c v hv => ?_, fun h hh => absurd hh (List.not_mem_nil _)⟩
    rw [hm0 c] at hv
    exact Option.noConfusion hv
  obtain ⟨hWF, hl⟩ := rc_run_wf S ops ⟨m0, []⟩ st hWF0 hz
    (by simp only [List.length_nil]; omega) hrun
  simp only [List.length_nil, Nat.zero_add] at hl
  refine ⟨hWF.1, ?_⟩
  intro op hadm
  unfold RefCounterState.step
  rw [if_pos hadm]
  cases op with
  | construct p c garbage => exact ⟨_, rfl⟩
  | copy other =>
    obtain ⟨r, hcopy, -, -⟩ := rcWF_copy st hWF other hadm (by omega)
    exact ⟨{ mem := r.1, live := st.live ++ [r.2] }, by simp only [hcopy, Option.map_some']⟩
  | assign this rhs =>
    obtain ⟨r, hass, -, -⟩ := rcWF_assign S st hWF this rhs hadm.1 hadm.2 (by omega)
    exact ⟨{ mem := r.1, live := st.live.erase this ++ [r.2] }, by simp only [hass, Option.map_some']⟩
  | destroy this =>
    obtain ⟨r, hd, -⟩ := rcWF_destroy S st hWF this hadm (by omega)
    exact ⟨{ mem := r.1, live := st.live.erase this }, by simp only [hd, Option.map_some']⟩

/-- The Ref-Counted part of `main` over zeroed memory: `sm_ptr_2` on resource 7, its copy
`sm_ptr_2_1`, the end of the copy's scope, `sm_ptr_2_2` on resource 8 and
`sm_ptr_2 = sm_ptr_2_2` run to a state that satisfies the counter invariant. -/
theorem refcounted_counter_invariant_zeroed_witness :
    ∃ st : RefCounterState Int,
      RefCounterState.run StorageStrategy.SinglePtrStorageStrategy ⟨Mem.empty Int, []⟩
        [.construct 7 100 0, .copy ⟨some 7, some 100⟩, .destroy ⟨some 7, some 100⟩,
         .construct 8 101 0, .assign ⟨some 7, some 100⟩ ⟨some 8, some 101⟩] = some st ∧
      RefCounterInv st := by
  have h : ∃ st : RefCounterState Int,
      RefCounterState.run StorageStrategy.SinglePtrStorageStrategy ⟨Mem.empty Int, []⟩
        [.construct 7 100 0, .copy ⟨some 7, some 100⟩, .destroy ⟨some 7, some 100⟩,
         .construct 8 101 0, .assign ⟨some 7, some 100⟩ ⟨some 8, some 101⟩] = some st :=
    ⟨_, rfl⟩
  obtain ⟨st, hst⟩ := h
  refine ⟨st, hst, (refcounted_counter_invariant_zeroed _ _ _ st (fun _ => rfl) ?_ ?_ hst).1⟩
  · intro op hop
    simp only [List.mem_cons, List.mem_singleton, List.not_mem_nil, or_false] at hop
    rcases hop with rfl | rfl | rfl | rfl | rfl <;> simp [RefCounterOp.Zeroed]
  · norm_num

end RefCounterZeroedRun

end SmartPointers
